import Mathlib

/-!
Shallow embedding of `src/list.h`: a doubly-linked `list<T>` (instantiated at
`T = Int`) with an embedded sentinel node `end_` and a cached `begin_`
pointer.  Nodes live in an explicit heap indexed by addresses; `nullptr` is
modelled by `Option.none`.  The base class `node` holds only the `left_`
pointer; the derived `data_node` adds `value_` and `right_`, and the member
functions `node::value()` / `node::right()` downcast to `data_node`, which is
undefined behaviour on the sentinel — modelled by returning `none`.
Every operation is translated statement by statement from the source;
executions that would be undefined behaviour in C++ evaluate to `none`.
-/

set_option autoImplicit false

namespace LinkedList

/-- A C++ pointer value: `some a` is the address of a node, `none` models
`nullptr`.  Addresses are plain naturals. -/
abbrev Ptr := Option Nat

/-- Heap image of a `node` object.  `val = none` and `right = none` mean the
object is a plain `node` (the embedded sentinel `end_`), which has no
`value_` / `right_` fields at all; a `data_node` stores `val = some v` and
`right = some p`, where the inner `p : Ptr` is the stored pointer value. -/
structure HNode where
  left : Ptr
  val : Option Int
  right : Option Ptr
deriving DecidableEq

/-- First-match lookup in an association list of heap cells. -/
def lookupA : List (Nat × HNode) → Nat → Option HNode
  | [], _ => none
  | e :: es, a => if e.1 = a then some e.2 else lookupA es a

/-- The memory: heap cells (earlier entries shadow later ones) plus a bump
allocator counter delivering fresh addresses. -/
structure Mem where
  heap : List (Nat × HNode)
  next : Nat
deriving DecidableEq

def Mem.read (m : Mem) (a : Nat) : Option HNode := lookupA m.heap a

def Mem.write (m : Mem) (a : Nat) (n : HNode) : Mem :=
  ⟨(a, n) :: m.heap, m.next⟩

/-- Model of `new`: the allocator hands out the next unused address. -/
def Mem.alloc (m : Mem) (n : HNode) : Nat × Mem :=
  (m.next, ⟨(m.next, n) :: m.heap, m.next + 1⟩)

/-- Model of `delete` / end of storage duration: the cell disappears. -/
def Mem.free (m : Mem) (a : Nat) : Mem :=
  ⟨m.heap.filter (fun e => e.1 ≠ a), m.next⟩

/-- Allocator discipline: every live cell sits below the bump pointer. -/
def Mem.wf (m : Mem) : Bool := m.heap.all (fun e => e.1 < m.next)

/-- `node::value()`, i.e. `static_cast<data_node*>(this)->value_`;
undefined on the sentinel. -/
def Mem.readVal (m : Mem) (a : Nat) : Option Int := (m.read a).bind (·.val)

/-- `node::right()` as an rvalue; undefined on the sentinel. -/
def Mem.readRight (m : Mem) (a : Nat) : Option Ptr := (m.read a).bind (·.right)

/-- Read of the base-class field `left_` (defined on every node). -/
def Mem.readLeft (m : Mem) (a : Nat) : Option Ptr := (m.read a).map (·.left)

/-- Assignment to the base-class field `left_`. -/
def Mem.writeLeft (m : Mem) (a : Nat) (p : Ptr) : Option Mem :=
  (m.read a).map (fun n => m.write a { n with left := p })

/-- Assignment through `node::right()`; undefined on the sentinel. -/
def Mem.writeRight (m : Mem) (a : Nat) (p : Ptr) : Option Mem :=
  (m.read a).bind (fun n => n.right.map (fun _ => m.write a { n with right := some p }))

/-- The data members of a `list<T>` object (src/list.h:18-19): the cached
`begin_` pointer and the address of the embedded sentinel `end_`. -/
structure CppList where
  begin_ : Nat
  end_ : Nat
deriving DecidableEq

/-- `list() noexcept : end_(), begin_(&end_)` (src/list.h:216): the embedded
sentinel (a plain `node`, `left_` default-initialised to `nullptr`) comes
into existence at a fresh address and `begin_` caches `&end_`. -/
def listNew (m : Mem) : Mem × CppList :=
  let (s, m1) := m.alloc ⟨none, none, none⟩
  (m1, ⟨s, s⟩)

/-- `bool empty() const noexcept { return end_.left_ == nullptr; }`
(src/list.h:235-238). -/
def emptyQ (m : Mem) (l : CppList) : Option Bool :=
  (m.readLeft l.end_).map (·.isNone)

/-- `T& front()` (src/list.h:240-243): `begin_->value()`. -/
def front (m : Mem) (l : CppList) : Option Int := m.readVal l.begin_

/-- `T& back()` (src/list.h:260-263): `end_.left_->value()`. -/
def back (m : Mem) (l : CppList) : Option Int := do
  let p ← m.readLeft l.end_
  let pa ← p
  m.readVal pa

/-- `iterator insert(const_iterator pos, T const& val)` (src/list.h:327-339).
Returns the updated memory, the updated list object and the address held by
the returned iterator. -/
def insert (m : Mem) (l : CppList) (pos : Nat) (v : Int) :
    Option (Mem × CppList × Nat) := do
  let cur := pos
  -- node* new_node = new data_node(val, cur);  data_node ctor sets value_ and
  -- right_; the node base leaves left_ = nullptr.
  let (nn, m1) := m.alloc ⟨none, some v, some (some cur)⟩
  -- new_node->left_ = cur->left_;
  let cl ← m1.readLeft cur
  let m2 ← m1.writeLeft nn cl
  match cl with
  | some p => do
      -- cur->left_->right() = new_node;
      let m3 ← m2.writeRight p (some nn)
      -- cur->left_ = new_node;
      let m4 ← m3.writeLeft cur (some nn)
      return (m4, l, nn)
  | none => do
      -- begin_ = new_node; cur->left_ = new_node;
      let m3 ← m2.writeLeft cur (some nn)
      return (m3, { l with begin_ := nn }, nn)

/-- `static void destruct_list(node* cur)` (src/list.h:430-437): frees the
null-terminated `left_` chain starting at `cur`.  The C++ recursion is
modelled with explicit fuel (it terminates exactly when the chain is finite
and acyclic); `delete static_cast<data_node*>(cur)` requires the node to be
a `data_node`, hence the check on `val`. -/
def destructList : Nat → Mem → Ptr → Option Mem
  | _, m, none => some m
  | 0, _, some _ => none
  | fuel + 1, m, some a => do
      let n ← m.read a
      let m1 ← destructList fuel m n.left
      let _ ← n.val
      return m1.free a

/-- `iterator erase(const_iterator first, const_iterator last)`
(src/list.h:346-364). -/
def erase (m : Mem) (l : CppList) (first last : Nat) :
    Option (Mem × CppList × Nat) :=
  if first = last then
    some (m, l, last)
  else do
    let cur1 := first
    -- node* cur2 = last.ptr_->left_;
    let p ← m.readLeft last
    let cur2 ← p
    -- cur2->right()->left_ = cur1->left_;
    let r ← m.readRight cur2
    let ra ← r
    let c1l ← m.readLeft cur1
    let m1 ← m.writeLeft ra c1l
    -- if (cur1->left_) { cur1->left_->right() = cur2->right(); }
    -- else { begin_ = cur2->right(); }
    let (m2, l2) ← (match c1l with
      | some q => (m1.writeRight q r).map (fun mm => (mm, l))
      | none => some (m1, { l with begin_ := ra }))
    -- cur1->left_ = nullptr;
    let m3 ← m2.writeLeft cur1 none
    -- cur2->right() = nullptr;
    let m4 ← m3.writeRight cur2 none
    -- destruct_list(cur2);
    let m5 ← destructList (m4.heap.length + 1) m4 (some cur2)
    return (m5, l2, last)

/-- `iterator erase(const_iterator pos)` (src/list.h:341-344):
`erase(pos, std::next(pos))`, where `std::next` advances through
`ptr_ = ptr_->right()`. -/
def erase1 (m : Mem) (l : CppList) (pos : Nat) :
    Option (Mem × CppList × Nat) := do
  let r ← m.readRight pos
  let ra ← r
  erase m l pos ra

/-- `void splice(const_iterator pos, list& other, const_iterator first,
const_iterator last)` (src/list.h:366-390), for the case in which `*this`
and `other` are distinct list objects. -/
def splice (m : Mem) (thisL otherL : CppList) (pos first last : Nat) :
    Option (Mem × CppList × CppList) :=
  if first = last then
    some (m, thisL, otherL)
  else do
    let cur1 := first
    -- node* cur2 = last.ptr_->left_;
    let p ← m.readLeft last
    let cur2 ← p
    let curPos := pos
    -- cur2->right()->left_ = cur1->left_;
    let r ← m.readRight cur2
    let ra ← r
    let c1l ← m.readLeft cur1
    let m1 ← m.writeLeft ra c1l
    -- if (cur1->left_) { cur1->left_->right() = cur2->right(); }
    -- else { other.begin_ = cur2->right(); }
    let (m2, other2) ← (match c1l with
      | some q => (m1.writeRight q r).map (fun mm => (mm, otherL))
      | none => some (m1, { otherL with begin_ := ra }))
    -- cur2->right() = cur_pos;
    let m3 ← m2.writeRight cur2 (some curPos)
    -- cur1->left_ = cur_pos->left_;
    let pl ← m3.readLeft curPos
    let m4 ← m3.writeLeft cur1 pl
    -- if (cur_pos->left_) { cur_pos->left_->right() = cur1; }
    -- else { begin_ = cur1; }
    let (m5, this2) ← (match pl with
      | some q => (m4.writeRight q (some cur1)).map (fun mm => (mm, thisL))
      | none => some (m4, { thisL with begin_ := cur1 }))
    -- cur_pos->left_ = cur2;
    let m6 ← m5.writeLeft curPos (some cur2)
    return (m6, this2, other2)

/-- The same `splice` body instantiated with `other` aliasing `*this`
(`A.splice(pos, A, first, last)`): the two occurrences of `begin_` and
`other.begin_` update the one field of the single list object. -/
def spliceSelf (m : Mem) (l : CppList) (pos first last : Nat) :
    Option (Mem × CppList) :=
  if first = last then
    some (m, l)
  else do
    let cur1 := first
    let p ← m.readLeft last
    let cur2 ← p
    let curPos := pos
    let r ← m.readRight cur2
    let ra ← r
    let c1l ← m.readLeft cur1
    let m1 ← m.writeLeft ra c1l
    let (m2, ll2) ← (match c1l with
      | some q => (m1.writeRight q r).map (fun mm => (mm, l))
      | none => some (m1, { l with begin_ := ra }))
    let m3 ← m2.writeRight cur2 (some curPos)
    let pl ← m3.readLeft curPos
    let m4 ← m3.writeLeft cur1 pl
    let (m5, ll3) ← (match pl with
      | some q => (m4.writeRight q (some cur1)).map (fun mm => (mm, ll2))
      | none => some (m4, { ll2 with begin_ := cur1 }))
    let m6 ← m5.writeLeft curPos (some cur2)
    return (m6, ll3)

/-- `void swap(list& other)` (src/list.h:418-428), for distinct list
objects `a` (the receiver) and `b` (the argument). -/
def swapLists (m : Mem) (a b : CppList) :
    Option (Mem × CppList × CppList) := do
  -- std::swap(end_.left_, other.end_.left_);
  let la ← m.readLeft a.end_
  let lb ← m.readLeft b.end_
  let m1 ← m.writeLeft a.end_ lb
  let m2 ← m1.writeLeft b.end_ la
  -- std::swap(begin_, other.begin_);
  let a2 : CppList := { a with begin_ := b.begin_ }
  let b2 : CppList := { b with begin_ := a.begin_ }
  -- if (end_.left_) { end_.left_->right() = &end_; }
  let m3 ← (match lb with
    | some x => m2.writeRight x (some a.end_)
    | none => some m2)
  -- if (other.end_.left_) { other.end_.left_->right() = &other.end_; }
  let m4 ← (match la with
    | some x => m3.writeRight x (some b.end_)
    | none => some m3)
  return (m4, a2, b2)

/-- The `swap` body instantiated with `other` aliasing `*this`
(`swap(L, L)` calls `a.swap(b)` with `a` and `b` the same object):
`std::swap` of a field with itself leaves it unchanged, and each fixup
re-reads `end_.left_` of the single object. -/
def swapSelf (m : Mem) (l : CppList) : Option (Mem × CppList) := do
  let la ← m.readLeft l.end_
  let m1 ← (match la with
    | some x => m.writeRight x (some l.end_)
    | none => some m)
  let la2 ← m1.readLeft l.end_
  let m2 ← (match la2 with
    | some x => m1.writeRight x (some l.end_)
    | none => some m1)
  return (m2, l)

/-- `node* get_begin()` (src/list.h:407-416): walks `left_` links from
`&end_` to the first node (fuel models the loop). -/
def getBegin : Nat → Mem → Nat → Option Nat
  | 0, _, _ => none
  | fuel + 1, m, a => do
      let p ← m.readLeft a
      match p with
      | none => return a
      | some b => getBegin fuel m b

/-- `void push_front(T const& val) { insert(begin(), val); }`
(src/list.h:250-253). -/
def pushFront (m : Mem) (l : CppList) (v : Int) : Option (Mem × CppList) :=
  (insert m l l.begin_ v).map (fun r => (r.1, r.2.1))

/-- `void push_back(T const& val) { insert(end(), val); }`
(src/list.h:270-273). -/
def pushBack (m : Mem) (l : CppList) (v : Int) : Option (Mem × CppList) :=
  (insert m l l.end_ v).map (fun r => (r.1, r.2.1))

/-- `void pop_front() { erase(begin()); }` (src/list.h:255-258). -/
def popFront (m : Mem) (l : CppList) : Option (Mem × CppList) :=
  (erase1 m l l.begin_).map (fun r => (r.1, r.2.1))

/-- `void pop_back() { erase(std::prev(end())); }` (src/list.h:275-278);
`std::prev` steps through `ptr_ = ptr_->left_`. -/
def popBack (m : Mem) (l : CppList) : Option (Mem × CppList) := do
  let p ← m.readLeft l.end_
  let pa ← p
  (erase1 m l pa).map (fun r => (r.1, r.2.1))

/-- Forward iteration from `begin()` to `end()`: while the iterator differs
from `end()`, dereference (`operator*`, i.e. `value()`) and advance
(`operator++`, i.e. `ptr_ = ptr_->right()`). -/
def iterate : Nat → Mem → Nat → Nat → Option (List Int)
  | 0, _, _, _ => none
  | fuel + 1, m, cur, stop =>
      if cur = stop then some []
      else do
        let v ← m.readVal cur
        let r ← m.readRight cur
        let ra ← r
        let rest ← iterate fuel m ra stop
        return v :: rest

/-- The element sequence a client reads by iterating from `begin()` to
`end()`. -/
def elems (m : Mem) (l : CppList) (fuel : Nat) : Option (List Int) :=
  iterate fuel m l.begin_ l.end_

/-! ## Representation predicate

A list state is described by the sequence `ns` of its data nodes as
address/value pairs, in `begin()`-to-`end()` order. -/

/-- Address of the node an iterator at the start of the suffix `ns` refers
to: the first node of `ns`, or `stop` (the sentinel) if `ns` is empty. -/
def headAddr (ns : List (Nat × Int)) (stop : Nat) : Nat :=
  match ns with
  | [] => stop
  | (a, _) :: _ => a

/-- Pointer to the last node of `ns`, or the incoming pointer `p` if `ns`
is empty. -/
def lastPtr (p : Ptr) : List (Nat × Int) → Ptr
  | [] => p
  | (a, _) :: rest => lastPtr (some a) rest

/-- The addresses of a node sequence. -/
def addrs (ns : List (Nat × Int)) : List Nat := ns.map Prod.fst

/-- Boolean distinctness of a list of addresses. -/
def nodupB : List Nat → Bool
  | [] => true
  | a :: as => !as.contains a && nodupB as

/-- `chain m prev ns stop`: the nodes of `ns` sit in `m` as consecutive
`data_node`s, the first one's `left_` being `prev`, each node's `right_`
pointing at the next, and the last one's `right_` pointing at `stop`. -/
def chain (m : Mem) : Ptr → List (Nat × Int) → Nat → Bool
  | _, [], _ => true
  | prev, (a, v) :: rest, stop =>
      (m.read a == some ⟨prev, some v, some (some (headAddr rest stop))⟩) &&
        chain m (some a) rest stop

/-- `repOk m l ns`: the list object `l` represents the value sequence of
`ns` — the data nodes form a chain from `nullptr` on the left to the
sentinel on the right, the sentinel is a plain `node` whose `left_` points
at the last data node (or is `nullptr` when empty), and the `begin_`
cache points at the first data node (or at the sentinel when empty). -/
def repOk (m : Mem) (l : CppList) (ns : List (Nat × Int)) : Bool :=
  (m.read l.end_ == some ⟨lastPtr none ns, none, none⟩) &&
    chain m none ns l.end_ &&
    (l.begin_ == headAddr ns l.end_)

/-- Full invariant of one list state: allocator discipline, representation,
and distinctness of the sentinel and all node addresses. -/
def Inv (m : Mem) (l : CppList) (ns : List (Nat × Int)) : Bool :=
  m.wf && repOk m l ns && nodupB (l.end_ :: addrs ns)

/-- Invariant of two coexisting lists over the same memory: both represent
their sequences and no address is shared. -/
def Inv2 (m : Mem) (la : CppList) (nsa : List (Nat × Int))
    (lb : CppList) (nsb : List (Nat × Int)) : Bool :=
  m.wf && repOk m la nsa && repOk m lb nsb &&
    nodupB (la.end_ :: lb.end_ :: (addrs nsa ++ addrs nsb))

/-! ## Reference double-ended-sequence model -/

/-- The four stack/queue operations of the container's convenience API. -/
inductive Op where
  | pushBack : Int → Op
  | pushFront : Int → Op
  | popBack : Op
  | popFront : Op
deriving DecidableEq

/-- The reference model: a plain sequence of values. -/
def modelStep (xs : List Int) : Op → List Int
  | .pushBack v => xs ++ [v]
  | .pushFront v => v :: xs
  | .popBack => xs.dropLast
  | .popFront => xs.tail

def modelRun (xs : List Int) : List Op → List Int
  | [] => xs
  | o :: os => modelRun (modelStep xs o) os

/-- A program is legal when each pop is applied to a non-empty sequence. -/
def legal (xs : List Int) : List Op → Bool
  | [] => true
  | o :: os =>
      (match o with
       | .popBack => !xs.isEmpty
       | .popFront => !xs.isEmpty
       | _ => true) && legal (modelStep xs o) os

/-- Running the same program against the C++ list. -/
def runOps : Mem → CppList → List Op → Option (Mem × CppList)
  | m, l, [] => some (m, l)
  | m, l, o :: os => do
      let r ← (match o with
        | .pushBack v => pushBack m l v
        | .pushFront v => pushFront m l v
        | .popBack => popBack m l
        | .popFront => popFront m l)
      runOps r.1 r.2 os

/-! ## Fallible element copies

`T`'s copy constructor may fail; `cp v = none` models `T(v)` throwing (a
failing `new` behaves identically, since nothing was yet mutated when the
allocation-plus-copy step fails).  `CRes` distinguishes normal completion
from an exception propagating with the memory in the given state. -/

/-- Outcome of an operation that may propagate an exception. -/
inductive CRes (α : Type) where
  | ok : α → CRes α
  | thrown : Mem → CRes α
deriving DecidableEq

/-- `insert` with a fallible element copy: `new data_node(val, cur)` is the
first statement, so a failure propagates with no state mutated; on success
the remainder of the body is the code of `insert`. -/
def insertF (cp : Int → Option Int) (m : Mem) (l : CppList) (pos : Nat)
    (v : Int) : Option (CRes (Mem × CppList × Nat)) :=
  match cp v with
  | none => some (.thrown m)
  | some v2 => (insert m l pos v2).map .ok

/-- `node* copy_node(node* right, node* orig)` (src/list.h:392-405) with a
fallible element copy: allocate a copy of `orig`'s value, recursively copy
the `left_` chain, and on an exception from the recursive call delete the
node allocated here and rethrow. -/
def copyNodeF (cp : Int → Option Int) :
    Nat → Mem → Nat → Ptr → Option (CRes (Mem × Ptr))
  | _, m, _, none => some (.ok (m, none))
  | 0, _, _, some _ => none
  | fuel + 1, m, right, some orig => do
      -- node* res = new data_node(orig->value(), right);
      let v ← m.readVal orig
      match cp v with
      | none => return .thrown m
      | some v2 =>
        let (res, m1) := m.alloc ⟨none, some v2, some (some right)⟩
        -- res->left_ = copy_node(res, orig->left_);
        let ol ← m1.readLeft orig
        match ← copyNodeF cp fuel m1 res ol with
        | .thrown m2 =>
            -- catch (...) { delete static_cast<data_node*>(res); throw; }
            return .thrown (m2.free res)
        | .ok (m2, p) => do
            let m3 ← m2.writeLeft res p
            return .ok (m3, some res)

/-- `list(list const& other) : list()` (src/list.h:218-222) with a fallible
element copy: default-construct (the embedded sentinel is part of the new
object's storage), then `end_.left_ = copy_node(&end_, other.end_.left_)`
and `begin_ = get_begin()`.  If the constructor body throws, the new
object's storage — its embedded sentinel — is released. -/
def listCopyF (cp : Int → Option Int) (m : Mem) (other : CppList) :
    Option (CRes (Mem × CppList)) := do
  -- list() : the embedded sentinel of the object under construction
  let (s, m1) := m.alloc ⟨none, none, none⟩
  let ol ← m1.readLeft other.end_
  match ← copyNodeF cp (m1.heap.length + 1) m1 s ol with
  | .thrown m2 =>
      -- constructor body threw: the object is never observed and its
      -- storage (the embedded sentinel) is released
      return .thrown (m2.free s)
  | .ok (m2, p) => do
      -- end_.left_ = copy_node(&end_, other.end_.left_);
      let m3 ← m2.writeLeft s p
      -- begin_ = get_begin();
      let b ← getBegin (m3.heap.length + 1) m3 s
      return .ok (m3, ⟨b, s⟩)

/-- `list& operator=(list const& other)` (src/list.h:224-228):
`list(other).swap(*this);` — on normal completion the temporary, now
holding the target's old chain, is destroyed (`destruct_list` on its
`end_.left_` and release of its automatic storage); if the copy
construction throws, `swap` never runs and `*this` is untouched. -/
def assignF (cp : Int → Option Int) (m : Mem) (thisL other : CppList) :
    Option (CRes (Mem × CppList)) := do
  match ← listCopyF cp m other with
  | .thrown m1 => return .thrown m1
  | .ok (m1, tmp) => do
      -- list(other).swap(*this): the temporary is the receiver
      let (m2, tmp2, this2) ← swapLists m1 tmp thisL
      -- ~list() of the temporary: destruct_list(end_.left_), then its
      -- automatic storage (the embedded sentinel) goes away
      let tl ← m2.readLeft tmp2.end_
      let m3 ← destructList (m2.heap.length + 1) m2 tl
      return .ok ((m3.free tmp2.end_), this2)

/-- The non-throwing instantiation of the element copy (e.g. `T = int`). -/
def cpId : Int → Option Int := fun v => some v

/-- Chain visited by `destruct_list`, given in visiting order (each node's
`left_` points at the next list entry, the last one's at `q`). -/
def dchainP (m : Mem) : Ptr → List (Nat × Int) → Ptr → Bool
  | p, [], q => p == q
  | p, (a, v) :: rest, q =>
      (p == some a) &&
        (match m.read a with
         | none => false
         | some n => (n.val == some v) && dchainP m n.left rest q)

/-! ## Concrete example states

Small reachable states, built by running the constructors and `push_back`
on the empty memory, used to instantiate the specifications and to exhibit
the behaviour of `swap` and of copy assignment on concrete inputs. -/

/-- An element copy that always fails (a `T` whose copy constructor
throws on every call). -/
def cpNone : Int → Option Int := fun _ => none

/-- One `push_back` step on a memory/list pair (total on the example
states, where `push_back` always succeeds). -/
def stepPB (s : Mem × CppList) (v : Int) : Mem × CppList :=
  (pushBack s.1 s.2 v).getD (⟨[], 0⟩, ⟨0, 0⟩)

/-- The empty list freshly default-constructed in the empty memory. -/
def ex0 : Mem × CppList := listNew ⟨[], 0⟩

/-- A one-element list `[5]` (sentinel at 0, data node at 1). -/
def ex1 : Mem × CppList := stepPB ex0 5

/-- A list `A = [1, 2, 3, 4]` built by four `push_back`s (sentinel at 0,
data nodes at 1, 2, 3, 4 holding 1, 2, 3, 4). -/
def exA : Mem × CppList := stepPB (stepPB (stepPB (stepPB ex0 1) 2) 3) 4

/-- An empty list `B` (sentinel at 5) coexisting with `A = [1, 2, 3, 4]`
in the same memory. -/
def exB : Mem × CppList := listNew exA.1

/-- A one-element list `A = [1]` (sentinel at 0, data node at 1). -/
def swA : Mem × CppList := stepPB ex0 1

/-- An empty list `B` (sentinel at 2) coexisting with `A = [1]`. -/
def swB : Mem × CppList := listNew swA.1

/-! ## Heap lemmas -/

@[simp] theorem Mem.read_write (m : Mem) (a : Nat) (n : HNode) (b : Nat) :
    (m.write a n).read b = if a = b then some n else m.read b := by
  simp [Mem.read, Mem.write, lookupA]

@[simp] theorem Mem.write_next (m : Mem) (a : Nat) (n : HNode) :
    (m.write a n).next = m.next := rfl

@[simp] theorem Mem.alloc_fst (m : Mem) (n : HNode) :
    (m.alloc n).1 = m.next := rfl

@[simp] theorem Mem.read_alloc (m : Mem) (n : HNode) (b : Nat) :
    (m.alloc n).2.read b = if m.next = b then some n else m.read b := by
  simp [Mem.read, Mem.alloc, lookupA]

@[simp] theorem Mem.alloc_next (m : Mem) (n : HNode) :
    (m.alloc n).2.next = m.next + 1 := rfl

theorem lookupA_filter_ne :
    ∀ (h : List (Nat × HNode)) (a b : Nat),
      lookupA (h.filter (fun e => e.1 ≠ a)) b =
        if a = b then none else lookupA h b
  | [], a, b => by by_cases hab : a = b <;> simp [lookupA, hab]
  | e :: es, a, b => by
      have ih := lookupA_filter_ne es a b
      by_cases hea : e.1 = a
      · rw [List.filter_cons_of_neg (by simp [hea]), ih]
        by_cases hab : a = b
        · simp [hab]
        · rw [if_neg hab, if_neg hab]
          conv_rhs => unfold lookupA
          rw [if_neg (by rw [hea]; exact hab)]
      · rw [List.filter_cons_of_pos (by simp [hea])]
        unfold lookupA
        by_cases heb : e.1 = b
        · rw [if_pos heb, if_pos heb,
            if_neg (fun hh => hea (by rw [heb, ← hh]))]
        · rw [if_neg heb, if_neg heb, ih]

@[simp] theorem Mem.read_free (m : Mem) (a b : Nat) :
    (m.free a).read b = if a = b then none else m.read b := by
  unfold Mem.free Mem.read
  exact lookupA_filter_ne m.heap a b

@[simp] theorem Mem.free_next (m : Mem) (a : Nat) :
    (m.free a).next = m.next := rfl

theorem lookupA_mem :
    ∀ {h : List (Nat × HNode)} {a : Nat} {n : HNode},
      lookupA h a = some n → (a, n) ∈ h
  | [], _, _, h => by simp [lookupA] at h
  | e :: es, a, n, h => by
      unfold lookupA at h
      split at h
      · rename_i he
        rcases Option.some.inj h with rfl
        subst he
        exact List.mem_cons.mpr (Or.inl rfl)
      · exact List.mem_cons.mpr (Or.inr (lookupA_mem h))

theorem Mem.wf_read_lt {m : Mem} {a : Nat} {n : HNode}
    (hwf : m.wf = true) (h : m.read a = some n) : a < m.next := by
  unfold Mem.wf at hwf
  rw [List.all_eq_true] at hwf
  have := hwf _ (lookupA_mem h)
  simpa using this

theorem Mem.wf_write {m : Mem} {a : Nat} {n : HNode}
    (hwf : m.wf = true) (ha : a < m.next) : (m.write a n).wf = true := by
  unfold Mem.wf at hwf ⊢
  rw [List.all_eq_true] at hwf ⊢
  intro e he
  rcases List.mem_cons.mp he with rfl | he2
  · simpa using ha
  · exact hwf e he2

theorem Mem.wf_alloc {m : Mem} {n : HNode} (hwf : m.wf = true) :
    (m.alloc n).2.wf = true := by
  unfold Mem.wf at hwf ⊢
  rw [List.all_eq_true] at hwf ⊢
  intro e he
  rcases List.mem_cons.mp he with rfl | he2
  · simp
  · have := hwf e he2
    simp only [decide_eq_true_eq] at this ⊢
    simp only [Mem.alloc_next]
    omega

theorem Mem.wf_free {m : Mem} {a : Nat} (hwf : m.wf = true) :
    (m.free a).wf = true := by
  unfold Mem.wf at hwf ⊢
  simp only [Mem.free, List.all_eq_true] at *
  intro e he
  exact hwf e (List.mem_of_mem_filter he)

theorem Mem.read_next_none {m : Mem} (hwf : m.wf = true) :
    m.read m.next = none := by
  cases h : m.read m.next with
  | none => rfl
  | some n => exact absurd (Mem.wf_read_lt hwf h) (by omega)

theorem Mem.writeLeft_eq {m : Mem} {a : Nat} {n : HNode}
    (h : m.read a = some n) (p : Ptr) :
    m.writeLeft a p = some (m.write a { n with left := p }) := by
  simp [Mem.writeLeft, h]

theorem Mem.writeRight_eq {m : Mem} {a : Nat} {l : Ptr} {v : Option Int}
    {r : Ptr} (h : m.read a = some ⟨l, v, some r⟩) (p : Ptr) :
    m.writeRight a p = some (m.write a ⟨l, v, some p⟩) := by
  simp [Mem.writeRight, h]

theorem Mem.readLeft_eq {m : Mem} {a : Nat} {n : HNode}
    (h : m.read a = some n) : m.readLeft a = some n.left := by
  simp [Mem.readLeft, h]

theorem Mem.readRight_eq {m : Mem} {a : Nat} {l : Ptr} {v : Option Int}
    {r : Ptr} (h : m.read a = some ⟨l, v, some r⟩) :
    m.readRight a = some r := by
  simp [Mem.readRight, h]

theorem Mem.readVal_eq {m : Mem} {a : Nat} {l : Ptr} {v : Int}
    {r : Option Ptr} (h : m.read a = some ⟨l, some v, r⟩) :
    m.readVal a = some v := by
  simp [Mem.readVal, h]

/-! ## Chain lemmas -/

@[simp] theorem headAddr_nil (stop : Nat) : headAddr [] stop = stop := rfl

@[simp] theorem headAddr_cons (a : Nat) (v : Int) (r : List (Nat × Int))
    (stop : Nat) : headAddr ((a, v) :: r) stop = a := rfl

theorem headAddr_append (xs ys : List (Nat × Int)) (stop : Nat) :
    headAddr (xs ++ ys) stop = headAddr xs (headAddr ys stop) := by
  cases xs with
  | nil => simp
  | cons x r => rcases x with ⟨a, v⟩; simp

@[simp] theorem lastPtr_nil (p : Ptr) : lastPtr p [] = p := rfl

@[simp] theorem lastPtr_cons (p : Ptr) (a : Nat) (v : Int)
    (r : List (Nat × Int)) : lastPtr p ((a, v) :: r) = lastPtr (some a) r := rfl

theorem lastPtr_append (p : Ptr) (xs ys : List (Nat × Int)) :
    lastPtr p (xs ++ ys) = lastPtr (lastPtr p xs) ys := by
  induction xs generalizing p with
  | nil => simp
  | cons x r ih => rcases x with ⟨a, v⟩; simp [ih]

theorem lastPtr_concat (p : Ptr) (xs : List (Nat × Int)) (a : Nat)
    (v : Int) : lastPtr p (xs ++ [(a, v)]) = some a := by
  simp [lastPtr_append]

theorem lastPtr_eq_none_iff (xs : List (Nat × Int)) :
    lastPtr none xs = none ↔ xs = [] := by
  cases xs using List.reverseRecOn with
  | nil => simp
  | append_singleton r x => rcases x with ⟨a, v⟩; simp [lastPtr_concat]

@[simp] theorem addrs_nil : addrs [] = [] := rfl

@[simp] theorem addrs_cons (a : Nat) (v : Int) (r : List (Nat × Int)) :
    addrs ((a, v) :: r) = a :: addrs r := rfl

@[simp] theorem addrs_append (xs ys : List (Nat × Int)) :
    addrs (xs ++ ys) = addrs xs ++ addrs ys := by
  simp [addrs]

@[simp] theorem chain_nil (m : Mem) (p : Ptr) (stop : Nat) :
    chain m p [] stop = true := rfl

theorem chain_cons (m : Mem) (p : Ptr) (a : Nat) (v : Int)
    (rest : List (Nat × Int)) (stop : Nat) :
    chain m p ((a, v) :: rest) stop =
      ((m.read a == some ⟨p, some v, some (some (headAddr rest stop))⟩) &&
        chain m (some a) rest stop) := rfl

theorem chain_append (m : Mem) (p : Ptr) (xs ys : List (Nat × Int))
    (stop : Nat) :
    chain m p (xs ++ ys) stop =
      (chain m p xs (headAddr ys stop) && chain m (lastPtr p xs) ys stop) := by
  induction xs generalizing p with
  | nil => simp
  | cons x r ih =>
      rcases x with ⟨a, v⟩
      simp only [List.cons_append, chain_cons, ih, lastPtr_cons,
        headAddr_append, Bool.and_assoc]

theorem chain_read {m : Mem} {p : Ptr} {ns : List (Nat × Int)} {stop : Nat}
    (h : chain m p ns stop = true) {a : Nat} {v : Int} (ha : (a, v) ∈ ns) :
    ∃ q r, m.read a = some ⟨q, some v, some r⟩ := by
  induction ns generalizing p with
  | nil => simp at ha
  | cons x r ih =>
      rcases x with ⟨b, w⟩
      rw [chain_cons, Bool.and_eq_true, beq_iff_eq] at h
      rcases List.mem_cons.mp ha with h1 | h1
      · rw [Prod.mk.injEq] at h1
        obtain ⟨rfl, rfl⟩ := h1
        exact ⟨p, _, h.1⟩
      · exact ih h.2 h1

theorem chain_addr_lt {m : Mem} {p : Ptr} {ns : List (Nat × Int)}
    {stop : Nat} (hwf : m.wf = true) (h : chain m p ns stop = true)
    {a : Nat} (ha : a ∈ addrs ns) : a < m.next := by
  simp only [addrs, List.mem_map] at ha
  obtain ⟨⟨b, w⟩, hb, rfl⟩ := ha
  obtain ⟨q, r, hr⟩ := chain_read h hb
  exact Mem.wf_read_lt hwf hr

theorem chain_write_frame (m : Mem) (p : Ptr) (ns : List (Nat × Int))
    (stop : Nat) (a : Nat) (n : HNode) (ha : a ∉ addrs ns) :
    chain (m.write a n) p ns stop = chain m p ns stop := by
  induction ns generalizing p with
  | nil => simp
  | cons x r ih =>
      rcases x with ⟨b, w⟩
      simp only [addrs_cons, List.mem_cons, not_or] at ha
      rw [chain_cons, chain_cons, Mem.read_write, if_neg ha.1, ih _ ha.2]

theorem chain_free_frame (m : Mem) (p : Ptr) (ns : List (Nat × Int))
    (stop : Nat) (a : Nat) (ha : a ∉ addrs ns) :
    chain (m.free a) p ns stop = chain m p ns stop := by
  induction ns generalizing p with
  | nil => simp
  | cons x r ih =>
      rcases x with ⟨b, w⟩
      simp only [addrs_cons, List.mem_cons, not_or] at ha
      rw [chain_cons, chain_cons, Mem.read_free, if_neg ha.1, ih _ ha.2]

theorem chain_alloc_frame (m : Mem) (p : Ptr) (ns : List (Nat × Int))
    (stop : Nat) (n : HNode) (hwf : m.wf = true)
    (h : chain m p ns stop = true) :
    chain (m.alloc n).2 p ns stop = true := by
  induction ns generalizing p with
  | nil => simp
  | cons x r ih =>
      rcases x with ⟨b, w⟩
      rw [chain_cons, Bool.and_eq_true, beq_iff_eq] at h ⊢
      have hb : b < m.next := Mem.wf_read_lt hwf h.1
      rw [Mem.read_alloc, if_neg (show ¬m.next = b by omega)]
      exact ⟨by simp [h.1], ih _ h.2⟩

/-! ## Distinctness lemmas -/

theorem nodupB_iff (as : List Nat) : nodupB as = true ↔ as.Nodup := by
  induction as with
  | nil => simp [nodupB]
  | cons a r ih =>
      simp [nodupB, List.nodup_cons, ih, List.contains, List.elem_iff]

theorem Inv_iff (m : Mem) (l : CppList) (ns : List (Nat × Int)) :
    Inv m l ns = true ↔
      m.wf = true ∧
      m.read l.end_ = some ⟨lastPtr none ns, none, none⟩ ∧
      chain m none ns l.end_ = true ∧
      l.begin_ = headAddr ns l.end_ ∧
      (l.end_ :: addrs ns).Nodup := by
  simp [Inv, repOk, nodupB_iff, Bool.and_eq_true, beq_iff_eq, and_assoc]

theorem Inv2_iff (m : Mem) (la : CppList) (nsa : List (Nat × Int))
    (lb : CppList) (nsb : List (Nat × Int)) :
    Inv2 m la nsa lb nsb = true ↔
      m.wf = true ∧
      repOk m la nsa = true ∧
      repOk m lb nsb = true ∧
      (la.end_ :: lb.end_ :: (addrs nsa ++ addrs nsb)).Nodup := by
  simp [Inv2, nodupB_iff, Bool.and_eq_true, and_assoc]

theorem repOk_iff (m : Mem) (l : CppList) (ns : List (Nat × Int)) :
    repOk m l ns = true ↔
      m.read l.end_ = some ⟨lastPtr none ns, none, none⟩ ∧
      chain m none ns l.end_ = true ∧
      l.begin_ = headAddr ns l.end_ := by
  simp [repOk, Bool.and_eq_true, beq_iff_eq, and_assoc]

/-! ## Generic reduction helpers -/

theorem bind_step {α β : Type} {x : Option α} {a : α} (h : x = some a)
    (f : α → Option β) : (x >>= f) = f a := by
  rw [h]; rfl

theorem read_write_ne (m : Mem) (x : Nat) (n : HNode) {b : Nat}
    (h : ¬x = b) : (m.write x n).read b = m.read b := by
  simp [h]

theorem read_write_self (m : Mem) (x : Nat) (n : HNode) :
    (m.write x n).read x = some n := by simp

@[simp] theorem Mem.read_mk_cons (k : Nat) (n0 : HNode)
    (hp : List (Nat × HNode)) (nx b : Nat) :
    (Mem.mk ((k, n0) :: hp) nx).read b =
      if k = b then some n0 else (Mem.mk hp nx).read b := by
  simp [Mem.read, lookupA]

@[simp] theorem Mem.read_mk_heap (m : Mem) (nx b : Nat) :
    (Mem.mk m.heap nx).read b = m.read b := rfl

theorem headAddr_ne_nil {ns : List (Nat × Int)} (h : ns ≠ []) (s t : Nat) :
    headAddr ns s = headAddr ns t := by
  cases ns with
  | nil => exact absurd rfl h
  | cons x r => rcases x with ⟨a, v⟩; rfl

theorem lastPtr_ne_nil {ns : List (Nat × Int)} (h : ns ≠ []) (p q : Ptr) :
    lastPtr p ns = lastPtr q ns := by
  cases ns with
  | nil => exact absurd rfl h
  | cons x r => rcases x with ⟨a, v⟩; rfl

theorem nodup_addrs_insert (e k : Nat) (xs ys : List (Nat × Int)) (v : Int)
    (h : (e :: addrs (xs ++ ys)).Nodup)
    (hkn : k ∉ e :: addrs (xs ++ ys)) :
    (e :: addrs (xs ++ (k, v) :: ys)).Nodup := by
  have hp : List.Perm (e :: addrs (xs ++ (k, v) :: ys))
      (k :: e :: addrs (xs ++ ys)) := by
    rw [addrs_append, addrs_cons, addrs_append]
    exact List.Perm.trans (List.Perm.cons e List.perm_middle)
      (List.Perm.swap k e _)
  rw [hp.nodup_iff, List.nodup_cons]
  exact ⟨fun hh => hkn hh, h⟩

/-! ## Specification of `insert` -/

/-- Core lemma for `insert`: inserting `v` at the position that splits the
list into `xs` and `ys` succeeds, allocates exactly one node (at the fresh
address `m.next`), links it between `xs` and `ys`, returns an iterator to
it, and touches no other address. -/
theorem insert_spec (m : Mem) (l : CppList) (xs ys : List (Nat × Int))
    (v : Int) (h : Inv m l (xs ++ ys) = true) :
    ∃ m2 l2,
      insert m l (headAddr ys l.end_) v = some (m2, l2, m.next) ∧
      Inv m2 l2 (xs ++ (m.next, v) :: ys) = true ∧
      l2.end_ = l.end_ ∧ m2.next = m.next + 1 ∧
      ∀ a, a ≠ l.end_ → a ∉ addrs (xs ++ ys) → a ≠ m.next →
        m2.read a = m.read a := by
  rw [Inv_iff] at h
  obtain ⟨hwf, hend, hch, hbeg, hnd⟩ := h
  have hendlt : l.end_ < m.next := Mem.wf_read_lt hwf hend
  have haddrlt : ∀ a ∈ addrs (xs ++ ys), a < m.next := fun a ha =>
    chain_addr_lt hwf hch ha
  rw [chain_append, Bool.and_eq_true] at hch
  obtain ⟨hchx, hchy⟩ := hch
  rw [List.nodup_cons] at hnd
  obtain ⟨hnde, hnda⟩ := hnd
  rw [addrs_append] at hnde hnda
  rw [List.nodup_append] at hnda
  obtain ⟨hndx, hndy, hdisj⟩ := hnda
  -- the node at the insertion position
  have hposread : ∃ pv pr,
      m.read (headAddr ys l.end_) = some ⟨lastPtr none xs, pv, pr⟩ ∧
      (ys = [] → pv = none ∧ pr = none) ∧
      (∀ b w ys2, ys = (b, w) :: ys2 →
        pv = some w ∧ pr = some (some (headAddr ys2 l.end_))) := by
    cases ys with
    | nil =>
        refine ⟨none, none, ?_, fun _ => ⟨rfl, rfl⟩, fun b w ys2 hh => by
          simp at hh⟩
        simpa [lastPtr_append] using hend
    | cons y ys2 =>
        rcases y with ⟨b, w⟩
        rw [chain_cons, Bool.and_eq_true, beq_iff_eq] at hchy
        refine ⟨some w, some (some (headAddr ys2 l.end_)), ?_,
          fun hh => by simp at hh, fun b2 w2 ys3 hh => ?_⟩
        · simpa using hchy.1
        · rw [List.cons.injEq, Prod.mk.injEq] at hh
          obtain ⟨⟨rfl, rfl⟩, rfl⟩ := hh
          exact ⟨rfl, rfl⟩
  obtain ⟨pv, pr, hposread, hpvnil, hpvcons⟩ := hposread
  have hposlt : headAddr ys l.end_ < m.next := Mem.wf_read_lt hwf hposread
  rcases List.eq_nil_or_concat' xs with rfl | ⟨zs, ⟨q, qv⟩, rfl⟩
  · -- xs = [] : cur->left_ is null, so the `begin_ = new_node` branch runs
    simp only [List.nil_append] at hposread hchy hndy hbeg hnde haddrlt ⊢
    refine ⟨((Mem.mk ((m.next, ⟨none, some v, some (some (headAddr ys l.end_))⟩) :: m.heap)
        (m.next + 1)).write m.next
          ⟨none, some v, some (some (headAddr ys l.end_))⟩).write
          (headAddr ys l.end_) ⟨some m.next, pv, pr⟩,
      { l with begin_ := m.next }, ?_, ?_, rfl, rfl, ?_⟩
    · -- the execution
      unfold insert
      simp only [Mem.alloc]
      have hs1 : (Mem.mk ((m.next, ⟨none, some v, some (some (headAddr ys l.end_))⟩) :: m.heap)
          (m.next + 1)).readLeft (headAddr ys l.end_) = some none := by
        have : (Mem.mk ((m.next, ⟨none, some v, some (some (headAddr ys l.end_))⟩) :: m.heap)
            (m.next + 1)).read (headAddr ys l.end_) =
            some ⟨none, pv, pr⟩ := by
          rw [Mem.read_mk_cons, if_neg (show ¬m.next = headAddr ys l.end_ by omega),
            Mem.read_mk_heap]
          simpa using hposread
        exact Mem.readLeft_eq this
      rw [bind_step hs1]
      have hr2 : (Mem.mk ((m.next, ⟨none, some v, some (some (headAddr ys l.end_))⟩) :: m.heap)
          (m.next + 1)).read m.next =
          some ⟨none, some v, some (some (headAddr ys l.end_))⟩ := by
        rw [Mem.read_mk_cons, if_pos rfl]
      have hs2 := Mem.writeLeft_eq hr2 (none : Ptr)
      rw [bind_step hs2]
      have hr3 : ((Mem.mk ((m.next, ⟨none, some v, some (some (headAddr ys l.end_))⟩) :: m.heap)
          (m.next + 1)).write m.next
            ⟨none, some v, some (some (headAddr ys l.end_))⟩).read
            (headAddr ys l.end_) = some ⟨none, pv, pr⟩ := by
        rw [read_write_ne _ _ _ (show ¬m.next = headAddr ys l.end_ by omega),
          Mem.read_mk_cons, if_neg (show ¬m.next = headAddr ys l.end_ by omega),
          Mem.read_mk_heap]
        simpa using hposread
      have hs3 := Mem.writeLeft_eq hr3 (some m.next)
      rw [bind_step hs3]
      rfl
    · -- the invariant afterwards
      rw [Inv_iff]
      dsimp only
      have hwf2 : ((Mem.mk ((m.next, ⟨none, some v, some (some (headAddr ys l.end_))⟩) :: m.heap)
          (m.next + 1)).write m.next
            ⟨none, some v, some (some (headAddr ys l.end_))⟩).wf = true := by
        apply Mem.wf_write (Mem.wf_alloc hwf)
        simp
      refine ⟨Mem.wf_write hwf2 (by simp; omega), ?_, ?_, rfl, ?_⟩
      · -- the sentinel read
        cases ys with
        | nil =>
            obtain ⟨rfl, rfl⟩ := hpvnil rfl
            simp only [headAddr_nil]
            rw [read_write_self]
            simp [lastPtr]
        | cons y ys2 =>
            rcases y with ⟨b, w⟩
            have hbne : ¬headAddr ((b, w) :: ys2) l.end_ = l.end_ := by
              simp only [headAddr_cons]
              intro hh
              apply hnde
              rw [← hh]
              simp
            rw [read_write_ne _ _ _ hbne,
              read_write_ne _ _ _ (show ¬m.next = l.end_ by omega),
              Mem.read_mk_cons, if_neg (show ¬m.next = l.end_ by omega),
              Mem.read_mk_heap, hend]
            simp [lastPtr]
      · -- the chain afterwards
        rw [chain_cons, Bool.and_eq_true, beq_iff_eq]
        constructor
        · -- the new node
          rw [read_write_ne _ _ _ (show ¬headAddr ys l.end_ = m.next by omega),
            read_write_self]
        · -- the old suffix
          cases ys with
          | nil => simp
          | cons y ys2 =>
              rcases y with ⟨b, w⟩
              obtain ⟨rfl, rfl⟩ := hpvcons b w ys2 rfl
              rw [chain_cons, Bool.and_eq_true, beq_iff_eq]
              constructor
              · rw [headAddr_cons, read_write_self]
              · rw [chain_cons, Bool.and_eq_true, beq_iff_eq] at hchy
                have hbny : b ∉ addrs ys2 := by
                  rw [addrs_cons, List.nodup_cons] at hndy
                  exact hndy.1
                have hnn2 : m.next ∉ addrs ys2 := by
                  intro hh
                  have := haddrlt m.next
                    (by rw [addrs_cons]; exact List.mem_cons.mpr (Or.inr hh))
                  omega
                rw [chain_write_frame _ _ _ _ _ _ (by simpa using hbny),
                  chain_write_frame _ _ _ _ _ _ hnn2]
                exact chain_alloc_frame m _ _ _ _ hwf hchy.2
      · -- distinctness
        rw [addrs_cons, List.nodup_cons, List.nodup_cons]
        refine ⟨?_, fun hh => absurd (haddrlt _ hh) (by omega), hndy⟩
        intro hh
        rcases List.mem_cons.mp hh with hh | hh
        · omega
        · exact hnde (by simpa using hh)
    · -- the frame
      intro a hne hmem hnn
      rw [read_write_ne _ _ _ (show ¬headAddr ys l.end_ = a by
          cases ys with
          | nil => simpa using fun hh => hne hh.symm
          | cons y ys2 =>
              rcases y with ⟨b, w⟩
              simp only [headAddr_cons]
              intro hh
              exact hmem (by rw [← hh]; simp)),
        read_write_ne _ _ _ (fun hh => hnn hh.symm),
        Mem.read_mk_cons, if_neg (fun hh => hnn hh.symm), Mem.read_mk_heap]
  · -- xs = zs ++ [(q, qv)] : cur->left_ is the node q, which gets relinked
    rw [lastPtr_concat] at hposread
    rw [chain_append, Bool.and_eq_true] at hchx
    obtain ⟨hchz, hchq⟩ := hchx
    rw [chain_cons, Bool.and_eq_true, beq_iff_eq, headAddr_nil] at hchq
    obtain ⟨hreadq, _⟩ := hchq
    have hqlt : q < m.next := Mem.wf_read_lt hwf hreadq
    have hqx : q ∈ addrs (zs ++ [(q, qv)]) := by simp [addrs]
    have hxY : ∀ {a : Nat}, a ∈ addrs (zs ++ [(q, qv)]) →
        a ∈ addrs (zs ++ [(q, qv)] ++ ys) := by
      intro a ha
      rw [addrs_append]
      exact List.mem_append.mpr (Or.inl ha)
    have hyY : ∀ {a : Nat}, a ∈ addrs ys →
        a ∈ addrs (zs ++ [(q, qv)] ++ ys) := by
      intro a ha
      rw [addrs_append]
      exact List.mem_append.mpr (Or.inr ha)
    have hzX : ∀ {a : Nat}, a ∈ addrs zs → a ∈ addrs (zs ++ [(q, qv)]) := by
      intro a ha
      rw [addrs_append]
      exact List.mem_append.mpr (Or.inl ha)
    have hqpos : ¬q = headAddr ys l.end_ := by
      cases ys with
      | nil =>
          simp only [headAddr_nil]
          intro hh
          exact hnde (List.mem_append.mpr (Or.inl (hh ▸ hqx)))
      | cons y ys2 =>
          rcases y with ⟨b, w⟩
          simp only [headAddr_cons]
          intro hh
          exact hdisj hqx (by rw [hh]; simp)
    have hzlt : ∀ a ∈ addrs zs, a < m.next := fun a ha =>
      haddrlt a (hxY (hzX ha))
    refine ⟨(((Mem.mk ((m.next, ⟨none, some v, some (some (headAddr ys l.end_))⟩) :: m.heap)
        (m.next + 1)).write m.next
          ⟨some q, some v, some (some (headAddr ys l.end_))⟩).write q
          ⟨lastPtr none zs, some qv, some (some m.next)⟩).write
          (headAddr ys l.end_) ⟨some m.next, pv, pr⟩,
      l, ?_, ?_, rfl, rfl, ?_⟩
    · -- the execution
      unfold insert
      simp only [Mem.alloc]
      have hr1 : (Mem.mk ((m.next, ⟨none, some v, some (some (headAddr ys l.end_))⟩) :: m.heap)
          (m.next + 1)).read (headAddr ys l.end_) = some ⟨some q, pv, pr⟩ := by
        rw [Mem.read_mk_cons, if_neg (show ¬m.next = headAddr ys l.end_ by omega),
          Mem.read_mk_heap]
        exact hposread
      have hs1 : (Mem.mk ((m.next, ⟨none, some v, some (some (headAddr ys l.end_))⟩) :: m.heap)
          (m.next + 1)).readLeft (headAddr ys l.end_) = some (some q) :=
        Mem.readLeft_eq hr1
      rw [bind_step hs1]
      have hr2 : (Mem.mk ((m.next, ⟨none, some v, some (some (headAddr ys l.end_))⟩) :: m.heap)
          (m.next + 1)).read m.next =
          some ⟨none, some v, some (some (headAddr ys l.end_))⟩ := by
        rw [Mem.read_mk_cons, if_pos rfl]
      rw [bind_step (Mem.writeLeft_eq hr2 (some q))]
      dsimp only
      have hr3 : ((Mem.mk ((m.next, ⟨none, some v, some (some (headAddr ys l.end_))⟩) :: m.heap)
          (m.next + 1)).write m.next
            ⟨some q, some v, some (some (headAddr ys l.end_))⟩).read q =
          some ⟨lastPtr none zs, some qv, some (some (headAddr ys l.end_))⟩ := by
        rw [read_write_ne _ _ _ (show ¬m.next = q by omega),
          Mem.read_mk_cons, if_neg (show ¬m.next = q by omega),
          Mem.read_mk_heap]
        exact hreadq
      rw [bind_step (Mem.writeRight_eq hr3 (some m.next))]
      have hr4 : (((Mem.mk ((m.next, ⟨none, some v, some (some (headAddr ys l.end_))⟩) :: m.heap)
          (m.next + 1)).write m.next
            ⟨some q, some v, some (some (headAddr ys l.end_))⟩).write q
            ⟨lastPtr none zs, some qv, some (some m.next)⟩).read
            (headAddr ys l.end_) = some ⟨some q, pv, pr⟩ := by
        rw [read_write_ne _ _ _ (fun hh => hqpos hh),
          read_write_ne _ _ _ (show ¬m.next = headAddr ys l.end_ by omega),
          Mem.read_mk_cons, if_neg (show ¬m.next = headAddr ys l.end_ by omega),
          Mem.read_mk_heap]
        exact hposread
      rw [bind_step (Mem.writeLeft_eq hr4 (some m.next))]
      rfl
    · -- the invariant afterwards
      rw [Inv_iff]
      have hwf2 : (((Mem.mk ((m.next, ⟨none, some v, some (some (headAddr ys l.end_))⟩) :: m.heap)
          (m.next + 1)).write m.next
            ⟨some q, some v, some (some (headAddr ys l.end_))⟩).write q
            ⟨lastPtr none zs, some qv, some (some m.next)⟩).wf = true := by
        apply Mem.wf_write (Mem.wf_write (Mem.wf_alloc hwf) (by simp))
        simp
        omega
      refine ⟨Mem.wf_write hwf2 (by simp; omega), ?_, ?_, ?_, ?_⟩
      · -- the sentinel read
        cases ys with
        | nil =>
            obtain ⟨rfl, rfl⟩ := hpvnil rfl
            simp only [headAddr_nil]
            rw [read_write_self]
            rw [lastPtr_append, lastPtr_append]
            simp [lastPtr]
        | cons y ys2 =>
            rcases y with ⟨b, w⟩
            have hbne : ¬headAddr ((b, w) :: ys2) l.end_ = l.end_ := by
              simp only [headAddr_cons]
              intro hh
              apply hnde
              rw [← hh]
              simp
            have hqend : ¬q = l.end_ := fun hh =>
              hnde (List.mem_append.mpr (Or.inl (hh ▸ hqx)))
            rw [read_write_ne _ _ _ hbne,
              read_write_ne _ _ _ hqend,
              read_write_ne _ _ _ (show ¬m.next = l.end_ by omega),
              Mem.read_mk_cons, if_neg (show ¬m.next = l.end_ by omega),
              Mem.read_mk_heap, hend]
            rw [lastPtr_append, lastPtr_append, lastPtr_append]
            simp only [lastPtr_cons, lastPtr_nil]
      · -- the chain afterwards
        rw [List.append_assoc, chain_append, Bool.and_eq_true]
        constructor
        · -- the prefix zs is untouched
          rw [headAddr_append, headAddr_cons]
          have hqzs : q ∉ addrs zs := by
            rw [addrs_append] at hndx
            rw [List.nodup_append] at hndx
            intro hh
            exact hndx.2.2 hh (by simp [addrs])
          have hnnzs : m.next ∉ addrs zs := fun hh =>
            absurd (hzlt _ hh) (by omega)
          have hposzs : headAddr ys l.end_ ∉ addrs zs := by
            cases ys with
            | nil =>
                simp only [headAddr_nil]
                intro hh
                exact hnde (List.mem_append.mpr (Or.inl (hzX hh)))
            | cons y ys2 =>
                rcases y with ⟨b, w⟩
                simp only [headAddr_cons]
                intro hh
                exact hdisj (hzX hh) (by simp)
          rw [chain_write_frame _ _ _ _ _ _ hposzs,
            chain_write_frame _ _ _ _ _ _ hqzs,
            chain_write_frame _ _ _ _ _ _ hnnzs]
          exact chain_alloc_frame m _ _ _ _ hwf hchz
        · -- the node q, the new node, and the suffix ys
          rw [List.singleton_append, chain_cons, Bool.and_eq_true, beq_iff_eq]
          constructor
          · -- q now points right at the new node
            rw [read_write_ne _ _ _ (fun hh => hqpos hh.symm),
              read_write_self]
            rfl
          · rw [chain_cons, Bool.and_eq_true, beq_iff_eq]
            constructor
            · -- the new node
              rw [read_write_ne _ _ _ (show ¬headAddr ys l.end_ = m.next by omega),
                read_write_ne _ _ _ (show ¬q = m.next by omega),
                read_write_self]
            · -- the suffix ys
              cases ys with
              | nil => simp
              | cons y ys2 =>
                  rcases y with ⟨b, w⟩
                  obtain ⟨rfl, rfl⟩ := hpvcons b w ys2 rfl
                  rw [chain_cons, Bool.and_eq_true, beq_iff_eq]
                  constructor
                  · rw [headAddr_cons, read_write_self]
                  · rw [chain_cons, Bool.and_eq_true, beq_iff_eq] at hchy
                    have hbny : b ∉ addrs ys2 := by
                      rw [addrs_cons, List.nodup_cons] at hndy
                      exact hndy.1
                    have hqny : q ∉ addrs ys2 := fun hh =>
                      hdisj hqx (by rw [addrs_cons]; exact
                        List.mem_cons.mpr (Or.inr hh))
                    have hnn2 : m.next ∉ addrs ys2 := by
                      intro hh
                      have := haddrlt m.next
                        (hyY (by rw [addrs_cons]; exact List.mem_cons.mpr (Or.inr hh)))
                      omega
                    rw [chain_write_frame _ _ _ _ _ _ (by simpa using hbny),
                      chain_write_frame _ _ _ _ _ _ hqny,
                      chain_write_frame _ _ _ _ _ _ hnn2]
                    exact chain_alloc_frame m _ _ _ _ hwf hchy.2
      · -- the begin_ cache is unchanged and still correct
        rw [hbeg]
        simp only [headAddr_append, headAddr_cons]
      · -- distinctness
        apply nodup_addrs_insert
        · rw [List.nodup_cons]
          refine ⟨by simpa using hnde, ?_⟩
          rw [addrs_append, List.nodup_append]
          exact ⟨hndx, hndy, hdisj⟩
        · intro hh
          rcases List.mem_cons.mp hh with hh | hh
          · omega
          · exact absurd (haddrlt _ hh) (by omega)
    · -- the frame
      intro a hne hmem hnn
      rw [addrs_append] at hmem
      have hqa : ¬q = a := by
        intro hh
        exact hmem (List.mem_append.mpr (Or.inl (hh ▸ hqx)))
      have hpa : ¬headAddr ys l.end_ = a := by
        cases ys with
        | nil => simpa using fun hh => hne hh.symm
        | cons y ys2 =>
            rcases y with ⟨b, w⟩
            simp only [headAddr_cons]
            intro hh
            exact hmem (List.mem_append.mpr (Or.inr (by rw [← hh]; simp)))
      rw [read_write_ne _ _ _ hpa,
        read_write_ne _ _ _ hqa,
        read_write_ne _ _ _ (fun hh => hnn hh.symm),
        Mem.read_mk_cons, if_neg (fun hh => hnn hh.symm), Mem.read_mk_heap]

/-! ## Specification of `destruct_list` -/

theorem dchainP_nil (m : Mem) (p q : Ptr) :
    dchainP m p [] q = (p == q) := rfl

theorem dchainP_cons (m : Mem) (p : Ptr) (a : Nat) (v : Int)
    (rest : List (Nat × Int)) (q : Ptr) :
    dchainP m p ((a, v) :: rest) q =
      ((p == some a) &&
        (match m.read a with
         | none => false
         | some n => (n.val == some v) && dchainP m n.left rest q)) := rfl

theorem dchainP_append_one (m : Mem) (p : Ptr) (xs : List (Nat × Int))
    (a : Nat) (v : Int) (n : HNode) (hx : dchainP m p xs (some a) = true)
    (hr : m.read a = some n) (hv : n.val = some v) :
    dchainP m p (xs ++ [(a, v)]) n.left = true := by
  induction xs generalizing p with
  | nil =>
      rw [dchainP_nil, beq_iff_eq] at hx
      subst hx
      rw [List.nil_append, dchainP_cons, hr]
      simp [hv, dchainP_nil]
  | cons x r ih =>
      rcases x with ⟨b, w⟩
      rw [dchainP_cons] at hx
      rw [List.cons_append, dchainP_cons]
      rw [Bool.and_eq_true] at hx ⊢
      refine ⟨hx.1, ?_⟩
      rcases hx with ⟨hp, hx⟩
      cases hb : m.read b with
      | none => rw [hb] at hx; simp at hx
      | some nb =>
          rw [hb] at hx
          dsimp only at hx ⊢
          rw [Bool.and_eq_true] at hx ⊢
          exact ⟨hx.1, ih _ hx.2⟩

theorem chain_dchainP (m : Mem) (p : Ptr) (ns : List (Nat × Int))
    (stop : Nat) (h : chain m p ns stop = true) :
    dchainP m (lastPtr p ns) ns.reverse p = true := by
  induction ns generalizing p with
  | nil => simp [dchainP_nil]
  | cons x r ih =>
      rcases x with ⟨a, v⟩
      rw [chain_cons, Bool.and_eq_true, beq_iff_eq] at h
      have := dchainP_append_one m (lastPtr (some a) r) r.reverse a v
        ⟨p, some v, some (some (headAddr r stop))⟩ (ih _ h.2) h.1 rfl
      simpa using this

theorem dchainP_write_frame (m : Mem) (p : Ptr) (ns : List (Nat × Int))
    (q : Ptr) (x : Nat) (n : HNode) (hx : x ∉ addrs ns) :
    dchainP (m.write x n) p ns q = dchainP m p ns q := by
  induction ns generalizing p with
  | nil => rfl
  | cons y r ih =>
      rcases y with ⟨a, v⟩
      simp only [addrs_cons, List.mem_cons, not_or] at hx
      rw [dchainP_cons, dchainP_cons, Mem.read_write, if_neg hx.1]
      cases m.read a with
      | none => rfl
      | some na => dsimp only; rw [ih _ hx.2]

/-- Writing only the `right_` field of any node preserves a `dchainP`
chain (which reads only `left_` and `value_`). -/
theorem dchainP_write_right (m : Mem) (p : Ptr) (ns : List (Nat × Int))
    (q : Ptr) (x : Nat) (nx : HNode) (hr : m.read x = some nx) (r2 : Option Ptr)
    (h : dchainP m p ns q = true) :
    dchainP (m.write x ⟨nx.left, nx.val, r2⟩) p ns q = true := by
  induction ns generalizing p with
  | nil => exact h
  | cons y r ih =>
      rcases y with ⟨a, v⟩
      rw [dchainP_cons, Bool.and_eq_true] at h ⊢
      refine ⟨h.1, ?_⟩
      rcases h with ⟨hp, h⟩
      by_cases hax : x = a
      · subst hax
        rw [hr] at h
        rw [read_write_self]
        dsimp only at h ⊢
        rw [Bool.and_eq_true] at h ⊢
        exact ⟨h.1, ih _ h.2⟩
      · rw [Mem.read_write, if_neg hax]
        cases ha : m.read a with
        | none => rw [ha] at h; simp at h
        | some na =>
            rw [ha] at h
            rw [Bool.and_eq_true] at h ⊢
            exact ⟨h.1, ih _ h.2⟩

/-- Overwriting the `left_` field of the node visited last turns the tail
pointer of a `dchainP` chain into the written value. -/
theorem dchainP_set_last_left (m : Mem) (ks : List (Nat × Int)) (b : Nat)
    (bv : Int) (p q : Ptr) (n : HNode) (h : dchainP m p (ks ++ [(b, bv)]) q = true)
    (hb : b ∉ addrs ks) (hrb : m.read b = some n) (p2 : Ptr) :
    dchainP (m.write b ⟨p2, n.val, n.right⟩) p (ks ++ [(b, bv)]) p2 = true := by
  induction ks generalizing p with
  | nil =>
      rw [List.nil_append, dchainP_cons] at h ⊢
      rw [Bool.and_eq_true] at h ⊢
      refine ⟨h.1, ?_⟩
      rcases h with ⟨hp, h⟩
      rw [hrb] at h
      rw [read_write_self]
      rw [Bool.and_eq_true] at h
      simp [h.1, dchainP_nil]
  | cons y r ih =>
      rcases y with ⟨a, v⟩
      simp only [addrs_cons, List.mem_cons, not_or] at hb
      rw [List.cons_append, dchainP_cons] at h ⊢
      rw [Bool.and_eq_true] at h ⊢
      refine ⟨h.1, ?_⟩
      rcases h with ⟨hp, h⟩
      rw [Mem.read_write, if_neg hb.1]
      cases ha : m.read a with
      | none => rw [ha] at h; simp at h
      | some na =>
          rw [ha] at h
          dsimp only at h ⊢
          rw [Bool.and_eq_true] at h ⊢
          exact ⟨h.1, ih _ h.2 hb.2⟩

theorem destructList_spec (ns : List (Nat × Int)) :
    ∀ (fuel : Nat) (m : Mem) (p : Ptr),
      dchainP m p ns none = true → ns.length < fuel →
      ∃ m2, destructList fuel m p = some m2 ∧ m2.next = m.next ∧
        (∀ a, m2.read a = if a ∈ addrs ns then none else m.read a) ∧
        (m.wf = true → m2.wf = true) := by
  induction ns with
  | nil =>
      intro fuel m p h _
      rw [dchainP_nil, beq_iff_eq] at h
      subst h
      refine ⟨m, ?_, rfl, fun a => by simp, fun hw => hw⟩
      cases fuel <;> rfl
  | cons x r ih =>
      intro fuel m p h hlen
      rcases x with ⟨a, v⟩
      rw [dchainP_cons, Bool.and_eq_true, beq_iff_eq] at h
      obtain ⟨rfl, h⟩ := h
      cases ha : m.read a with
      | none => rw [ha] at h; simp at h
      | some na =>
          rw [ha] at h
          rw [Bool.and_eq_true, beq_iff_eq] at h
          obtain ⟨hval, hrest⟩ := h
          cases fuel with
          | zero => omega
          | succ f =>
              obtain ⟨m2, hm2, hnext, hreads, hwf⟩ :=
                ih f m na.left hrest (by simpa using hlen)
              refine ⟨m2.free a, ?_, by simp [hnext], ?_, fun hw => Mem.wf_free (hwf hw)⟩
              · unfold destructList
                rw [bind_step ha, bind_step hm2, hval]
                rfl
              · intro b
                rw [Mem.read_free, hreads b, addrs_cons]
                by_cases hab : a = b
                · subst hab; simp
                · rw [if_neg hab]
                  have hba : b ≠ a := fun hh => hab hh.symm
                  by_cases hbr : b ∈ addrs r
                  · simp [hbr]
                  · simp [hbr, hba]

theorem length_le_heap (m : Mem) (ns : List (Nat × Int))
    (hnd : (addrs ns).Nodup) (hall : ∀ a ∈ addrs ns, m.read a ≠ none) :
    ns.length ≤ m.heap.length := by
  have h1 : addrs ns ⊆ m.heap.map Prod.fst := by
    intro a ha
    cases hr : m.read a with
    | none => exact absurd hr (hall a ha)
    | some n => exact List.mem_map.mpr ⟨(a, n), lookupA_mem hr, rfl⟩
  have h2 : (addrs ns).length ≤ (m.heap.map Prod.fst).length :=
    (hnd.subperm h1).length_le
  simpa [addrs] using h2

theorem bind_some_step {α β : Type} (a : α) (f : α → Option β) :
    ((some a : Option α) >>= f) = f a := rfl

theorem bind_none_step {α β : Type} {x : Option α} (h : x = none)
    (f : α → Option β) : (x >>= f) = none := by
  rw [h]; rfl

/-- Two memories agreeing on the addresses of a chain validate it alike. -/
theorem chain_congr (m m2 : Mem) (p : Ptr) (ns : List (Nat × Int))
    (stop : Nat) (h : ∀ a ∈ addrs ns, m2.read a = m.read a) :
    chain m2 p ns stop = chain m p ns stop := by
  induction ns generalizing p with
  | nil => rfl
  | cons x r ih =>
      rcases x with ⟨a, v⟩
      have h2 : ∀ y ∈ addrs r, m2.read y = m.read y := by
        intro y hy
        apply h
        rw [addrs_cons]
        exact List.mem_cons.mpr (Or.inr hy)
      rw [chain_cons, chain_cons, h a (by simp), ih (some a) h2]

theorem lastPtr_isSome (x : Nat) (ns : List (Nat × Int)) :
    ∃ c, lastPtr (some x) ns = some c := by
  induction ns generalizing x with
  | nil => exact ⟨x, rfl⟩
  | cons y r ih => rcases y with ⟨a, v⟩; exact ih a

theorem chain_last_read (m : Mem) (p : Ptr) (ns : List (Nat × Int))
    (stop : Nat) (h : chain m p ns stop = true) {c : Nat}
    (hc : lastPtr p ns = some c) (hne : ns ≠ []) :
    ∃ pc cv, m.read c = some ⟨pc, some cv, some (some stop)⟩ ∧ (c, cv) ∈ ns := by
  induction ns generalizing p with
  | nil => exact absurd rfl hne
  | cons x r ih =>
      rcases x with ⟨a, v⟩
      rw [chain_cons, Bool.and_eq_true, beq_iff_eq] at h
      cases r with
      | nil =>
          rw [lastPtr_cons, lastPtr_nil] at hc
          rcases Option.some.inj hc with rfl
          exact ⟨p, v, by simpa using h.1, by simp⟩
      | cons y r2 =>
          obtain ⟨pc, cv, hr, hmem⟩ :=
            ih _ h.2 (by simpa using hc) (List.cons_ne_nil _ _)
          exact ⟨pc, cv, hr, List.mem_cons.mpr (Or.inr hmem)⟩

theorem dchainP_read_ne_none (m : Mem) (p : Ptr) (ns : List (Nat × Int))
    (q : Ptr) (h : dchainP m p ns q = true) :
    ∀ a ∈ addrs ns, m.read a ≠ none := by
  induction ns generalizing p with
  | nil => simp
  | cons x r ih =>
      rcases x with ⟨b, w⟩
      rw [dchainP_cons, Bool.and_eq_true] at h
      rcases h with ⟨hp, h⟩
      intro a ha
      rcases List.mem_cons.mp ha with rfl | ha2
      · cases hb : m.read a with
        | none => rw [hb] at h; simp at h
        | some nb => simp [hb]
      · cases hb : m.read b with
        | none => rw [hb] at h; simp at h
        | some nb =>
            rw [hb] at h
            dsimp only at h
            rw [Bool.and_eq_true] at h
            exact ih _ h.2 a ha2

theorem mem_addrs_reverse (a : Nat) (ns : List (Nat × Int)) :
    a ∈ addrs ns.reverse ↔ a ∈ addrs ns := by
  rw [addrs, addrs, List.map_reverse, List.mem_reverse]

theorem nodup_addrs_reverse (ns : List (Nat × Int))
    (h : (addrs ns).Nodup) : (addrs ns.reverse).Nodup := by
  rw [addrs, List.map_reverse, List.nodup_reverse]
  exact h

/-! ## Specification of `erase` -/

/-- Core lemma for `erase(first, last)` on a non-empty range: with the list
split as `xs ++ ys ++ zs`, erasing the range holding `ys` unlinks and
destroys exactly the nodes of `ys`, relinks `xs` and `zs`, returns `last`,
and touches no node outside `ys` other than the two boundary relinks. -/
theorem erase_spec (m : Mem) (l : CppList) (xs ys zs : List (Nat × Int))
    (h : Inv m l (xs ++ ys ++ zs) = true) (hys : ys ≠ []) :
    ∃ m2 l2,
      erase m l (headAddr (ys ++ zs) l.end_) (headAddr zs l.end_) =
        some (m2, l2, headAddr zs l.end_) ∧
      Inv m2 l2 (xs ++ zs) = true ∧
      l2.end_ = l.end_ ∧ m2.next = m.next ∧
      (∀ a, a ∈ addrs ys → m2.read a = none) ∧
      (∀ a, a ≠ l.end_ → a ∉ addrs (xs ++ ys ++ zs) → m2.read a = m.read a) := by
  rw [Inv_iff] at h
  obtain ⟨hwf, hend, hch, hbeg, hnd⟩ := h
  have hnd0 := hnd
  have hendlt : l.end_ < m.next := Mem.wf_read_lt hwf hend
  have haddrlt : ∀ a ∈ addrs (xs ++ ys ++ zs), a < m.next := fun a ha =>
    chain_addr_lt hwf hch ha
  rw [List.nodup_cons] at hnd
  obtain ⟨hnde, hnda⟩ := hnd
  rw [addrs_append, addrs_append] at hnde hnda
  rw [List.nodup_append, List.nodup_append] at hnda
  obtain ⟨⟨hndx, hndy, hdxy⟩, hndz, hdxyz⟩ := hnda
  rw [chain_append, Bool.and_eq_true] at hch
  obtain ⟨hchxy, hchz⟩ := hch
  rw [chain_append, Bool.and_eq_true] at hchxy
  obtain ⟨hchx, hchy⟩ := hchxy
  rcases ys with _ | ⟨⟨b, bv⟩, ys1⟩
  · exact absurd rfl hys
  simp only [List.cons_append, headAddr_cons] at hchx ⊢
  obtain ⟨c, hc⟩ := lastPtr_isSome b ys1
  have hcfull : lastPtr none (xs ++ (b, bv) :: ys1) = some c := by
    rw [lastPtr_append]
    simpa using hc
  obtain ⟨pc, cv, hreadc, hcmem⟩ :=
    chain_last_read m _ _ _ hchy (by simpa using hc) (List.cons_ne_nil _ _)
  rw [chain_cons, Bool.and_eq_true, beq_iff_eq] at hchy
  obtain ⟨hreadb, hchy1⟩ := hchy
  have hbY : b ∈ addrs ((b, bv) :: ys1) := by simp
  have hcY : c ∈ addrs ((b, bv) :: ys1) :=
    List.mem_map.mpr ⟨(c, cv), hcmem, rfl⟩
  have hbe : ¬b = l.end_ := by
    intro hh
    apply hnde
    rw [← hh]
    exact List.mem_append.mpr (Or.inl (List.mem_append.mpr (Or.inr hbY)))
  have hce : ¬c = l.end_ := by
    intro hh
    apply hnde
    rw [← hh]
    exact List.mem_append.mpr (Or.inl (List.mem_append.mpr (Or.inr hcY)))
  have hbz : b ∉ addrs zs := hdxyz (List.mem_append.mpr (Or.inr hbY))
  have hcz : c ∉ addrs zs := hdxyz (List.mem_append.mpr (Or.inr hcY))
  have hbL : ¬b = headAddr zs l.end_ := by
    cases zs with
    | nil => simpa using hbe
    | cons z zs2 =>
        rcases z with ⟨d, dv⟩
        simp only [headAddr_cons]
        intro hh
        exact hbz (by rw [hh]; simp)
  have hcL : ¬c = headAddr zs l.end_ := by
    cases zs with
    | nil => simpa using hce
    | cons z zs2 =>
        rcases z with ⟨d, dv⟩
        simp only [headAddr_cons]
        intro hh
        exact hcz (by rw [hh]; simp)
  have hA : ∃ lv lr, m.read (headAddr zs l.end_) = some ⟨some c, lv, lr⟩ ∧
      (zs = [] → headAddr zs l.end_ = l.end_ ∧ lv = none ∧ lr = none) ∧
      (∀ d dv zs2, zs = (d, dv) :: zs2 →
        lv = some dv ∧ lr = some (some (headAddr zs2 l.end_))) := by
    cases zs with
    | nil =>
        refine ⟨none, none, ?_, fun _ => ⟨rfl, rfl, rfl⟩,
          fun d dv zs2 hh => by simp at hh⟩
        have h2 : lastPtr none ((xs ++ (b, bv) :: ys1) ++ []) = some c := by
          rw [List.append_nil]
          exact hcfull
        rw [headAddr_nil, hend, h2]
    | cons z zs2 =>
        rcases z with ⟨d, dv⟩
        rw [chain_cons, Bool.and_eq_true, beq_iff_eq] at hchz
        refine ⟨some dv, some (some (headAddr zs2 l.end_)), ?_,
          fun hh => by simp at hh, fun d2 dv2 zs3 hh => ?_⟩
        · have h3 := hchz.1
          rw [hcfull] at h3
          simpa using h3
        · rw [List.cons.injEq, Prod.mk.injEq] at hh
          obtain ⟨⟨rfl, rfl⟩, rfl⟩ := hh
          exact ⟨rfl, rfl⟩
  obtain ⟨lv, lr, hreadL, hAnil, hAcons⟩ := hA
  have hLlt : headAddr zs l.end_ < m.next := Mem.wf_read_lt hwf hreadL
  have hLnb : ¬headAddr zs l.end_ = b := fun hh => hbL hh.symm
  have hLnc : ¬headAddr zs l.end_ = c := fun hh => hcL hh.symm
  have hLnY : headAddr zs l.end_ ∉ addrs ((b, bv) :: ys1) := by
    cases zs with
    | nil =>
        simp only [headAddr_nil]
        intro hh
        apply hnde
        exact List.mem_append.mpr (Or.inl (List.mem_append.mpr (Or.inr hh)))
    | cons z zs2 =>
        rcases z with ⟨d, dv⟩
        simp only [headAddr_cons]
        intro hh
        exact hdxyz (List.mem_append.mpr (Or.inr hh)) (by simp)
  have hdch0 : dchainP m (some c) ((b, bv) :: ys1).reverse
      (lastPtr none xs) = true := by
    have h4 := chain_dchainP m (lastPtr none xs) ((b, bv) :: ys1)
      (headAddr zs l.end_) (by
        rw [chain_cons, Bool.and_eq_true, beq_iff_eq]
        exact ⟨hreadb, hchy1⟩)
    have h5 : lastPtr (lastPtr none xs) ((b, bv) :: ys1) = some c := by
      simpa using hc
    rw [h5] at h4
    exact h4
  have hbny1 : b ∉ addrs ys1 := by
    rw [addrs_cons, List.nodup_cons] at hndy
    exact hndy.1
  rcases List.eq_nil_or_concat' xs with rfl | ⟨ws, ⟨q, qv⟩, rfl⟩
  · -- cur1->left_ is null: the `begin_ = cur2->right()` branch runs
    rw [lastPtr_nil] at hreadb hdch0
    -- step equations for the execution
    have hs1 : m.readLeft (headAddr zs l.end_) = some (some c) :=
      Mem.readLeft_eq hreadL
    have hs2 : m.readRight c = some (some (headAddr zs l.end_)) :=
      Mem.readRight_eq hreadc
    have hs3 : m.readLeft b = some none := Mem.readLeft_eq hreadb
    have hs4 : m.writeLeft (headAddr zs l.end_) (none : Ptr) =
        some (m.write (headAddr zs l.end_) ⟨none, lv, lr⟩) :=
      Mem.writeLeft_eq hreadL none
    have hb2 : (m.write (headAddr zs l.end_) ⟨none, lv, lr⟩).read b =
        some ⟨none, some bv, some (some (headAddr ys1 (headAddr zs l.end_)))⟩ := by
      rw [read_write_ne _ _ _ hLnb]
      exact hreadb
    have hs6 : (m.write (headAddr zs l.end_) ⟨none, lv, lr⟩).writeLeft b
        (none : Ptr) =
        some ((m.write (headAddr zs l.end_) ⟨none, lv, lr⟩).write b
          ⟨none, some bv, some (some (headAddr ys1 (headAddr zs l.end_)))⟩) :=
      Mem.writeLeft_eq hb2 none
    have hc3 : ∃ lc vc rc,
        ((m.write (headAddr zs l.end_) ⟨none, lv, lr⟩).write b
          ⟨none, some bv, some (some (headAddr ys1 (headAddr zs l.end_)))⟩).read c =
        some ⟨lc, vc, some rc⟩ := by
      by_cases hcb : b = c
      · subst hcb
        rw [read_write_self]
        exact ⟨none, some bv, some (headAddr ys1 (headAddr zs l.end_)), rfl⟩
      · refine ⟨pc, some cv, some (headAddr zs l.end_), ?_⟩
        rw [read_write_ne _ _ _ hcb, read_write_ne _ _ _ hLnc]
        exact hreadc
    obtain ⟨lc, vc, rc, hc3⟩ := hc3
    have hs7 : ((m.write (headAddr zs l.end_) ⟨none, lv, lr⟩).write b
        ⟨none, some bv, some (some (headAddr ys1 (headAddr zs l.end_)))⟩).writeRight c
          (none : Ptr) =
        some (((m.write (headAddr zs l.end_) ⟨none, lv, lr⟩).write b
          ⟨none, some bv, some (some (headAddr ys1 (headAddr zs l.end_)))⟩).write c
            ⟨lc, vc, some none⟩) :=
      Mem.writeRight_eq hc3 none
    have hdch4 : dchainP (((m.write (headAddr zs l.end_) ⟨none, lv, lr⟩).write b
        ⟨none, some bv, some (some (headAddr ys1 (headAddr zs l.end_)))⟩).write c
          ⟨lc, vc, some none⟩) (some c) ((b, bv) :: ys1).reverse none = true := by
      have h6 : dchainP (m.write (headAddr zs l.end_) ⟨none, lv, lr⟩)
          (some c) ((b, bv) :: ys1).reverse none = true := by
        rw [dchainP_write_frame _ _ _ _ _ _
          (fun hh => hLnY ((mem_addrs_reverse _ _).mp hh))]
        exact hdch0
      rw [List.reverse_cons] at h6 ⊢
      have h7 := dchainP_set_last_left _ ys1.reverse b bv (some c) none
        ⟨none, some bv, some (some (headAddr ys1 (headAddr zs l.end_)))⟩ h6
        (fun hh => hbny1 ((mem_addrs_reverse _ _).mp hh)) hb2 none
      exact dchainP_write_right _ _ _ _ c ⟨lc, vc, some rc⟩ hc3 (some none) h7
    have hlen : (((b, bv) :: ys1).reverse).length <
        (((m.write (headAddr zs l.end_) ⟨none, lv, lr⟩).write b
          ⟨none, some bv, some (some (headAddr ys1 (headAddr zs l.end_)))⟩).write c
            ⟨lc, vc, some none⟩).heap.length + 1 := by
      have h8 := length_le_heap _ _ (nodup_addrs_reverse _ hndy)
        (dchainP_read_ne_none _ _ _ _ hdch4)
      omega
    obtain ⟨M5, hdestr, hnext5, hreads5, hwf5p⟩ :=
      destructList_spec (((b, bv) :: ys1).reverse) _ _ _ hdch4 hlen
    have hM5Y : ∀ a, a ∈ addrs ((b, bv) :: ys1) → M5.read a = none := by
      intro a ha
      rw [hreads5 a, if_pos ((mem_addrs_reverse _ _).mpr ha)]
    have hM5r : ∀ x, ¬c = x → ¬b = x → ¬headAddr zs l.end_ = x →
        x ∉ addrs ((b, bv) :: ys1) → M5.read x = m.read x := by
      intro x h1 h2 h3 h4
      rw [hreads5 x, if_neg (fun hh => h4 ((mem_addrs_reverse _ _).mp hh)),
        read_write_ne _ _ _ h1, read_write_ne _ _ _ h2, read_write_ne _ _ _ h3]
    refine ⟨M5, { l with begin_ := headAddr zs l.end_ }, ?_, ?_, rfl, ?_, hM5Y, ?_⟩
    · -- the execution
      unfold erase
      rw [if_neg hbL]
      rw [bind_step hs1, bind_some_step, bind_step hs2, bind_some_step,
        bind_step hs3]
      rw [bind_step hs4]
      rw [bind_some_step]
      dsimp only
      rw [bind_step hs6, bind_step hs7, bind_step hdestr]
      rfl
    · -- the invariant afterwards
      rw [Inv_iff]
      dsimp only
      refine ⟨?_, ?_, ?_, ?_, ?_⟩
      · -- allocator discipline
        apply hwf5p
        have hw1 : (m.write (headAddr zs l.end_) ⟨none, lv, lr⟩).wf = true :=
          Mem.wf_write hwf hLlt
        have hblt : b < (m.write (headAddr zs l.end_) ⟨none, lv, lr⟩).next := by
          rw [Mem.write_next]
          exact Mem.wf_read_lt hwf hreadb
        have hw2 : ((m.write (headAddr zs l.end_) ⟨none, lv, lr⟩).write b
            ⟨none, some bv, some (some (headAddr ys1 (headAddr zs l.end_)))⟩).wf = true :=
          Mem.wf_write hw1 hblt
        apply Mem.wf_write hw2
        rw [Mem.write_next, Mem.write_next]
        exact Mem.wf_read_lt hwf hreadc
      · -- the sentinel read
        cases zs with
        | nil =>
            obtain ⟨hLE, rfl, rfl⟩ := hAnil rfl
            simp only [headAddr_nil] at hreads5
            rw [hreads5 l.end_,
              if_neg (fun hh => hnde (by
                have h9 := (mem_addrs_reverse _ _).mp hh
                exact List.mem_append.mpr (Or.inl (List.mem_append.mpr (Or.inr h9))))),
              read_write_ne _ _ _ (fun hh => hce hh),
              read_write_ne _ _ _ (fun hh => hbe hh),
              read_write_self]
            rfl
        | cons z zs2 =>
            rcases z with ⟨d, dv⟩
            have hde : ¬d = l.end_ := by
              intro hh
              apply hnde
              rw [← hh]
              exact List.mem_append.mpr (Or.inr (by simp))
            rw [hM5r l.end_ (fun hh => hce hh) (fun hh => hbe hh)
              (by simp only [headAddr_cons]; exact hde)
              (fun hh => hnde (List.mem_append.mpr (Or.inl (List.mem_append.mpr (Or.inr hh))))),
              hend]
            simp only [List.nil_append, lastPtr_append, lastPtr_cons]
      · -- the chain afterwards
        rw [List.nil_append]
        cases zs with
        | nil => simp
        | cons z zs2 =>
            rcases z with ⟨d, dv⟩
            obtain ⟨rfl, rfl⟩ := hAcons d dv zs2 rfl
            rw [chain_cons, Bool.and_eq_true, beq_iff_eq]
            constructor
            · rw [headAddr_cons] at hM5r hreads5
              rw [hreads5 d,
                if_neg (fun hh => hdxyz (by
                  have h9 := (mem_addrs_reverse _ _).mp hh
                  exact List.mem_append.mpr (Or.inr h9)) (by simp)),
                read_write_ne _ _ _ (fun hh => hcz (by rw [hh]; simp)),
                read_write_ne _ _ _ (fun hh => hbz (by rw [hh]; simp)),
                read_write_self]
            · have hzreads : ∀ a ∈ addrs zs2, M5.read a = m.read a := by
                intro a ha
                have haz : a ∈ addrs ((d, dv) :: zs2) := by
                  rw [addrs_cons]
                  exact List.mem_cons.mpr (Or.inr ha)
                have hay : a ∉ addrs ((b, bv) :: ys1) := by
                  intro hh
                  exact hdxyz (List.mem_append.mpr (Or.inr hh)) haz
                rw [addrs_cons, List.nodup_cons] at hndz
                refine hM5r a (fun hh => hcz (by rw [hh]; exact haz))
                  (fun hh => hbz (by rw [hh]; exact haz)) ?_ hay
                simp only [headAddr_cons]
                intro hh
                exact hndz.1 (by rw [hh]; exact ha)
              rw [chain_congr m M5 _ _ _ hzreads]
              rw [chain_cons, Bool.and_eq_true, beq_iff_eq] at hchz
              exact hchz.2
      · -- the begin_ cache
        rw [List.nil_append]
      · -- distinctness
        rw [List.nil_append]
        have hsub : List.Sublist (l.end_ :: addrs zs)
            (l.end_ :: addrs ((([] : List (Nat × Int)) ++ (b, bv) :: ys1) ++ zs)) := by
          rw [addrs_append]
          exact List.Sublist.cons₂ _ (List.sublist_append_right _ _)
        exact hnd0.sublist hsub
    · -- allocator counter unchanged
      rw [hnext5]
      rfl
    · -- the frame
      intro a hne hmem
      rw [addrs_append, addrs_append] at hmem
      refine hM5r a ?_ ?_ ?_ ?_
      · intro hh
        exact hmem (by rw [← hh]; exact
          List.mem_append.mpr (Or.inl (List.mem_append.mpr (Or.inr hcY))))
      · intro hh
        exact hmem (by rw [← hh]; exact
          List.mem_append.mpr (Or.inl (List.mem_append.mpr (Or.inr hbY))))
      · cases zs with
        | nil => simpa using fun hh => hne hh.symm
        | cons z zs2 =>
            rcases z with ⟨d, dv⟩
            simp only [headAddr_cons]
            intro hh
            exact hmem (by rw [← hh]; exact List.mem_append.mpr (Or.inr (by simp)))
      · intro hh
        exact hmem (List.mem_append.mpr (Or.inl (List.mem_append.mpr (Or.inr hh))))
  · -- cur1->left_ is the node q, which is relinked to `last`
    have hclq : lastPtr none (ws ++ [(q, qv)]) = some q := lastPtr_concat _ _ _ _
    rw [hclq] at hreadb hdch0
    rw [chain_append, Bool.and_eq_true] at hchx
    obtain ⟨hchw, hchq1⟩ := hchx
    rw [chain_cons, Bool.and_eq_true, beq_iff_eq, headAddr_nil] at hchq1
    obtain ⟨hreadq, _⟩ := hchq1
    have hqx : q ∈ addrs (ws ++ [(q, qv)]) := by simp [addrs]
    have hqY : q ∉ addrs ((b, bv) :: ys1) := hdxy hqx
    have hqz : q ∉ addrs zs := hdxyz (List.mem_append.mpr (Or.inl hqx))
    have hqe : ¬q = l.end_ := by
      intro hh
      apply hnde
      rw [← hh]
      exact List.mem_append.mpr (Or.inl (List.mem_append.mpr (Or.inl hqx)))
    have hqb : ¬q = b := fun hh => hqY (by rw [hh]; simp)
    have hqc : ¬q = c := fun hh => hqY (by rw [hh]; exact hcY)
    have hqL : ¬q = headAddr zs l.end_ := by
      cases zs with
      | nil => simpa using hqe
      | cons z zs2 =>
          rcases z with ⟨d, dv⟩
          simp only [headAddr_cons]
          intro hh
          exact hqz (by rw [hh]; simp)
    -- step equations for the execution
    have hs1 : m.readLeft (headAddr zs l.end_) = some (some c) :=
      Mem.readLeft_eq hreadL
    have hs2 : m.readRight c = some (some (headAddr zs l.end_)) :=
      Mem.readRight_eq hreadc
    have hs3 : m.readLeft b = some (some q) := Mem.readLeft_eq hreadb
    have hs4 : m.writeLeft (headAddr zs l.end_) (some q) =
        some (m.write (headAddr zs l.end_) ⟨some q, lv, lr⟩) :=
      Mem.writeLeft_eq hreadL (some q)
    have hq1 : (m.write (headAddr zs l.end_) ⟨some q, lv, lr⟩).read q =
        some ⟨lastPtr none ws, some qv, some (some b)⟩ := by
      rw [read_write_ne _ _ _ (fun hh => hqL hh.symm)]
      exact hreadq
    have hs5 : ((m.write (headAddr zs l.end_) ⟨some q, lv, lr⟩).writeRight q
        (some (headAddr zs l.end_))).map
          (fun mm => (mm, l)) =
        some ((m.write (headAddr zs l.end_) ⟨some q, lv, lr⟩).write q
          ⟨lastPtr none ws, some qv, some (some (headAddr zs l.end_))⟩, l) := by
      rw [Mem.writeRight_eq hq1]
      rfl
    have hb2 : ((m.write (headAddr zs l.end_) ⟨some q, lv, lr⟩).write q
        ⟨lastPtr none ws, some qv, some (some (headAddr zs l.end_))⟩).read b =
        some ⟨some q, some bv, some (some (headAddr ys1 (headAddr zs l.end_)))⟩ := by
      rw [read_write_ne _ _ _ hqb, read_write_ne _ _ _ hLnb]
      exact hreadb
    have hs6 : ((m.write (headAddr zs l.end_) ⟨some q, lv, lr⟩).write q
        ⟨lastPtr none ws, some qv, some (some (headAddr zs l.end_))⟩).writeLeft b
          (none : Ptr) =
        some (((m.write (headAddr zs l.end_) ⟨some q, lv, lr⟩).write q
          ⟨lastPtr none ws, some qv, some (some (headAddr zs l.end_))⟩).write b
            ⟨none, some bv, some (some (headAddr ys1 (headAddr zs l.end_)))⟩) :=
      Mem.writeLeft_eq hb2 none
    have hc3 : ∃ lc vc rc,
        (((m.write (headAddr zs l.end_) ⟨some q, lv, lr⟩).write q
          ⟨lastPtr none ws, some qv, some (some (headAddr zs l.end_))⟩).write b
            ⟨none, some bv, some (some (headAddr ys1 (headAddr zs l.end_)))⟩).read c =
        some ⟨lc, vc, some rc⟩ := by
      by_cases hcb : b = c
      · subst hcb
        rw [read_write_self]
        exact ⟨none, some bv, some (headAddr ys1 (headAddr zs l.end_)), rfl⟩
      · refine ⟨pc, some cv, some (headAddr zs l.end_), ?_⟩
        rw [read_write_ne _ _ _ hcb, read_write_ne _ _ _ (fun hh => hqc hh),
          read_write_ne _ _ _ hLnc]
        exact hreadc
    obtain ⟨lc, vc, rc, hc3⟩ := hc3
    have hs7 : (((m.write (headAddr zs l.end_) ⟨some q, lv, lr⟩).write q
        ⟨lastPtr none ws, some qv, some (some (headAddr zs l.end_))⟩).write b
          ⟨none, some bv, some (some (headAddr ys1 (headAddr zs l.end_)))⟩).writeRight c
          (none : Ptr) =
        some ((((m.write (headAddr zs l.end_) ⟨some q, lv, lr⟩).write q
          ⟨lastPtr none ws, some qv, some (some (headAddr zs l.end_))⟩).write b
            ⟨none, some bv, some (some (headAddr ys1 (headAddr zs l.end_)))⟩).write c
              ⟨lc, vc, some none⟩) :=
      Mem.writeRight_eq hc3 none
    have hdch4 : dchainP ((((m.write (headAddr zs l.end_) ⟨some q, lv, lr⟩).write q
        ⟨lastPtr none ws, some qv, some (some (headAddr zs l.end_))⟩).write b
          ⟨none, some bv, some (some (headAddr ys1 (headAddr zs l.end_)))⟩).write c
            ⟨lc, vc, some none⟩) (some c) ((b, bv) :: ys1).reverse none = true := by
      have h6 : dchainP ((m.write (headAddr zs l.end_) ⟨some q, lv, lr⟩).write q
          ⟨lastPtr none ws, some qv, some (some (headAddr zs l.end_))⟩)
          (some c) ((b, bv) :: ys1).reverse (some q) = true := by
        rw [dchainP_write_frame _ _ _ _ _ _
          (fun hh => hqY ((mem_addrs_reverse _ _).mp hh)),
          dchainP_write_frame _ _ _ _ _ _
          (fun hh => hLnY ((mem_addrs_reverse _ _).mp hh))]
        exact hdch0
      rw [List.reverse_cons] at h6 ⊢
      have h7 := dchainP_set_last_left _ ys1.reverse b bv (some c) (some q)
        ⟨some q, some bv, some (some (headAddr ys1 (headAddr zs l.end_)))⟩ h6
        (fun hh => hbny1 ((mem_addrs_reverse _ _).mp hh)) hb2 none
      exact dchainP_write_right _ _ _ _ c ⟨lc, vc, some rc⟩ hc3 (some none) h7
    have hlen : (((b, bv) :: ys1).reverse).length <
        ((((m.write (headAddr zs l.end_) ⟨some q, lv, lr⟩).write q
          ⟨lastPtr none ws, some qv, some (some (headAddr zs l.end_))⟩).write b
            ⟨none, some bv, some (some (headAddr ys1 (headAddr zs l.end_)))⟩).write c
              ⟨lc, vc, some none⟩).heap.length + 1 := by
      have h8 := length_le_heap _ _ (nodup_addrs_reverse _ hndy)
        (dchainP_read_ne_none _ _ _ _ hdch4)
      omega
    obtain ⟨M5, hdestr, hnext5, hreads5, hwf5p⟩ :=
      destructList_spec (((b, bv) :: ys1).reverse) _ _ _ hdch4 hlen
    have hM5Y : ∀ a, a ∈ addrs ((b, bv) :: ys1) → M5.read a = none := by
      intro a ha
      rw [hreads5 a, if_pos ((mem_addrs_reverse _ _).mpr ha)]
    have hM5r : ∀ x, ¬c = x → ¬b = x → ¬q = x → ¬headAddr zs l.end_ = x →
        x ∉ addrs ((b, bv) :: ys1) → M5.read x = m.read x := by
      intro x h1 h2 h3 h4 h5
      rw [hreads5 x, if_neg (fun hh => h5 ((mem_addrs_reverse _ _).mp hh)),
        read_write_ne _ _ _ h1, read_write_ne _ _ _ h2, read_write_ne _ _ _ h3,
        read_write_ne _ _ _ h4]
    refine ⟨M5, l, ?_, ?_, rfl, ?_, hM5Y, ?_⟩
    · -- the execution
      unfold erase
      rw [if_neg hbL]
      rw [bind_step hs1, bind_some_step, bind_step hs2, bind_some_step,
        bind_step hs3]
      rw [bind_step hs4]
      rw [bind_step hs5]
      dsimp only
      rw [bind_step hs6, bind_step hs7, bind_step hdestr]
      rfl
    · -- the invariant afterwards
      rw [Inv_iff]
      refine ⟨?_, ?_, ?_, ?_, ?_⟩
      · -- allocator discipline
        apply hwf5p
        have hw1 : (m.write (headAddr zs l.end_) ⟨some q, lv, lr⟩).wf = true :=
          Mem.wf_write hwf hLlt
        have hw2 : ((m.write (headAddr zs l.end_) ⟨some q, lv, lr⟩).write q
            ⟨lastPtr none ws, some qv, some (some (headAddr zs l.end_))⟩).wf = true := by
          apply Mem.wf_write hw1
          rw [Mem.write_next]
          exact Mem.wf_read_lt hwf hreadq
        have hw3 : (((m.write (headAddr zs l.end_) ⟨some q, lv, lr⟩).write q
            ⟨lastPtr none ws, some qv, some (some (headAddr zs l.end_))⟩).write b
              ⟨none, some bv, some (some (headAddr ys1 (headAddr zs l.end_)))⟩).wf = true := by
          apply Mem.wf_write hw2
          rw [Mem.write_next, Mem.write_next]
          exact Mem.wf_read_lt hwf hreadb
        apply Mem.wf_write hw3
        rw [Mem.write_next, Mem.write_next, Mem.write_next]
        exact Mem.wf_read_lt hwf hreadc
      · -- the sentinel read
        cases zs with
        | nil =>
            obtain ⟨hLE, rfl, rfl⟩ := hAnil rfl
            simp only [headAddr_nil] at hreads5
            rw [hreads5 l.end_,
              if_neg (fun hh => hnde (by
                have h9 := (mem_addrs_reverse _ _).mp hh
                exact List.mem_append.mpr (Or.inl (List.mem_append.mpr (Or.inr h9))))),
              read_write_ne _ _ _ (fun hh => hce hh),
              read_write_ne _ _ _ (fun hh => hbe hh),
              read_write_ne _ _ _ (fun hh => hqe hh),
              read_write_self]
            rw [List.append_nil, lastPtr_concat]
        | cons z zs2 =>
            rcases z with ⟨d, dv⟩
            have hde : ¬d = l.end_ := by
              intro hh
              apply hnde
              rw [← hh]
              exact List.mem_append.mpr (Or.inr (by simp))
            rw [hM5r l.end_ (fun hh => hce hh) (fun hh => hbe hh)
              (fun hh => hqe hh)
              (by simp only [headAddr_cons]; exact hde)
              (fun hh => hnde (List.mem_append.mpr (Or.inl (List.mem_append.mpr (Or.inr hh))))),
              hend]
            simp only [lastPtr_append, lastPtr_cons]
      · -- the chain afterwards
        rw [chain_append, Bool.and_eq_true]
        constructor
        · -- the prefix chain `ws ++ [(q, qv)]`
          rw [chain_append, Bool.and_eq_true]
          constructor
          · -- ws is untouched
            have hwsreads : ∀ a ∈ addrs ws, M5.read a = m.read a := by
              intro a ha
              have hax : a ∈ addrs (ws ++ [(q, qv)]) := by
                rw [addrs_append]
                exact List.mem_append.mpr (Or.inl ha)
              have hqws : q ∉ addrs ws := by
                rw [addrs_append, List.nodup_append] at hndx
                intro hh
                exact hndx.2.2 hh (by simp [addrs])
              refine hM5r a (fun hh => hdxy (by rw [hh]; exact hax) hcY)
                (fun hh => hdxy (by rw [hh]; exact hax) hbY)
                (fun hh => hqws (by rw [hh]; exact ha)) ?_
                (fun hh => hdxy hax hh)
              cases zs with
              | nil =>
                  simp only [headAddr_nil]
                  intro hh
                  apply hnde
                  rw [hh]
                  exact List.mem_append.mpr (Or.inl (List.mem_append.mpr (Or.inl hax)))
              | cons z zs2 =>
                  rcases z with ⟨d, dv⟩
                  simp only [headAddr_cons]
                  intro hh
                  exact hdxyz (List.mem_append.mpr (Or.inl hax)) (by rw [← hh]; simp)
            rw [chain_congr m M5 _ _ _ hwsreads]
            have h11 : headAddr [(q, qv)] (headAddr zs l.end_) =
                headAddr [(q, qv)] b := rfl
            rw [h11]
            exact hchw
          · -- the node q now points right at `last`
            rw [chain_cons, Bool.and_eq_true, beq_iff_eq]
            constructor
            · rw [hreads5 q,
                if_neg (fun hh => hqY ((mem_addrs_reverse _ _).mp hh)),
                read_write_ne _ _ _ (fun hh => hqc hh.symm),
                read_write_ne _ _ _ (fun hh => hqb hh.symm),
                read_write_self]
              rfl
            · simp
        · -- the suffix zs
          cases zs with
          | nil => simp
          | cons z zs2 =>
              rcases z with ⟨d, dv⟩
              obtain ⟨rfl, rfl⟩ := hAcons d dv zs2 rfl
              rw [chain_cons, Bool.and_eq_true, beq_iff_eq]
              constructor
              · rw [headAddr_cons] at hreads5
                rw [hreads5 d,
                  if_neg (fun hh => hdxyz (by
                    have h9 := (mem_addrs_reverse _ _).mp hh
                    exact List.mem_append.mpr (Or.inr h9)) (by simp)),
                  read_write_ne _ _ _ (fun hh => hcz (by rw [hh]; simp)),
                  read_write_ne _ _ _ (fun hh => hbz (by rw [hh]; simp)),
                  read_write_ne _ _ _ (fun hh => hqz (by rw [hh]; simp)),
                  read_write_self]
                rw [hclq]
              · have hzreads : ∀ a ∈ addrs zs2, M5.read a = m.read a := by
                  intro a ha
                  have haz : a ∈ addrs ((d, dv) :: zs2) := by
                    rw [addrs_cons]
                    exact List.mem_cons.mpr (Or.inr ha)
                  have hay : a ∉ addrs ((b, bv) :: ys1) := by
                    intro hh
                    exact hdxyz (List.mem_append.mpr (Or.inr hh)) haz
                  rw [addrs_cons, List.nodup_cons] at hndz
                  refine hM5r a (fun hh => hcz (by rw [hh]; exact haz))
                    (fun hh => hbz (by rw [hh]; exact haz))
                    (fun hh => hqz (by rw [hh]; exact haz)) ?_ hay
                  simp only [headAddr_cons]
                  intro hh
                  exact hndz.1 (by rw [hh]; exact ha)
                rw [chain_congr m M5 _ _ _ hzreads]
                rw [chain_cons, Bool.and_eq_true, beq_iff_eq] at hchz
                exact hchz.2
      · -- the begin_ cache
        rw [hbeg]
        simp only [headAddr_append, headAddr_cons]
      · -- distinctness
        have hsub : List.Sublist (l.end_ :: addrs ((ws ++ [(q, qv)]) ++ zs))
            (l.end_ :: addrs (((ws ++ [(q, qv)]) ++ (b, bv) :: ys1) ++ zs)) := by
          apply List.Sublist.cons₂
          rw [addrs_append (ws ++ [(q, qv)]) zs,
            addrs_append ((ws ++ [(q, qv)]) ++ (b, bv) :: ys1) zs,
            addrs_append (ws ++ [(q, qv)]) ((b, bv) :: ys1),
            List.append_assoc]
          apply List.Sublist.append_left
          exact List.sublist_append_right _ _
        exact hnd0.sublist hsub
    · -- allocator counter unchanged
      rw [hnext5]
      rfl
    · -- the frame
      intro a hne hmem
      rw [addrs_append, addrs_append] at hmem
      refine hM5r a ?_ ?_ ?_ ?_ ?_
      · intro hh
        exact hmem (by rw [← hh]; exact
          List.mem_append.mpr (Or.inl (List.mem_append.mpr (Or.inr hcY))))
      · intro hh
        exact hmem (by rw [← hh]; exact
          List.mem_append.mpr (Or.inl (List.mem_append.mpr (Or.inr hbY))))
      · intro hh
        exact hmem (by rw [← hh]; exact
          List.mem_append.mpr (Or.inl (List.mem_append.mpr (Or.inl hqx))))
      · cases zs with
        | nil => simpa using fun hh => hne hh.symm
        | cons z zs2 =>
            rcases z with ⟨d, dv⟩
            simp only [headAddr_cons]
            intro hh
            exact hmem (by rw [← hh]; exact List.mem_append.mpr (Or.inr (by simp)))
      · intro hh
        exact hmem (List.mem_append.mpr (Or.inl (List.mem_append.mpr (Or.inr hh))))

/-! ## Iteration reads back the represented sequence -/

theorem iterate_of_chain (m : Mem) (stop : Nat) (ns : List (Nat × Int)) :
    ∀ (p : Ptr) (fuel : Nat), chain m p ns stop = true →
      stop ∉ addrs ns → ns.length < fuel →
      iterate fuel m (headAddr ns stop) stop = some (ns.map Prod.snd) := by
  induction ns with
  | nil =>
      intro p fuel _ _ hlen
      cases fuel with
      | zero => omega
      | succ f => simp [iterate]
  | cons x r ih =>
      intro p fuel hch hstop hlen
      rcases x with ⟨a, v⟩
      rw [chain_cons, Bool.and_eq_true, beq_iff_eq] at hch
      simp only [addrs_cons, List.mem_cons, not_or] at hstop
      cases fuel with
      | zero => omega
      | succ f =>
          rw [headAddr_cons]
          unfold iterate
          rw [if_neg (fun hh => hstop.1 hh.symm)]
          rw [bind_step (Mem.readVal_eq hch.1)]
          have hrr : m.readRight a = some (some (headAddr r stop)) :=
            Mem.readRight_eq hch.1
          rw [bind_step hrr, bind_some_step]
          rw [ih (some a) f hch.2 hstop.2 (by simpa using hlen)]
          rfl

/-- Iterating from `begin()` to `end()` yields exactly the represented
values. -/
theorem elems_of_Inv (m : Mem) (l : CppList) (ns : List (Nat × Int))
    (h : Inv m l ns = true) :
    elems m l (ns.length + 1) = some (ns.map Prod.snd) := by
  rw [Inv_iff] at h
  obtain ⟨hwf, hend, hch, hbeg, hnd⟩ := h
  rw [List.nodup_cons] at hnd
  unfold elems
  rw [hbeg]
  exact iterate_of_chain m l.end_ ns none (ns.length + 1) hch hnd.1 (by omega)

/-! ## Specification of `erase(pos)` and the push/pop wrappers -/

theorem erase1_spec (m : Mem) (l : CppList) (xs : List (Nat × Int))
    (a : Nat) (v : Int) (zs : List (Nat × Int))
    (h : Inv m l (xs ++ [(a, v)] ++ zs) = true) :
    ∃ m2 l2,
      erase1 m l a = some (m2, l2, headAddr zs l.end_) ∧
      Inv m2 l2 (xs ++ zs) = true ∧
      l2.end_ = l.end_ ∧ m2.next = m.next ∧
      m2.read a = none ∧
      (∀ x, x ≠ l.end_ → x ∉ addrs (xs ++ [(a, v)] ++ zs) →
        m2.read x = m.read x) := by
  have h2 := h
  rw [Inv_iff] at h2
  obtain ⟨hwf, hend, hch, hbeg, hnd⟩ := h2
  rw [chain_append, Bool.and_eq_true] at hch
  obtain ⟨hch1, hch2⟩ := hch
  rw [chain_append, Bool.and_eq_true] at hch1
  obtain ⟨hch1x, hch1y⟩ := hch1
  rw [chain_cons, Bool.and_eq_true, beq_iff_eq, headAddr_nil] at hch1y
  obtain ⟨hreada, _⟩ := hch1y
  obtain ⟨m2, l2, hrun, hinv, hend2, hnext2, hfreed, hframe⟩ :=
    erase_spec m l xs [(a, v)] zs h (List.cons_ne_nil _ _)
  refine ⟨m2, l2, ?_, hinv, hend2, hnext2, hfreed a (by simp), hframe⟩
  unfold erase1
  rw [bind_step (show m.readRight a = some (some (headAddr zs l.end_)) from
    Mem.readRight_eq hreada), bind_some_step]
  simpa using hrun

theorem pushBack_spec (m : Mem) (l : CppList) (ns : List (Nat × Int))
    (v : Int) (h : Inv m l ns = true) :
    ∃ m2 l2,
      pushBack m l v = some (m2, l2) ∧
      Inv m2 l2 (ns ++ [(m.next, v)]) = true ∧
      l2.end_ = l.end_ ∧ m2.next = m.next + 1 ∧
      (∀ a, a ≠ l.end_ → a ∉ addrs ns → a ≠ m.next → m2.read a = m.read a) := by
  obtain ⟨m2, l2, hrun, hinv, hend2, hnext2, hframe⟩ :=
    insert_spec m l ns [] v (by simpa using h)
  refine ⟨m2, l2, ?_, by simpa using hinv, hend2, hnext2, ?_⟩
  · unfold pushBack
    rw [show insert m l l.end_ v = insert m l (headAddr [] l.end_) v from rfl,
      hrun]
    rfl
  · intro a h1 h2 h3
    exact hframe a h1 (by simpa using h2) h3

theorem pushFront_spec (m : Mem) (l : CppList) (ns : List (Nat × Int))
    (v : Int) (h : Inv m l ns = true) :
    ∃ m2 l2,
      pushFront m l v = some (m2, l2) ∧
      Inv m2 l2 ((m.next, v) :: ns) = true ∧
      l2.end_ = l.end_ ∧ m2.next = m.next + 1 ∧
      (∀ a, a ≠ l.end_ → a ∉ addrs ns → a ≠ m.next → m2.read a = m.read a) := by
  have hbeg : l.begin_ = headAddr ns l.end_ := ((Inv_iff m l ns).mp h).2.2.2.1
  obtain ⟨m2, l2, hrun, hinv, hend2, hnext2, hframe⟩ :=
    insert_spec m l [] ns v (by simpa using h)
  refine ⟨m2, l2, ?_, by simpa using hinv, hend2, hnext2, ?_⟩
  · unfold pushFront
    rw [hbeg, hrun]
    rfl
  · intro a h1 h2 h3
    exact hframe a h1 (by simpa using h2) h3

theorem popFront_spec (m : Mem) (l : CppList) (a : Nat) (v : Int)
    (ns : List (Nat × Int)) (h : Inv m l ((a, v) :: ns) = true) :
    ∃ m2 l2,
      popFront m l = some (m2, l2) ∧
      Inv m2 l2 ns = true ∧
      l2.end_ = l.end_ ∧ m2.next = m.next := by
  have hbeg : l.begin_ = a := ((Inv_iff m l _).mp h).2.2.2.1
  obtain ⟨m2, l2, hrun, hinv, hend2, hnext2, _, _⟩ :=
    erase1_spec m l [] a v ns (by simpa using h)
  refine ⟨m2, l2, ?_, by simpa using hinv, hend2, hnext2⟩
  unfold popFront
  rw [hbeg, hrun]
  rfl

theorem popBack_spec (m : Mem) (l : CppList) (ns : List (Nat × Int))
    (a : Nat) (v : Int) (h : Inv m l (ns ++ [(a, v)]) = true) :
    ∃ m2 l2,
      popBack m l = some (m2, l2) ∧
      Inv m2 l2 ns = true ∧
      l2.end_ = l.end_ ∧ m2.next = m.next := by
  have h2 := h
  rw [Inv_iff] at h2
  obtain ⟨hwf, hend, hch, hbeg, hnd⟩ := h2
  have hlast : lastPtr none (ns ++ [(a, v)]) = some a := lastPtr_concat _ _ _ _
  obtain ⟨m2, l2, hrun, hinv, hend2, hnext2, _, _⟩ :=
    erase1_spec m l ns a v [] (by simpa using h)
  refine ⟨m2, l2, ?_, by simpa using hinv, hend2, hnext2⟩
  unfold popBack
  rw [bind_step (show m.readLeft l.end_ = some (some a) from by
    rw [Mem.readLeft_eq hend, hlast]), bind_some_step]
  rw [hrun]
  rfl

/-! ## Running whole programs of push/pop operations -/

theorem runOps_spec (ops : List Op) :
    ∀ (m : Mem) (l : CppList) (ns : List (Nat × Int)),
      Inv m l ns = true → legal (ns.map Prod.snd) ops = true →
      ∃ m2 l2 ns2, runOps m l ops = some (m2, l2) ∧ Inv m2 l2 ns2 = true ∧
        ns2.map Prod.snd = modelRun (ns.map Prod.snd) ops ∧
        l2.end_ = l.end_ := by
  induction ops with
  | nil =>
      intro m l ns h _
      exact ⟨m, l, ns, rfl, h, rfl, rfl⟩
  | cons o os ih =>
      intro m l ns h hl
      cases o with
      | pushBack v =>
          simp only [legal, Bool.true_and] at hl
          have hl2 := hl
          obtain ⟨m2, l2, hrun, hinv, hend2, _, _⟩ := pushBack_spec m l ns v h
          have hmap : (ns ++ [(m.next, v)]).map Prod.snd =
              modelStep (ns.map Prod.snd) (.pushBack v) := by
            simp [modelStep]
          obtain ⟨m3, l3, ns3, hrun3, hinv3, hmap3, hend3⟩ :=
            ih m2 l2 _ hinv (by rw [hmap]; exact hl2)
          refine ⟨m3, l3, ns3, ?_, hinv3, ?_, by rw [hend3, hend2]⟩
          · unfold runOps
            rw [bind_step hrun]
            exact hrun3
          · rw [hmap3, hmap]
            rfl
      | pushFront v =>
          simp only [legal, Bool.true_and] at hl
          have hl2 := hl
          obtain ⟨m2, l2, hrun, hinv, hend2, _, _⟩ := pushFront_spec m l ns v h
          have hmap : ((m.next, v) :: ns).map Prod.snd =
              modelStep (ns.map Prod.snd) (.pushFront v) := by
            simp [modelStep]
          obtain ⟨m3, l3, ns3, hrun3, hinv3, hmap3, hend3⟩ :=
            ih m2 l2 _ hinv (by rw [hmap]; exact hl2)
          refine ⟨m3, l3, ns3, ?_, hinv3, ?_, by rw [hend3, hend2]⟩
          · unfold runOps
            rw [bind_step hrun]
            exact hrun3
          · rw [hmap3, hmap]
            rfl
      | popFront =>
          simp only [legal, Bool.and_eq_true] at hl
          obtain ⟨hl1, hl2⟩ := hl
          cases ns with
          | nil => exact absurd hl1 (by decide)
          | cons x ns2 =>
              rcases x with ⟨a, v⟩
              obtain ⟨m2, l2, hrun, hinv, hend2, _⟩ :=
                popFront_spec m l a v ns2 h
              have hmap : ns2.map Prod.snd =
                  modelStep (((a, v) :: ns2).map Prod.snd) .popFront := by
                simp [modelStep]
              obtain ⟨m3, l3, ns3, hrun3, hinv3, hmap3, hend3⟩ :=
                ih m2 l2 _ hinv (by rw [hmap]; exact hl2)
              refine ⟨m3, l3, ns3, ?_, hinv3, ?_, by rw [hend3, hend2]⟩
              · unfold runOps
                rw [bind_step hrun]
                exact hrun3
              · rw [hmap3, hmap]
                rfl
      | popBack =>
          simp only [legal, Bool.and_eq_true] at hl
          obtain ⟨hl1, hl2⟩ := hl
          rcases List.eq_nil_or_concat' ns with rfl | ⟨ns2, ⟨a, v⟩, rfl⟩
          · exact absurd hl1 (by decide)
          · obtain ⟨m2, l2, hrun, hinv, hend2, _⟩ :=
              popBack_spec m l ns2 a v h
            have hmap : ns2.map Prod.snd =
                modelStep ((ns2 ++ [(a, v)]).map Prod.snd) .popBack := by
              simp [modelStep]
            obtain ⟨m3, l3, ns3, hrun3, hinv3, hmap3, hend3⟩ :=
              ih m2 l2 _ hinv (by rw [hmap]; exact hl2)
            refine ⟨m3, l3, ns3, ?_, hinv3, ?_, by rw [hend3, hend2]⟩
            · unfold runOps
              rw [bind_step hrun]
              exact hrun3
            · rw [hmap3, hmap]
              rfl

/-- A freshly default-constructed list satisfies the invariant with the
empty sequence. -/
theorem listNew_Inv (m : Mem) (hwf : m.wf = true) :
    Inv (listNew m).1 (listNew m).2 [] = true := by
  rw [Inv_iff]
  refine ⟨Mem.wf_alloc hwf, ?_, by simp [chain], rfl, by simp⟩
  show (m.alloc ⟨none, none, none⟩).2.read m.next = _
  rw [Mem.read_alloc, if_pos rfl]
  rfl

/-! ## Chain surgery lemmas for `splice` -/

theorem lastPtr_mem {ns : List (Nat × Int)} :
    ∀ {p : Ptr} {c : Nat}, ns ≠ [] → lastPtr p ns = some c → c ∈ addrs ns := by
  induction ns with
  | nil => intro p c h _; exact absurd rfl h
  | cons x r ih =>
      rcases x with ⟨a, v⟩
      intro p c _ hc
      rw [lastPtr_cons] at hc
      cases hr : r with
      | nil =>
          subst hr
          rw [lastPtr_nil] at hc
          rcases Option.some.inj hc with rfl
          simp
      | cons y r2 =>
          subst hr
          exact List.mem_cons.mpr (Or.inr (ih (List.cons_ne_nil _ _) hc))

/-- A chain whose last node's `right_` is redirected from `s0` to `s1`,
every other node reading the same, is a chain onto `s1` in the new
memory. -/
theorem chain_retarget_last (m M : Mem) :
    ∀ (p : Ptr) (ns : List (Nat × Int)) (c : Nat) (s0 s1 : Nat),
      lastPtr p ns = some c →
      chain m p ns s0 = true →
      (addrs ns).Nodup →
      (∀ n, m.read c = some n →
        M.read c = some ⟨n.left, n.val, some (some s1)⟩) →
      (∀ a, a ∈ addrs ns → a ≠ c → M.read a = m.read a) →
      chain M p ns s1 = true := by
  intro p ns
  induction ns generalizing p with
  | nil => intro c s0 s1 _ _ _ _ _; rfl
  | cons x r ih =>
      rcases x with ⟨a, v⟩
      intro c s0 s1 hlast hch hnd hrc hrw
      rw [chain_cons, Bool.and_eq_true, beq_iff_eq] at hch
      obtain ⟨hra, hch2⟩ := hch
      rw [addrs_cons, List.nodup_cons] at hnd
      rw [lastPtr_cons] at hlast
      rw [chain_cons, Bool.and_eq_true, beq_iff_eq]
      cases hr : r with
      | nil =>
          subst hr
          rw [lastPtr_nil] at hlast
          rcases Option.some.inj hlast with rfl
          refine ⟨?_, rfl⟩
          have h2 := hrc _ hra
          simpa using h2
      | cons y r2 =>
          subst hr
          have hcr : c ∈ addrs (y :: r2) :=
            lastPtr_mem (List.cons_ne_nil _ _) hlast
          have hac : a ≠ c := fun hh => hnd.1 (hh ▸ hcr)
          refine ⟨?_, ih (some a) c s0 s1 hlast hch2 hnd.2 hrc
            (fun x hx hxc => hrw x (List.mem_cons.mpr (Or.inr hx)) hxc)⟩
          rw [hrw a (by simp) hac, hra,
            headAddr_ne_nil (List.cons_ne_nil y r2) s1 s0]

/-- A chain whose first node's `left_` is redirected from `p` to `p2`,
every other node reading the same, is a chain from `p2` in the new
memory. -/
theorem chain_rehead (m M : Mem) (p p2 : Ptr) (d : Nat) (dv : Int)
    (ns : List (Nat × Int)) (stop : Nat)
    (hch : chain m p ((d, dv) :: ns) stop = true)
    (hrd : M.read d = some ⟨p2, some dv, some (some (headAddr ns stop))⟩)
    (hrns : ∀ a, a ∈ addrs ns → M.read a = m.read a) :
    chain M p2 ((d, dv) :: ns) stop = true := by
  rw [chain_cons, Bool.and_eq_true, beq_iff_eq] at hch
  rw [chain_cons, Bool.and_eq_true, beq_iff_eq]
  exact ⟨hrd, by rw [chain_congr m M (some d) ns stop hrns]; exact hch.2⟩

/-- The address pool after moving a block `x` from between `w` and `y`
into the middle of the other list: still duplicate-free. -/
theorem nodup_splice_shuffle (e1 e2 : Nat) (u v w x y : List Nat)
    (h : (e1 :: e2 :: (u ++ v ++ (w ++ x ++ y))).Nodup) :
    (e1 :: e2 :: (u ++ x ++ v ++ (w ++ y))).Nodup := by
  refine List.Perm.nodup ?_ h
  apply List.perm_iff_count.mpr
  intro a
  simp only [List.count_cons, List.count_append]
  omega

/-- Every pair listed in a valid chain is readable at its stored value. -/
theorem chain_readVal (m : Mem) (p : Ptr) (ns : List (Nat × Int)) (stop : Nat)
    (h : chain m p ns stop = true) :
    ∀ a v, (a, v) ∈ ns → m.readVal a = some v := by
  intro a v ha
  obtain ⟨q, r, hr⟩ := chain_read h ha
  simp [Mem.readVal, hr]

theorem lastPtr_through (p p2 : Ptr) (xs : List (Nat × Int)) (hne : xs ≠ [])
    (pre : List (Nat × Int)) : lastPtr p (pre ++ xs) = lastPtr p2 xs := by
  rw [lastPtr_append]
  exact lastPtr_ne_nil hne _ _

theorem headAddr_through (pre : List (Nat × Int)) (hne : pre ≠ [])
    (xs : List (Nat × Int)) (s t : Nat) :
    headAddr (pre ++ xs) s = headAddr pre t := by
  rw [headAddr_append]
  exact headAddr_ne_nil hne _ _

/-! ## Specification of `splice` (distinct lists)

The receiver `thisL` holds `cs1 ++ cs2` with `pos` at the start of `cs2`
(or `end()`); `otherL` holds `as1 ++ bs ++ as2` and `[first, last)` is the
block `bs`. -/

theorem splice_spec (m : Mem) (thisL otherL : CppList)
    (cs1 cs2 as1 bs as2 : List (Nat × Int))
    (h : Inv2 m thisL (cs1 ++ cs2) otherL (as1 ++ bs ++ as2) = true)
    (hbs : bs ≠ []) :
    ∃ m2 this2 other2,
      splice m thisL otherL (headAddr cs2 thisL.end_)
        (headAddr (bs ++ as2) otherL.end_) (headAddr as2 otherL.end_) =
        some (m2, this2, other2) ∧
      Inv2 m2 this2 (cs1 ++ bs ++ cs2) other2 (as1 ++ as2) = true ∧
      this2.end_ = thisL.end_ ∧ other2.end_ = otherL.end_ ∧
      m2.next = m.next ∧
      (∀ a, a ≠ thisL.end_ → a ≠ otherL.end_ →
        a ∉ addrs (cs1 ++ cs2) → a ∉ addrs (as1 ++ bs ++ as2) →
        m2.read a = m.read a) := by
  rw [Inv2_iff] at h
  obtain ⟨hwf, hrepB, hrepA, hnd⟩ := h
  rw [repOk_iff] at hrepB hrepA
  obtain ⟨hendB, hchB, hbegB⟩ := hrepB
  obtain ⟨hendA, hchA, hbegA⟩ := hrepA
  have hnd0 := hnd
  rw [List.nodup_cons, List.mem_cons] at hnd
  obtain ⟨hBe, hnd⟩ := hnd
  rw [List.nodup_cons] at hnd
  obtain ⟨hAe, hnd⟩ := hnd
  push_neg at hBe
  obtain ⟨hBA, hBmem⟩ := hBe
  rcases bs with _ | ⟨⟨b, bv⟩, bs1⟩
  · exact absurd rfl hbs
  simp only [addrs_append] at hAe hBmem hnd
  rw [List.nodup_append] at hnd
  obtain ⟨hndC, hndAs, hdCA⟩ := hnd
  rw [List.nodup_append] at hndC
  obtain ⟨hndC1, hndC2, hdC12⟩ := hndC
  rw [List.nodup_append] at hndAs
  obtain ⟨hndA1Bs, hndA2, hdA12⟩ := hndAs
  rw [List.nodup_append] at hndA1Bs
  obtain ⟨hndA1, hndBs, hdA1Bs⟩ := hndA1Bs
  have hdBsA2 : ∀ x, x ∈ addrs ((b, bv) :: bs1) → x ∉ addrs as2 :=
    fun x hx => hdA12 (List.mem_append.mpr (Or.inr hx))
  -- chain decompositions
  rw [chain_append, Bool.and_eq_true] at hchA
  obtain ⟨hchAB, hchA2⟩ := hchA
  rw [chain_append, Bool.and_eq_true] at hchAB
  obtain ⟨hchA1, hchBs⟩ := hchAB
  rw [chain_append, Bool.and_eq_true] at hchB
  obtain ⟨hchC1, hchC2⟩ := hchB
  simp only [headAddr_cons] at hchA1
  obtain ⟨c, hc⟩ := lastPtr_isSome b bs1
  have hcfull : lastPtr (lastPtr none as1) ((b, bv) :: bs1) = some c := by
    rw [lastPtr_cons]; exact hc
  obtain ⟨pc, cv, hreadc, hcmem⟩ :=
    chain_last_read m _ _ _ hchBs hcfull (List.cons_ne_nil _ _)
  rw [lastPtr_append, hcfull] at hchA2
  rw [chain_cons, Bool.and_eq_true, beq_iff_eq] at hchBs
  obtain ⟨hreadb, hchBs1⟩ := hchBs
  have hbBs : b ∈ addrs ((b, bv) :: bs1) := by simp
  have hcBs : c ∈ addrs ((b, bv) :: bs1) := List.mem_map.mpr ⟨(c, cv), hcmem, rfl⟩
  -- membership toolkit
  have hmemAll : ∀ x, x ∈ addrs cs1 ∨ x ∈ addrs cs2 ∨ x ∈ addrs as1 ∨
      x ∈ addrs ((b, bv) :: bs1) ∨ x ∈ addrs as2 →
      ¬x = thisL.end_ ∧ ¬x = otherL.end_ := by
    intro x hx
    have hx2 : x ∈ addrs cs1 ++ addrs cs2 ++
        (addrs as1 ++ addrs ((b, bv) :: bs1) ++ addrs as2) := by
      simp only [List.mem_append]
      tauto
    exact ⟨fun hh => hBmem (by rw [← hh]; exact hx2),
      fun hh => hAe (by rw [← hh]; exact hx2)⟩
  have hdisj2 : ∀ x, x ∈ addrs as1 ∨ x ∈ addrs ((b, bv) :: bs1) ∨ x ∈ addrs as2 →
      x ∉ addrs cs1 ∧ x ∉ addrs cs2 := by
    intro x hx
    have hx2 : x ∈ addrs as1 ++ addrs ((b, bv) :: bs1) ++ addrs as2 := by
      simp only [List.mem_append]
      tauto
    exact ⟨fun hh => hdCA (List.mem_append.mpr (Or.inl hh)) hx2,
      fun hh => hdCA (List.mem_append.mpr (Or.inr hh)) hx2⟩
  have hPmem : headAddr cs2 thisL.end_ = thisL.end_ ∨
      headAddr cs2 thisL.end_ ∈ addrs cs2 := by
    cases cs2 with
    | nil => exact Or.inl rfl
    | cons z r => rcases z with ⟨e, ev⟩; exact Or.inr (by simp)
  have hLmem : headAddr as2 otherL.end_ = otherL.end_ ∨
      headAddr as2 otherL.end_ ∈ addrs as2 := by
    cases as2 with
    | nil => exact Or.inl rfl
    | cons z r => rcases z with ⟨d, dv⟩; exact Or.inr (by simp)
  have hLnotBs : ∀ x, x ∈ addrs ((b, bv) :: bs1) →
      ¬headAddr as2 otherL.end_ = x := by
    intro x hx hh
    rcases hLmem with h1 | h1
    · exact (hmemAll x (Or.inr (Or.inr (Or.inr (Or.inl hx))))).2 (by rw [← hh, h1])
    · exact hdBsA2 x hx (by rw [← hh]; exact h1)
  have hPnotBs : ∀ x, x ∈ addrs ((b, bv) :: bs1) →
      ¬headAddr cs2 thisL.end_ = x := by
    intro x hx hh
    rcases hPmem with h1 | h1
    · exact (hmemAll x (Or.inr (Or.inr (Or.inr (Or.inl hx))))).1 (by rw [← hh, h1])
    · exact (hdisj2 x (Or.inr (Or.inl hx))).2 (by rw [← hh]; exact h1)
  have hLP : ¬headAddr as2 otherL.end_ = headAddr cs2 thisL.end_ := by
    intro hh
    rcases hLmem with h1 | h1 <;> rcases hPmem with h2 | h2
    · exact hBA (by rw [← h2, ← hh]; exact h1)
    · have h3 : otherL.end_ ∈ addrs cs2 := by rw [← h1, hh]; exact h2
      exact hAe (List.mem_append.mpr (Or.inl (List.mem_append.mpr (Or.inr h3))))
    · have h3 : thisL.end_ ∈ addrs as2 := by rw [← h2, ← hh]; exact h1
      exact hBmem (List.mem_append.mpr (Or.inr (List.mem_append.mpr (Or.inr h3))))
    · have h3 : headAddr cs2 thisL.end_ ∈ addrs as2 := by rw [← hh]; exact h1
      exact (hdisj2 _ (Or.inr (Or.inr h3))).2 h2
  have hbc_or : (bs1 = [] ∧ b = c) ∨ (bs1 ≠ [] ∧ ¬b = c) := by
    rw [addrs_cons, List.nodup_cons] at hndBs
    cases bs1 with
    | nil =>
        rw [lastPtr_nil] at hc
        exact Or.inl ⟨rfl, Option.some.inj hc⟩
    | cons y r =>
        refine Or.inr ⟨List.cons_ne_nil _ _, fun hh => ?_⟩
        have hcr : c ∈ addrs (y :: r) := lastPtr_mem (List.cons_ne_nil _ _) hc
        exact hndBs.1 (by rw [hh]; exact hcr)
  -- the two boundary nodes
  have hA : ∃ lv lr, m.read (headAddr as2 otherL.end_) = some ⟨some c, lv, lr⟩ ∧
      (as2 = [] → headAddr as2 otherL.end_ = otherL.end_ ∧ lv = none ∧ lr = none) ∧
      (∀ d dv as3, as2 = (d, dv) :: as3 →
        lv = some dv ∧ lr = some (some (headAddr as3 otherL.end_))) := by
    cases as2 with
    | nil =>
        refine ⟨none, none, ?_, fun _ => ⟨rfl, rfl, rfl⟩,
          fun d dv as3 hh => by simp at hh⟩
        have h2 : lastPtr none (as1 ++ ((b, bv) :: bs1) ++ []) = some c := by
          rw [List.append_nil, lastPtr_append, hcfull]
        rw [headAddr_nil, hendA, h2]
    | cons z as3 =>
        rcases z with ⟨d, dv⟩
        rw [chain_cons, Bool.and_eq_true, beq_iff_eq] at hchA2
        refine ⟨some dv, some (some (headAddr as3 otherL.end_)),
          by simpa using hchA2.1, fun hh => by simp at hh,
          fun d2 dv2 as4 hh => ?_⟩
        rw [List.cons.injEq, Prod.mk.injEq] at hh
        obtain ⟨⟨rfl, rfl⟩, rfl⟩ := hh
        exact ⟨rfl, rfl⟩
  have hB : ∃ lv2 lr2, m.read (headAddr cs2 thisL.end_) =
      some ⟨lastPtr none cs1, lv2, lr2⟩ ∧
      (cs2 = [] → headAddr cs2 thisL.end_ = thisL.end_ ∧ lv2 = none ∧ lr2 = none) ∧
      (∀ e ev cs3, cs2 = (e, ev) :: cs3 →
        lv2 = some ev ∧ lr2 = some (some (headAddr cs3 thisL.end_))) := by
    cases cs2 with
    | nil =>
        refine ⟨none, none, ?_, fun _ => ⟨rfl, rfl, rfl⟩,
          fun e ev cs3 hh => by simp at hh⟩
        rw [headAddr_nil, hendB, List.append_nil]
    | cons z cs3 =>
        rcases z with ⟨e, ev⟩
        rw [chain_cons, Bool.and_eq_true, beq_iff_eq] at hchC2
        refine ⟨some ev, some (some (headAddr cs3 thisL.end_)),
          by simpa using hchC2.1, fun hh => by simp at hh,
          fun e2 ev2 cs4 hh => ?_⟩
        rw [List.cons.injEq, Prod.mk.injEq] at hh
        obtain ⟨⟨rfl, rfl⟩, rfl⟩ := hh
        exact ⟨rfl, rfl⟩
  obtain ⟨lv, lr, hreadL, hAnil, hAcons⟩ := hA
  obtain ⟨lv2, lr2, hreadP, hBnil, hBcons⟩ := hB
  have hbL : ¬b = headAddr as2 otherL.end_ :=
    fun hh => hLnotBs b hbBs hh.symm
  have hcL : ¬headAddr as2 otherL.end_ = c := hLnotBs c hcBs
  have hbP : ¬headAddr cs2 thisL.end_ = b := hPnotBs b hbBs
  have hcP : ¬headAddr cs2 thisL.end_ = c := hPnotBs c hcBs
  have hLb : ¬headAddr as2 otherL.end_ = b := hLnotBs b hbBs
  rcases List.eq_nil_or_concat' as1 with rfl | ⟨ws, ⟨q, qv⟩, rfl⟩
  · -- as1 = []: the range starts at other's first node
    rw [lastPtr_nil] at hreadb
    rcases List.eq_nil_or_concat' cs1 with rfl | ⟨ws2, ⟨q2, q2v⟩, rfl⟩
    · -- cs1 = []: pos is this list's first position
      rw [lastPtr_nil] at hreadP
      -- the write stack
      obtain ⟨M1, hM1⟩ : ∃ M1,
          m.write (headAddr as2 otherL.end_) ⟨none, lv, lr⟩ = M1 := ⟨_, rfl⟩
      obtain ⟨M3, hM3⟩ : ∃ M3,
          M1.write c ⟨pc, some cv, some (some (headAddr cs2 thisL.end_))⟩ = M3 :=
        ⟨_, rfl⟩
      obtain ⟨M4, hM4⟩ : ∃ M4,
          M3.write b ⟨none, some bv,
            some (some (headAddr bs1 (headAddr cs2 thisL.end_)))⟩ = M4 := ⟨_, rfl⟩
      obtain ⟨M6, hM6⟩ : ∃ M6,
          M4.write (headAddr cs2 thisL.end_) ⟨some c, lv2, lr2⟩ = M6 := ⟨_, rfl⟩
      -- reads through the stack
      have hM1c : M1.read c = some ⟨pc, some cv,
          some (some (headAddr as2 otherL.end_))⟩ := by
        rw [← hM1, read_write_ne _ _ _ hcL]; exact hreadc
      have hM3b : M3.read b = some ⟨none, some bv,
          some (some (headAddr bs1 (headAddr cs2 thisL.end_)))⟩ := by
        rcases hbc_or with ⟨rfl, rfl⟩ | ⟨hne1, hne2⟩
        · rw [← hM3, read_write_self]
          have h2 : pc = none ∧ cv = bv := by
            rw [hreadb] at hreadc
            rcases Option.some.inj hreadc with ⟨⟩
            exact ⟨rfl, rfl⟩
          rw [h2.1, h2.2]
          rfl
        · rw [← hM3, read_write_ne _ _ _ (fun hh => hne2 hh.symm), ← hM1,
            read_write_ne _ _ _ hLb, hreadb,
            headAddr_ne_nil hne1 (headAddr cs2 thisL.end_) (headAddr as2 otherL.end_)]
      have hM3P : M3.read (headAddr cs2 thisL.end_) = some ⟨none, lv2, lr2⟩ := by
        rw [← hM3, read_write_ne _ _ _ (fun hh => hcP hh.symm), ← hM1,
          read_write_ne _ _ _ (fun hh => hLP hh), hreadP]
      have hM4P : M4.read (headAddr cs2 thisL.end_) = some ⟨none, lv2, lr2⟩ := by
        rw [← hM4, read_write_ne _ _ _ (fun hh => hbP hh.symm)]; exact hM3P
      -- final reads
      have hM6P : M6.read (headAddr cs2 thisL.end_) = some ⟨some c, lv2, lr2⟩ := by
        rw [← hM6, read_write_self]
      have hM6b : M6.read b = some ⟨none, some bv,
          some (some (headAddr bs1 (headAddr cs2 thisL.end_)))⟩ := by
        rw [← hM6, read_write_ne _ _ _ hbP, ← hM4, read_write_self]
      have hM6c : ¬b = c → M6.read c = some ⟨pc, some cv,
          some (some (headAddr cs2 thisL.end_))⟩ := by
        intro hne
        rw [← hM6, read_write_ne _ _ _ hcP, ← hM4, read_write_ne _ _ _ hne,
          ← hM3, read_write_self]
      have hM6L : M6.read (headAddr as2 otherL.end_) = some ⟨none, lv, lr⟩ := by
        rw [← hM6, read_write_ne _ _ _ (fun hh => hLP hh.symm), ← hM4,
          read_write_ne _ _ _ (fun hh => hLb hh.symm), ← hM3,
          read_write_ne _ _ _ (fun hh => hcL hh.symm), ← hM1, read_write_self]
      have hM6r : ∀ x, ¬headAddr cs2 thisL.end_ = x → ¬b = x → ¬c = x →
          ¬headAddr as2 otherL.end_ = x → M6.read x = m.read x := by
        intro x h1 h2 h3 h4
        rw [← hM6, read_write_ne _ _ _ h1, ← hM4, read_write_ne _ _ _ h2,
          ← hM3, read_write_ne _ _ _ h3, ← hM1, read_write_ne _ _ _ h4]
      have hM6n : M6.next = m.next := by
        rw [← hM6, ← hM4, ← hM3, ← hM1]; rfl
      have hM6wf : M6.wf = true := by
        have h1 : M1.wf = true := by
          rw [← hM1]; exact Mem.wf_write hwf (Mem.wf_read_lt hwf hreadL)
        have h3 : M3.wf = true := by
          rw [← hM3]
          refine Mem.wf_write h1 ?_
          rw [← hM1, Mem.write_next]
          exact Mem.wf_read_lt hwf hreadc
        have h4 : M4.wf = true := by
          rw [← hM4]
          refine Mem.wf_write h3 ?_
          rw [← hM3, ← hM1, Mem.write_next, Mem.write_next]
          exact Mem.wf_read_lt hwf hreadb
        rw [← hM6]
        refine Mem.wf_write h4 ?_
        rw [← hM4, ← hM3, ← hM1, Mem.write_next, Mem.write_next, Mem.write_next]
        exact Mem.wf_read_lt hwf hreadP
      refine ⟨M6, { thisL with begin_ := b },
        { otherL with begin_ := headAddr as2 otherL.end_ }, ?_, ?_, rfl, rfl,
        hM6n, ?_⟩
      · -- the execution
        simp only [List.cons_append, headAddr_cons]
        unfold splice
        rw [if_neg hbL]
        have hs1 : m.readLeft (headAddr as2 otherL.end_) = some (some c) :=
          Mem.readLeft_eq hreadL
        have hs2 : m.readRight c = some (some (headAddr as2 otherL.end_)) :=
          Mem.readRight_eq hreadc
        have hs3 : m.readLeft b = some none := Mem.readLeft_eq hreadb
        have hs4 : m.writeLeft (headAddr as2 otherL.end_) none = some M1 := by
          rw [Mem.writeLeft_eq hreadL none, hM1]
        rw [bind_step hs1, bind_some_step, bind_step hs2, bind_some_step,
          bind_step hs3, bind_step hs4]
        rw [bind_some_step]
        dsimp only
        have hs5 : M1.writeRight c (some (headAddr cs2 thisL.end_)) = some M3 := by
          rw [Mem.writeRight_eq hM1c, hM3]
        have hs6 : M3.readLeft (headAddr cs2 thisL.end_) = some none :=
          Mem.readLeft_eq hM3P
        have hs7 : M3.writeLeft b none = some M4 := by
          rw [Mem.writeLeft_eq hM3b none, hM4]
        rw [bind_step hs5, bind_step hs6, bind_step hs7]
        rw [bind_some_step]
        dsimp only
        have hs8 : M4.writeLeft (headAddr cs2 thisL.end_) (some c) = some M6 := by
          rw [Mem.writeLeft_eq hM4P (some c), hM6]
        rw [bind_step hs8]
        rfl
      · -- the two-list invariant afterwards
        rw [Inv2_iff]
        refine ⟨hM6wf, ?_, ?_, ?_⟩
        · -- repOk of the receiver
          rw [repOk_iff]
          refine ⟨?_, ?_, by simp⟩
          · -- sentinel of the receiver
            show M6.read thisL.end_ = _
            cases cs2 with
            | nil =>
                obtain ⟨hPB, rfl, rfl⟩ := hBnil rfl
                rw [← hPB, hM6P]
                simp only [List.nil_append, List.append_nil, lastPtr_cons, hc]
            | cons z cs3 =>
                rcases z with ⟨e, ev⟩
                have hBe2 : ¬thisL.end_ = headAddr ((e, ev) :: cs3) thisL.end_ := by
                  simp only [headAddr_cons]
                  intro hh
                  exact (hmemAll e (Or.inr (Or.inl (by simp)))).1 hh.symm
                rw [hM6r thisL.end_ (fun hh => hBe2 hh.symm)
                  (fun hh => (hmemAll b (Or.inr (Or.inr (Or.inr (Or.inl hbBs))))).1 hh)
                  (fun hh => (hmemAll c (Or.inr (Or.inr (Or.inr (Or.inl hcBs))))).1 hh)
                  (by rcases hLmem with h1 | h1
                      · intro hh; exact hBA (by rw [← hh, h1])
                      · intro hh
                        exact (hmemAll _ (Or.inr (Or.inr (Or.inr (Or.inr h1))))).1 hh),
                  hendB]
                simp only [List.nil_append]
                rw [lastPtr_append,
                  lastPtr_ne_nil (List.cons_ne_nil _ _)
                    (lastPtr none ((b, bv) :: bs1)) none]
          · -- chain of the receiver
            simp only [List.nil_append]
            rw [chain_append, Bool.and_eq_true]
            constructor
            · -- the moved block
              rw [chain_cons, Bool.and_eq_true, beq_iff_eq]
              refine ⟨by rw [hM6b], ?_⟩
              rcases hbc_or with ⟨rfl, rfl⟩ | ⟨hne1, hne2⟩
              · simp
              · refine chain_retarget_last m M6 (some b) bs1 c
                  (headAddr as2 otherL.end_) (headAddr cs2 thisL.end_) hc hchBs1
                  ?_ ?_ ?_
                · rw [addrs_cons, List.nodup_cons] at hndBs
                  exact hndBs.2
                · intro n hn
                  rw [hreadc] at hn
                  rcases Option.some.inj hn with rfl
                  exact hM6c hne2
                · intro x hx hxc
                  have hxBs : x ∈ addrs ((b, bv) :: bs1) := by
                    rw [addrs_cons]; exact List.mem_cons.mpr (Or.inr hx)
                  have hxb : ¬b = x := by
                    rw [addrs_cons, List.nodup_cons] at hndBs
                    intro hh
                    exact hndBs.1 (by rw [hh]; exact hx)
                  exact hM6r x (hPnotBs x hxBs) hxb (fun hh => hxc hh.symm)
                    (hLnotBs x hxBs)
            · -- the old contents of the receiver, reheaded at `some c`
              rw [lastPtr_cons, hc]
              cases cs2 with
              | nil => simp
              | cons z cs3 =>
                  rcases z with ⟨e, ev⟩
                  obtain ⟨rfl, rfl⟩ := hBcons e ev cs3 rfl
                  rw [lastPtr_nil] at hchC2
                  refine chain_rehead m M6 none (some c) e ev cs3 thisL.end_
                    hchC2 ?_ ?_
                  · simpa using hM6P
                  · intro x hx
                    have hxC2 : x ∈ addrs ((e, ev) :: cs3) := by
                      rw [addrs_cons]; exact List.mem_cons.mpr (Or.inr hx)
                    have hxe : ¬headAddr ((e, ev) :: cs3) thisL.end_ = x := by
                      simp only [headAddr_cons]
                      rw [addrs_cons, List.nodup_cons] at hndC2
                      intro hh
                      exact hndC2.1 (by rw [hh]; exact hx)
                    refine hM6r x hxe ?_ ?_ ?_
                    · intro hh
                      exact (hdisj2 b (Or.inr (Or.inl hbBs))).2 (by rw [hh]; exact hxC2)
                    · intro hh
                      exact (hdisj2 c (Or.inr (Or.inl hcBs))).2 (by rw [hh]; exact hxC2)
                    · rcases hLmem with h1 | h1
                      · intro hh
                        exact (hmemAll x (Or.inr (Or.inl hxC2))).2 (by rw [← hh, h1])
                      · intro hh
                        exact (hdisj2 x (Or.inr (Or.inr (by rw [← hh]; exact h1)))).2
                          hxC2
        · -- repOk of the source
          rw [repOk_iff]
          refine ⟨?_, ?_, by
            show headAddr as2 otherL.end_ = _
            simp⟩
          · -- sentinel of the source
            show M6.read otherL.end_ = _
            cases as2 with
            | nil =>
                obtain ⟨hLA, rfl, rfl⟩ := hAnil rfl
                rw [← hLA, hM6L]
                rfl
            | cons z as3 =>
                rcases z with ⟨d, dv⟩
                have hAd : ¬otherL.end_ = d :=
                  fun hh => (hmemAll d (Or.inr (Or.inr (Or.inr (Or.inr (by simp)))))).2
                    hh.symm
                rw [hM6r otherL.end_
                  (by rcases hPmem with h1 | h1
                      · intro hh; exact hBA (by rw [← h1, hh])
                      · intro hh
                        exact (hmemAll _ (Or.inr (Or.inl h1))).2 hh)
                  (fun hh => (hmemAll b (Or.inr (Or.inr (Or.inr (Or.inl hbBs))))).2 hh)
                  (fun hh => (hmemAll c (Or.inr (Or.inr (Or.inr (Or.inl hcBs))))).2 hh)
                  (by simp only [headAddr_cons]; exact fun hh => hAd hh.symm),
                  hendA]
                simp only [List.nil_append]
                rw [lastPtr_append,
                  lastPtr_ne_nil (List.cons_ne_nil _ _)
                    (lastPtr none ((b, bv) :: bs1)) none]
          · -- chain of the source
            simp only [List.nil_append]
            cases as2 with
            | nil => simp
            | cons z as3 =>
                rcases z with ⟨d, dv⟩
                obtain ⟨rfl, rfl⟩ := hAcons d dv as3 rfl
                refine chain_rehead m M6 (some c) none d dv as3 otherL.end_
                  hchA2 ?_ ?_
                · simpa using hM6L
                · intro x hx
                  have hxA2 : x ∈ addrs ((d, dv) :: as3) := by
                    rw [addrs_cons]; exact List.mem_cons.mpr (Or.inr hx)
                  have hxd : ¬headAddr ((d, dv) :: as3) otherL.end_ = x := by
                    simp only [headAddr_cons]
                    rw [addrs_cons, List.nodup_cons] at hndA2
                    intro hh
                    exact hndA2.1 (by rw [hh]; exact hx)
                  refine hM6r x ?_ ?_ ?_ hxd
                  · rcases hPmem with h1 | h1
                    · intro hh
                      exact (hmemAll x (Or.inr (Or.inr (Or.inr (Or.inr hxA2))))).1
                        (by rw [← hh, h1])
                    · intro hh
                      exact (hdisj2 x (Or.inr (Or.inr hxA2))).2 (by rw [← hh]; exact h1)
                  · intro hh
                    exact hdBsA2 b hbBs (by rw [hh]; exact hxA2)
                  · intro hh
                    exact hdBsA2 c hcBs (by rw [hh]; exact hxA2)
        · -- the combined address pool
          show (thisL.end_ :: otherL.end_ :: _).Nodup
          refine List.Perm.nodup ?_ hnd0
          apply List.perm_iff_count.mpr
          intro a0
          simp only [List.count_cons, List.count_append, addrs_append,
            List.nil_append]
          omega
      · -- the frame
        intro a haB haA haC haAs
        simp only [addrs_append, List.mem_append, List.nil_append, not_or]
          at haC haAs
        refine hM6r a ?_ ?_ ?_ ?_
        · rcases hPmem with h1 | h1
          · intro hh; exact haB (by rw [← hh, h1])
          · intro hh; exact haC (by rw [← hh]; exact h1)
        · intro hh
          exact haAs.1 (by rw [← hh]; exact hbBs)
        · intro hh
          exact haAs.1 (by rw [← hh]; exact hcBs)
        · rcases hLmem with h1 | h1
          · intro hh; exact haA (by rw [← hh, h1])
          · intro hh; exact haAs.2 (by rw [← hh]; exact h1)
    · -- cs1 = ws2 ++ [(q2, q2v)]
      have hclq2 : lastPtr none (ws2 ++ [(q2, q2v)]) = some q2 :=
        lastPtr_concat _ _ _ _
      rw [hclq2] at hreadP
      have hchC1' := hchC1
      rw [chain_append, Bool.and_eq_true] at hchC1
      obtain ⟨hchW2, hchq2⟩ := hchC1
      rw [chain_cons, Bool.and_eq_true, beq_iff_eq, headAddr_nil] at hchq2
      obtain ⟨hreadq2, _⟩ := hchq2
      have hq2C : q2 ∈ addrs (ws2 ++ [(q2, q2v)]) := by simp [addrs]
      have hq2b : ¬q2 = b :=
        fun hh => (hdisj2 b (Or.inr (Or.inl hbBs))).1 (by rw [← hh]; exact hq2C)
      have hq2c : ¬q2 = c :=
        fun hh => (hdisj2 c (Or.inr (Or.inl hcBs))).1 (by rw [← hh]; exact hq2C)
      have hq2L : ¬headAddr as2 otherL.end_ = q2 := by
        rcases hLmem with h1 | h1
        · intro hh
          exact (hmemAll q2 (Or.inl hq2C)).2 (by rw [← hh]; exact h1)
        · intro hh
          exact (hdisj2 _ (Or.inr (Or.inr h1))).1 (by rw [hh]; exact hq2C)
      have hq2P : ¬headAddr cs2 thisL.end_ = q2 := by
        rcases hPmem with h1 | h1
        · intro hh
          exact (hmemAll q2 (Or.inl hq2C)).1 (by rw [← hh]; exact h1)
        · intro hh
          exact hdC12 hq2C (by rw [hh] at h1; exact h1)
      -- the write stack
      obtain ⟨M1, hM1⟩ : ∃ M1,
          m.write (headAddr as2 otherL.end_) ⟨none, lv, lr⟩ = M1 := ⟨_, rfl⟩
      obtain ⟨M3, hM3⟩ : ∃ M3,
          M1.write c ⟨pc, some cv, some (some (headAddr cs2 thisL.end_))⟩ = M3 :=
        ⟨_, rfl⟩
      obtain ⟨M4, hM4⟩ : ∃ M4,
          M3.write b ⟨some q2, some bv,
            some (some (headAddr bs1 (headAddr cs2 thisL.end_)))⟩ = M4 := ⟨_, rfl⟩
      obtain ⟨M5, hM5⟩ : ∃ M5,
          M4.write q2 ⟨lastPtr none ws2, some q2v, some (some b)⟩ = M5 := ⟨_, rfl⟩
      obtain ⟨M6, hM6⟩ : ∃ M6,
          M5.write (headAddr cs2 thisL.end_) ⟨some c, lv2, lr2⟩ = M6 := ⟨_, rfl⟩
      -- reads through the stack
      have hM1c : M1.read c = some ⟨pc, some cv,
          some (some (headAddr as2 otherL.end_))⟩ := by
        rw [← hM1, read_write_ne _ _ _ hcL]; exact hreadc
      have hM3b : M3.read b = some ⟨none, some bv,
          some (some (headAddr bs1 (headAddr cs2 thisL.end_)))⟩ := by
        rcases hbc_or with ⟨rfl, rfl⟩ | ⟨hne1, hne2⟩
        · rw [← hM3, read_write_self]
          have h2 : pc = none ∧ cv = bv := by
            rw [hreadb] at hreadc
            rcases Option.some.inj hreadc with ⟨⟩
            exact ⟨rfl, rfl⟩
          rw [h2.1, h2.2]
          rfl
        · rw [← hM3, read_write_ne _ _ _ (fun hh => hne2 hh.symm), ← hM1,
            read_write_ne _ _ _ hLb, hreadb,
            headAddr_ne_nil hne1 (headAddr cs2 thisL.end_) (headAddr as2 otherL.end_)]
      have hM3P : M3.read (headAddr cs2 thisL.end_) = some ⟨some q2, lv2, lr2⟩ := by
        rw [← hM3, read_write_ne _ _ _ (fun hh => hcP hh.symm), ← hM1,
          read_write_ne _ _ _ (fun hh => hLP hh), hreadP]
      have hM4q2 : M4.read q2 = some ⟨lastPtr none ws2, some q2v,
          some (some (headAddr cs2 thisL.end_))⟩ := by
        rw [← hM4, read_write_ne _ _ _ (fun hh => hq2b hh.symm), ← hM3,
          read_write_ne _ _ _ (fun hh => hq2c hh.symm), ← hM1,
          read_write_ne _ _ _ (fun hh => hq2L (by rw [hh]))]
        exact hreadq2
      have hM5P : M5.read (headAddr cs2 thisL.end_) = some ⟨some q2, lv2, lr2⟩ := by
        rw [← hM5, read_write_ne _ _ _ (fun hh => hq2P hh.symm), ← hM4,
          read_write_ne _ _ _ (fun hh => hbP hh.symm)]
        exact hM3P
      -- final reads
      have hM6P : M6.read (headAddr cs2 thisL.end_) = some ⟨some c, lv2, lr2⟩ := by
        rw [← hM6, read_write_self]
      have hM6q2 : M6.read q2 = some ⟨lastPtr none ws2, some q2v,
          some (some b)⟩ := by
        rw [← hM6, read_write_ne _ _ _ hq2P, ← hM5, read_write_self]
      have hM6b : M6.read b = some ⟨some q2, some bv,
          some (some (headAddr bs1 (headAddr cs2 thisL.end_)))⟩ := by
        rw [← hM6, read_write_ne _ _ _ hbP, ← hM5, read_write_ne _ _ _ hq2b,
          ← hM4, read_write_self]
      have hM6c : ¬b = c → M6.read c = some ⟨pc, some cv,
          some (some (headAddr cs2 thisL.end_))⟩ := by
        intro hne
        rw [← hM6, read_write_ne _ _ _ hcP, ← hM5, read_write_ne _ _ _ hq2c,
          ← hM4, read_write_ne _ _ _ hne, ← hM3, read_write_self]
      have hM6L : M6.read (headAddr as2 otherL.end_) = some ⟨none, lv, lr⟩ := by
        rw [← hM6, read_write_ne _ _ _ (fun hh => hLP hh.symm), ← hM5,
          read_write_ne _ _ _ (fun hh => hq2L hh.symm), ← hM4,
          read_write_ne _ _ _ (fun hh => hLb hh.symm), ← hM3,
          read_write_ne _ _ _ (fun hh => hcL hh.symm), ← hM1, read_write_self]
      have hM6r : ∀ x, ¬headAddr cs2 thisL.end_ = x → ¬q2 = x → ¬b = x →
          ¬c = x → ¬headAddr as2 otherL.end_ = x → M6.read x = m.read x := by
        intro x h1 h2 h3 h4 h5
        rw [← hM6, read_write_ne _ _ _ h1, ← hM5, read_write_ne _ _ _ h2,
          ← hM4, read_write_ne _ _ _ h3, ← hM3, read_write_ne _ _ _ h4,
          ← hM1, read_write_ne _ _ _ h5]
      have hM6n : M6.next = m.next := by
        rw [← hM6, ← hM5, ← hM4, ← hM3, ← hM1]; rfl
      have hM6wf : M6.wf = true := by
        have h1 : M1.wf = true := by
          rw [← hM1]; exact Mem.wf_write hwf (Mem.wf_read_lt hwf hreadL)
        have h3 : M3.wf = true := by
          rw [← hM3]
          refine Mem.wf_write h1 ?_
          rw [← hM1, Mem.write_next]
          exact Mem.wf_read_lt hwf hreadc
        have h4 : M4.wf = true := by
          rw [← hM4]
          refine Mem.wf_write h3 ?_
          rw [← hM3, ← hM1, Mem.write_next, Mem.write_next]
          exact Mem.wf_read_lt hwf hreadb
        have h5 : M5.wf = true := by
          rw [← hM5]
          refine Mem.wf_write h4 ?_
          rw [← hM4, ← hM3, ← hM1, Mem.write_next, Mem.write_next, Mem.write_next]
          exact Mem.wf_read_lt hwf hreadq2
        rw [← hM6]
        refine Mem.wf_write h5 ?_
        rw [← hM5, ← hM4, ← hM3, ← hM1, Mem.write_next, Mem.write_next,
          Mem.write_next, Mem.write_next]
        exact Mem.wf_read_lt hwf hreadP
      refine ⟨M6, thisL,
        { otherL with begin_ := headAddr as2 otherL.end_ }, ?_, ?_, rfl, rfl,
        hM6n, ?_⟩
      · -- the execution
        simp only [List.cons_append, headAddr_cons]
        unfold splice
        rw [if_neg hbL]
        have hs1 : m.readLeft (headAddr as2 otherL.end_) = some (some c) :=
          Mem.readLeft_eq hreadL
        have hs2 : m.readRight c = some (some (headAddr as2 otherL.end_)) :=
          Mem.readRight_eq hreadc
        have hs3 : m.readLeft b = some none := Mem.readLeft_eq hreadb
        have hs4 : m.writeLeft (headAddr as2 otherL.end_) none = some M1 := by
          rw [Mem.writeLeft_eq hreadL none, hM1]
        rw [bind_step hs1, bind_some_step, bind_step hs2, bind_some_step,
          bind_step hs3, bind_step hs4]
        rw [bind_some_step]
        dsimp only
        have hs5 : M1.writeRight c (some (headAddr cs2 thisL.end_)) = some M3 := by
          rw [Mem.writeRight_eq hM1c, hM3]
        have hs6 : M3.readLeft (headAddr cs2 thisL.end_) = some (some q2) :=
          Mem.readLeft_eq hM3P
        have hs7 : M3.writeLeft b (some q2) = some M4 := by
          rw [Mem.writeLeft_eq hM3b (some q2), hM4]
        rw [bind_step hs5, bind_step hs6, bind_step hs7]
        have hs8 : (M4.writeRight q2 (some b)).map
            (fun mm => (mm, thisL)) = some (M5, thisL) := by
          rw [Mem.writeRight_eq hM4q2, hM5]
          rfl
        rw [bind_step hs8]
        dsimp only
        have hs9 : M5.writeLeft (headAddr cs2 thisL.end_) (some c) = some M6 := by
          rw [Mem.writeLeft_eq hM5P (some c), hM6]
        rw [bind_step hs9]
        rfl
      · -- the two-list invariant afterwards
        rw [Inv2_iff]
        refine ⟨hM6wf, ?_, ?_, ?_⟩
        · -- repOk of the receiver
          rw [repOk_iff]
          refine ⟨?_, ?_, ?_⟩
          · -- sentinel of the receiver
            show M6.read thisL.end_ = _
            cases cs2 with
            | nil =>
                obtain ⟨hPB, rfl, rfl⟩ := hBnil rfl
                rw [← hPB, hM6P]
                simp only [List.append_nil]
                rw [lastPtr_append, lastPtr_cons, hc]
            | cons z cs3 =>
                rcases z with ⟨e, ev⟩
                have hBe2 : ¬thisL.end_ = e := by
                  intro hh
                  exact (hmemAll e (Or.inr (Or.inl (by simp)))).1 hh.symm
                rw [hM6r thisL.end_
                  (by simp only [headAddr_cons]; exact fun hh => hBe2 hh.symm)
                  (fun hh => (hmemAll q2 (Or.inl hq2C)).1 hh)
                  (fun hh => (hmemAll b (Or.inr (Or.inr (Or.inr (Or.inl hbBs))))).1 hh)
                  (fun hh => (hmemAll c (Or.inr (Or.inr (Or.inr (Or.inl hcBs))))).1 hh)
                  (by rcases hLmem with h1 | h1
                      · intro hh; exact hBA (by rw [← hh, h1])
                      · intro hh
                        exact (hmemAll _ (Or.inr (Or.inr (Or.inr (Or.inr h1))))).1 hh),
                  hendB]
                rw [lastPtr_through none none ((e, ev) :: cs3)
                  (List.cons_ne_nil _ _) (ws2 ++ [(q2, q2v)]),
                  lastPtr_through none none ((e, ev) :: cs3)
                  (List.cons_ne_nil _ _) (ws2 ++ [(q2, q2v)] ++ (b, bv) :: bs1)]
          · -- chain of the receiver
            rw [chain_append, Bool.and_eq_true]
            constructor
            · rw [chain_append, Bool.and_eq_true]
              constructor
              · -- the old prefix, retargeted onto the moved block
                simp only [headAddr_cons]
                refine chain_retarget_last m M6 none (ws2 ++ [(q2, q2v)]) q2
                  (headAddr cs2 thisL.end_) b hclq2 hchC1' hndC1 ?_ ?_
                · intro n hn
                  rw [hreadq2] at hn
                  rcases Option.some.inj hn with rfl
                  exact hM6q2
                · intro x hx hxq2
                  have hxC : x ∈ addrs (ws2 ++ [(q2, q2v)]) := hx
                  refine hM6r x ?_ (fun hh => hxq2 hh.symm) ?_ ?_ ?_
                  · rcases hPmem with h1 | h1
                    · intro hh
                      exact (hmemAll x (Or.inl hxC)).1 (by rw [← hh, h1])
                    · intro hh
                      exact hdC12 hxC (by rw [← hh]; exact h1)
                  · intro hh
                    exact (hdisj2 b (Or.inr (Or.inl hbBs))).1 (by rw [hh]; exact hxC)
                  · intro hh
                    exact (hdisj2 c (Or.inr (Or.inl hcBs))).1 (by rw [hh]; exact hxC)
                  · rcases hLmem with h1 | h1
                    · intro hh
                      exact (hmemAll x (Or.inl hxC)).2 (by rw [← hh, h1])
                    · intro hh
                      exact (hdisj2 _ (Or.inr (Or.inr h1))).1 (by rw [hh]; exact hxC)
              · -- the moved block
                rw [hclq2, chain_cons, Bool.and_eq_true, beq_iff_eq]
                refine ⟨by rw [hM6b], ?_⟩
                rcases hbc_or with ⟨rfl, rfl⟩ | ⟨hne1, hne2⟩
                · simp
                · refine chain_retarget_last m M6 (some b) bs1 c
                    (headAddr as2 otherL.end_) (headAddr cs2 thisL.end_) hc hchBs1
                    ?_ ?_ ?_
                  · rw [addrs_cons, List.nodup_cons] at hndBs
                    exact hndBs.2
                  · intro n hn
                    rw [hreadc] at hn
                    rcases Option.some.inj hn with rfl
                    exact hM6c hne2
                  · intro x hx hxc
                    have hxBs : x ∈ addrs ((b, bv) :: bs1) := by
                      rw [addrs_cons]; exact List.mem_cons.mpr (Or.inr hx)
                    have hxb : ¬b = x := by
                      rw [addrs_cons, List.nodup_cons] at hndBs
                      intro hh
                      exact hndBs.1 (by rw [hh]; exact hx)
                    refine hM6r x (hPnotBs x hxBs) ?_ hxb (fun hh => hxc hh.symm)
                      (hLnotBs x hxBs)
                    intro hh
                    exact (hdisj2 x (Or.inr (Or.inl hxBs))).1 (by rw [← hh]; exact hq2C)
            · -- the old contents of the receiver, reheaded at `some c`
              rw [lastPtr_append, lastPtr_cons, hc]
              cases cs2 with
              | nil => simp
              | cons z cs3 =>
                  rcases z with ⟨e, ev⟩
                  obtain ⟨rfl, rfl⟩ := hBcons e ev cs3 rfl
                  refine chain_rehead m M6 (lastPtr none (ws2 ++ [(q2, q2v)]))
                    (some c) e ev cs3 thisL.end_ hchC2 ?_ ?_
                  · simpa using hM6P
                  · intro x hx
                    have hxC2 : x ∈ addrs ((e, ev) :: cs3) := by
                      rw [addrs_cons]; exact List.mem_cons.mpr (Or.inr hx)
                    have hxe : ¬headAddr ((e, ev) :: cs3) thisL.end_ = x := by
                      simp only [headAddr_cons]
                      rw [addrs_cons, List.nodup_cons] at hndC2
                      intro hh
                      exact hndC2.1 (by rw [hh]; exact hx)
                    refine hM6r x hxe ?_ ?_ ?_ ?_
                    · intro hh
                      exact hdC12 hq2C (by rw [hh]; exact hxC2)
                    · intro hh
                      exact (hdisj2 b (Or.inr (Or.inl hbBs))).2 (by rw [hh]; exact hxC2)
                    · intro hh
                      exact (hdisj2 c (Or.inr (Or.inl hcBs))).2 (by rw [hh]; exact hxC2)
                    · rcases hLmem with h1 | h1
                      · intro hh
                        exact (hmemAll x (Or.inr (Or.inl hxC2))).2 (by rw [← hh, h1])
                      · intro hh
                        exact (hdisj2 x (Or.inr (Or.inr (by rw [← hh]; exact h1)))).2
                          hxC2
          · -- the begin_ cache of the receiver
            show thisL.begin_ = _
            rw [hbegB,
              headAddr_through (ws2 ++ [(q2, q2v)]) (by simp) cs2 thisL.end_ 0,
              headAddr_through (ws2 ++ [(q2, q2v)] ++ (b, bv) :: bs1) (by simp)
                cs2 thisL.end_ 0,
              headAddr_through (ws2 ++ [(q2, q2v)]) (by simp) ((b, bv) :: bs1) 0 0]
        · -- repOk of the source
          rw [repOk_iff]
          refine ⟨?_, ?_, by
            show headAddr as2 otherL.end_ = _
            simp⟩
          · -- sentinel of the source
            show M6.read otherL.end_ = _
            cases as2 with
            | nil =>
                obtain ⟨hLA, rfl, rfl⟩ := hAnil rfl
                rw [← hLA, hM6L]
                rfl
            | cons z as3 =>
                rcases z with ⟨d, dv⟩
                have hAd : ¬otherL.end_ = d :=
                  fun hh => (hmemAll d (Or.inr (Or.inr (Or.inr (Or.inr (by simp)))))).2
                    hh.symm
                rw [hM6r otherL.end_
                  (by rcases hPmem with h1 | h1
                      · intro hh; exact hBA (by rw [← h1, hh])
                      · intro hh
                        exact (hmemAll _ (Or.inr (Or.inl h1))).2 hh)
                  (fun hh => (hmemAll q2 (Or.inl hq2C)).2 hh)
                  (fun hh => (hmemAll b (Or.inr (Or.inr (Or.inr (Or.inl hbBs))))).2 hh)
                  (fun hh => (hmemAll c (Or.inr (Or.inr (Or.inr (Or.inl hcBs))))).2 hh)
                  (by simp only [headAddr_cons]; exact fun hh => hAd hh.symm),
                  hendA]
                simp only [List.nil_append]
                rw [lastPtr_through none none ((d, dv) :: as3)
                  (List.cons_ne_nil _ _) ((b, bv) :: bs1)]
          · -- chain of the source
            simp only [List.nil_append]
            cases as2 with
            | nil => simp
            | cons z as3 =>
                rcases z with ⟨d, dv⟩
                obtain ⟨rfl, rfl⟩ := hAcons d dv as3 rfl
                refine chain_rehead m M6 (some c) none d dv as3 otherL.end_
                  hchA2 ?_ ?_
                · simpa using hM6L
                · intro x hx
                  have hxA2 : x ∈ addrs ((d, dv) :: as3) := by
                    rw [addrs_cons]; exact List.mem_cons.mpr (Or.inr hx)
                  have hxd : ¬headAddr ((d, dv) :: as3) otherL.end_ = x := by
                    simp only [headAddr_cons]
                    rw [addrs_cons, List.nodup_cons] at hndA2
                    intro hh
                    exact hndA2.1 (by rw [hh]; exact hx)
                  refine hM6r x ?_ ?_ ?_ ?_ hxd
                  · rcases hPmem with h1 | h1
                    · intro hh
                      exact (hmemAll x (Or.inr (Or.inr (Or.inr (Or.inr hxA2))))).1
                        (by rw [← hh, h1])
                    · intro hh
                      exact (hdisj2 x (Or.inr (Or.inr hxA2))).2 (by rw [← hh]; exact h1)
                  · intro hh
                    exact (hdisj2 x (Or.inr (Or.inr hxA2))).1 (by rw [← hh]; exact hq2C)
                  · intro hh
                    exact hdBsA2 b hbBs (by rw [hh]; exact hxA2)
                  · intro hh
                    exact hdBsA2 c hcBs (by rw [hh]; exact hxA2)
        · -- the combined address pool
          show (thisL.end_ :: otherL.end_ :: _).Nodup
          refine List.Perm.nodup ?_ hnd0
          apply List.perm_iff_count.mpr
          intro a0
          simp only [List.count_cons, List.count_append, addrs_append,
            List.nil_append]
          omega
      · -- the frame
        intro a haB haA haC haAs
        refine hM6r a ?_ ?_ ?_ ?_ ?_
        · rcases hPmem with h1 | h1
          · intro hh; exact haB (by rw [← hh, h1])
          · intro hh
            exact haC (by rw [← hh]
                          rw [addrs_append]
                          exact List.mem_append.mpr (Or.inr h1))
        · intro hh
          exact haC (by rw [← hh]
                        rw [addrs_append]
                        exact List.mem_append.mpr (Or.inl hq2C))
        · intro hh
          exact haAs (by rw [← hh]
                         rw [addrs_append, addrs_append]
                         exact List.mem_append.mpr
                           (Or.inl (List.mem_append.mpr (Or.inr hbBs))))
        · intro hh
          exact haAs (by rw [← hh]
                         rw [addrs_append, addrs_append]
                         exact List.mem_append.mpr
                           (Or.inl (List.mem_append.mpr (Or.inr hcBs))))
        · rcases hLmem with h1 | h1
          · intro hh; exact haA (by rw [← hh, h1])
          · intro hh
            exact haAs (by rw [← hh]
                           rw [addrs_append]
                           exact List.mem_append.mpr (Or.inr h1))
  · -- as1 = ws ++ [(q, qv)]
    have hclq : lastPtr none (ws ++ [(q, qv)]) = some q := lastPtr_concat _ _ _ _
    rw [hclq] at hreadb
    have hchA1' := hchA1
    rw [chain_append, Bool.and_eq_true] at hchA1
    obtain ⟨hchW, hchq⟩ := hchA1
    rw [chain_cons, Bool.and_eq_true, beq_iff_eq, headAddr_nil] at hchq
    obtain ⟨hreadq, _⟩ := hchq
    have hqA : q ∈ addrs (ws ++ [(q, qv)]) := by simp [addrs]
    have hqb : ¬q = b :=
      fun hh => hdA1Bs hqA (by rw [hh]; exact hbBs)
    have hqc : ¬q = c :=
      fun hh => hdA1Bs hqA (by rw [hh]; exact hcBs)
    have hqL : ¬headAddr as2 otherL.end_ = q := by
      rcases hLmem with h1 | h1
      · intro hh
        exact (hmemAll q (Or.inr (Or.inr (Or.inl hqA)))).2 (by rw [← hh]; exact h1)
      · intro hh
        exact hdA12 (List.mem_append.mpr (Or.inl hqA)) (by rw [← hh]; exact h1)
    have hqP : ¬headAddr cs2 thisL.end_ = q := by
      rcases hPmem with h1 | h1
      · intro hh
        exact (hmemAll q (Or.inr (Or.inr (Or.inl hqA)))).1 (by rw [← hh]; exact h1)
      · intro hh
        exact (hdisj2 q (Or.inl hqA)).2 (by rw [← hh]; exact h1)
    rcases List.eq_nil_or_concat' cs1 with rfl | ⟨ws2, ⟨q2, q2v⟩, rfl⟩
    · -- cs1 = []: pos is this list's first position
      rw [lastPtr_nil] at hreadP
      -- the write stack
      obtain ⟨M1, hM1⟩ : ∃ M1,
          m.write (headAddr as2 otherL.end_) ⟨some q, lv, lr⟩ = M1 := ⟨_, rfl⟩
      obtain ⟨M2, hM2⟩ : ∃ M2,
          M1.write q ⟨lastPtr none ws, some qv,
            some (some (headAddr as2 otherL.end_))⟩ = M2 := ⟨_, rfl⟩
      obtain ⟨M3, hM3⟩ : ∃ M3,
          M2.write c ⟨pc, some cv, some (some (headAddr cs2 thisL.end_))⟩ = M3 :=
        ⟨_, rfl⟩
      obtain ⟨M4, hM4⟩ : ∃ M4,
          M3.write b ⟨none, some bv,
            some (some (headAddr bs1 (headAddr cs2 thisL.end_)))⟩ = M4 := ⟨_, rfl⟩
      obtain ⟨M6, hM6⟩ : ∃ M6,
          M4.write (headAddr cs2 thisL.end_) ⟨some c, lv2, lr2⟩ = M6 := ⟨_, rfl⟩
      -- reads through the stack
      have hM1q : M1.read q = some ⟨lastPtr none ws, some qv, some (some b)⟩ := by
        rw [← hM1, read_write_ne _ _ _ hqL]
        exact hreadq
      have hM2c : M2.read c = some ⟨pc, some cv,
          some (some (headAddr as2 otherL.end_))⟩ := by
        rw [← hM2, read_write_ne _ _ _ hqc, ← hM1, read_write_ne _ _ _ hcL]
        exact hreadc
      have hM3b : M3.read b = some ⟨some q, some bv,
          some (some (headAddr bs1 (headAddr cs2 thisL.end_)))⟩ := by
        rcases hbc_or with ⟨rfl, rfl⟩ | ⟨hne1, hne2⟩
        · rw [← hM3, read_write_self]
          have h2 : pc = some q ∧ cv = bv := by
            rw [hreadb] at hreadc
            rcases Option.some.inj hreadc with ⟨⟩
            exact ⟨rfl, rfl⟩
          rw [h2.1, h2.2]
          rfl
        · rw [← hM3, read_write_ne _ _ _ (fun hh => hne2 hh.symm), ← hM2,
            read_write_ne _ _ _ hqb, ← hM1, read_write_ne _ _ _ hLb, hreadb,
            headAddr_ne_nil hne1 (headAddr cs2 thisL.end_) (headAddr as2 otherL.end_)]
      have hM3P : M3.read (headAddr cs2 thisL.end_) = some ⟨none, lv2, lr2⟩ := by
        rw [← hM3, read_write_ne _ _ _ (fun hh => hcP hh.symm), ← hM2,
          read_write_ne _ _ _ (fun hh => hqP hh.symm), ← hM1,
          read_write_ne _ _ _ (fun hh => hLP hh), hreadP]
      have hM4P : M4.read (headAddr cs2 thisL.end_) = some ⟨none, lv2, lr2⟩ := by
        rw [← hM4, read_write_ne _ _ _ (fun hh => hbP hh.symm)]; exact hM3P
      -- final reads
      have hM6P : M6.read (headAddr cs2 thisL.end_) = some ⟨some c, lv2, lr2⟩ := by
        rw [← hM6, read_write_self]
      have hM6b : M6.read b = some ⟨none, some bv,
          some (some (headAddr bs1 (headAddr cs2 thisL.end_)))⟩ := by
        rw [← hM6, read_write_ne _ _ _ hbP, ← hM4, read_write_self]
      have hM6c : ¬b = c → M6.read c = some ⟨pc, some cv,
          some (some (headAddr cs2 thisL.end_))⟩ := by
        intro hne
        rw [← hM6, read_write_ne _ _ _ hcP, ← hM4, read_write_ne _ _ _ hne,
          ← hM3, read_write_self]
      have hM6q : M6.read q = some ⟨lastPtr none ws, some qv,
          some (some (headAddr as2 otherL.end_))⟩ := by
        rw [← hM6, read_write_ne _ _ _ hqP, ← hM4,
          read_write_ne _ _ _ (fun hh => hqb hh.symm), ← hM3,
          read_write_ne _ _ _ (fun hh => hqc hh.symm), ← hM2, read_write_self]
      have hM6L : M6.read (headAddr as2 otherL.end_) = some ⟨some q, lv, lr⟩ := by
        rw [← hM6, read_write_ne _ _ _ (fun hh => hLP hh.symm), ← hM4,
          read_write_ne _ _ _ (fun hh => hLb hh.symm), ← hM3,
          read_write_ne _ _ _ (fun hh => hcL hh.symm), ← hM2,
          read_write_ne _ _ _ (fun hh => hqL hh.symm), ← hM1, read_write_self]
      have hM6r : ∀ x, ¬headAddr cs2 thisL.end_ = x → ¬b = x → ¬c = x →
          ¬q = x → ¬headAddr as2 otherL.end_ = x → M6.read x = m.read x := by
        intro x h1 h2 h3 h4 h5
        rw [← hM6, read_write_ne _ _ _ h1, ← hM4, read_write_ne _ _ _ h2,
          ← hM3, read_write_ne _ _ _ h3, ← hM2, read_write_ne _ _ _ h4,
          ← hM1, read_write_ne _ _ _ h5]
      have hM6n : M6.next = m.next := by
        rw [← hM6, ← hM4, ← hM3, ← hM2, ← hM1]; rfl
      have hM6wf : M6.wf = true := by
        have h1 : M1.wf = true := by
          rw [← hM1]; exact Mem.wf_write hwf (Mem.wf_read_lt hwf hreadL)
        have h2 : M2.wf = true := by
          rw [← hM2]
          refine Mem.wf_write h1 ?_
          rw [← hM1, Mem.write_next]
          exact Mem.wf_read_lt hwf hreadq
        have h3 : M3.wf = true := by
          rw [← hM3]
          refine Mem.wf_write h2 ?_
          rw [← hM2, ← hM1, Mem.write_next, Mem.write_next]
          exact Mem.wf_read_lt hwf hreadc
        have h4 : M4.wf = true := by
          rw [← hM4]
          refine Mem.wf_write h3 ?_
          rw [← hM3, ← hM2, ← hM1, Mem.write_next, Mem.write_next, Mem.write_next]
          exact Mem.wf_read_lt hwf hreadb
        rw [← hM6]
        refine Mem.wf_write h4 ?_
        rw [← hM4, ← hM3, ← hM2, ← hM1, Mem.write_next, Mem.write_next,
          Mem.write_next, Mem.write_next]
        exact Mem.wf_read_lt hwf hreadP
      refine ⟨M6, { thisL with begin_ := b }, otherL, ?_, ?_, rfl, rfl,
        hM6n, ?_⟩
      · -- the execution
        simp only [List.cons_append, headAddr_cons]
        unfold splice
        rw [if_neg hbL]
        have hs1 : m.readLeft (headAddr as2 otherL.end_) = some (some c) :=
          Mem.readLeft_eq hreadL
        have hs2 : m.readRight c = some (some (headAddr as2 otherL.end_)) :=
          Mem.readRight_eq hreadc
        have hs3 : m.readLeft b = some (some q) := Mem.readLeft_eq hreadb
        have hs4 : m.writeLeft (headAddr as2 otherL.end_) (some q) = some M1 := by
          rw [Mem.writeLeft_eq hreadL (some q), hM1]
        rw [bind_step hs1, bind_some_step, bind_step hs2, bind_some_step,
          bind_step hs3, bind_step hs4]
        have hs5 : (M1.writeRight q (some (headAddr as2 otherL.end_))).map
            (fun mm => (mm, otherL)) = some (M2, otherL) := by
          rw [Mem.writeRight_eq hM1q, hM2]
          rfl
        rw [bind_step hs5]
        dsimp only
        have hs6 : M2.writeRight c (some (headAddr cs2 thisL.end_)) = some M3 := by
          rw [Mem.writeRight_eq hM2c, hM3]
        have hs7 : M3.readLeft (headAddr cs2 thisL.end_) = some none :=
          Mem.readLeft_eq hM3P
        have hs8 : M3.writeLeft b none = some M4 := by
          rw [Mem.writeLeft_eq hM3b none, hM4]
        rw [bind_step hs6, bind_step hs7, bind_step hs8]
        rw [bind_some_step]
        dsimp only
        have hs9 : M4.writeLeft (headAddr cs2 thisL.end_) (some c) = some M6 := by
          rw [Mem.writeLeft_eq hM4P (some c), hM6]
        rw [bind_step hs9]
        rfl
      · -- the two-list invariant afterwards
        rw [Inv2_iff]
        refine ⟨hM6wf, ?_, ?_, ?_⟩
        · -- repOk of the receiver
          rw [repOk_iff]
          refine ⟨?_, ?_, by simp⟩
          · -- sentinel of the receiver
            show M6.read thisL.end_ = _
            cases cs2 with
            | nil =>
                obtain ⟨hPB, rfl, rfl⟩ := hBnil rfl
                rw [← hPB, hM6P]
                simp only [List.nil_append, List.append_nil, lastPtr_cons, hc]
            | cons z cs3 =>
                rcases z with ⟨e, ev⟩
                have hBe2 : ¬thisL.end_ = e := by
                  intro hh
                  exact (hmemAll e (Or.inr (Or.inl (by simp)))).1 hh.symm
                rw [hM6r thisL.end_
                  (by simp only [headAddr_cons]; exact fun hh => hBe2 hh.symm)
                  (fun hh => (hmemAll b (Or.inr (Or.inr (Or.inr (Or.inl hbBs))))).1 hh)
                  (fun hh => (hmemAll c (Or.inr (Or.inr (Or.inr (Or.inl hcBs))))).1 hh)
                  (fun hh => (hmemAll q (Or.inr (Or.inr (Or.inl hqA)))).1 hh)
                  (by rcases hLmem with h1 | h1
                      · intro hh; exact hBA (by rw [← hh, h1])
                      · intro hh
                        exact (hmemAll _ (Or.inr (Or.inr (Or.inr (Or.inr h1))))).1 hh),
                  hendB]
                simp only [List.nil_append]
                rw [lastPtr_through none none ((e, ev) :: cs3)
                  (List.cons_ne_nil _ _) ((b, bv) :: bs1)]
          · -- chain of the receiver
            simp only [List.nil_append]
            rw [chain_append, Bool.and_eq_true]
            constructor
            · -- the moved block
              rw [chain_cons, Bool.and_eq_true, beq_iff_eq]
              refine ⟨by rw [hM6b], ?_⟩
              rcases hbc_or with ⟨rfl, rfl⟩ | ⟨hne1, hne2⟩
              · simp
              · refine chain_retarget_last m M6 (some b) bs1 c
                  (headAddr as2 otherL.end_) (headAddr cs2 thisL.end_) hc hchBs1
                  ?_ ?_ ?_
                · rw [addrs_cons, List.nodup_cons] at hndBs
                  exact hndBs.2
                · intro n hn
                  rw [hreadc] at hn
                  rcases Option.some.inj hn with rfl
                  exact hM6c hne2
                · intro x hx hxc
                  have hxBs : x ∈ addrs ((b, bv) :: bs1) := by
                    rw [addrs_cons]; exact List.mem_cons.mpr (Or.inr hx)
                  have hxb : ¬b = x := by
                    rw [addrs_cons, List.nodup_cons] at hndBs
                    intro hh
                    exact hndBs.1 (by rw [hh]; exact hx)
                  refine hM6r x (hPnotBs x hxBs) hxb (fun hh => hxc hh.symm) ?_
                    (hLnotBs x hxBs)
                  intro hh
                  exact hdA1Bs hqA (by rw [hh]; exact hxBs)
            · -- the old contents of the receiver, reheaded at `some c`
              rw [lastPtr_cons, hc]
              cases cs2 with
              | nil => simp
              | cons z cs3 =>
                  rcases z with ⟨e, ev⟩
                  obtain ⟨rfl, rfl⟩ := hBcons e ev cs3 rfl
                  rw [lastPtr_nil] at hchC2
                  refine chain_rehead m M6 none (some c) e ev cs3 thisL.end_
                    hchC2 ?_ ?_
                  · simpa using hM6P
                  · intro x hx
                    have hxC2 : x ∈ addrs ((e, ev) :: cs3) := by
                      rw [addrs_cons]; exact List.mem_cons.mpr (Or.inr hx)
                    have hxe : ¬headAddr ((e, ev) :: cs3) thisL.end_ = x := by
                      simp only [headAddr_cons]
                      rw [addrs_cons, List.nodup_cons] at hndC2
                      intro hh
                      exact hndC2.1 (by rw [hh]; exact hx)
                    refine hM6r x hxe ?_ ?_ ?_ ?_
                    · intro hh
                      exact (hdisj2 b (Or.inr (Or.inl hbBs))).2 (by rw [hh]; exact hxC2)
                    · intro hh
                      exact (hdisj2 c (Or.inr (Or.inl hcBs))).2 (by rw [hh]; exact hxC2)
                    · intro hh
                      exact (hdisj2 q (Or.inl hqA)).2 (by rw [hh]; exact hxC2)
                    · rcases hLmem with h1 | h1
                      · intro hh
                        exact (hmemAll x (Or.inr (Or.inl hxC2))).2 (by rw [← hh, h1])
                      · intro hh
                        exact (hdisj2 x (Or.inr (Or.inr (by rw [← hh]; exact h1)))).2
                          hxC2
        · -- repOk of the source
          rw [repOk_iff]
          refine ⟨?_, ?_, ?_⟩
          · -- sentinel of the source
            show M6.read otherL.end_ = _
            cases as2 with
            | nil =>
                obtain ⟨hLA, rfl, rfl⟩ := hAnil rfl
                rw [← hLA, hM6L]
                simp only [List.append_nil]
                rw [lastPtr_concat]
            | cons z as3 =>
                rcases z with ⟨d, dv⟩
                have hAd : ¬otherL.end_ = d :=
                  fun hh => (hmemAll d (Or.inr (Or.inr (Or.inr (Or.inr (by simp)))))).2
                    hh.symm
                rw [hM6r otherL.end_
                  (by rcases hPmem with h1 | h1
                      · intro hh; exact hBA (by rw [← h1, hh])
                      · intro hh
                        exact (hmemAll _ (Or.inr (Or.inl h1))).2 hh)
                  (fun hh => (hmemAll b (Or.inr (Or.inr (Or.inr (Or.inl hbBs))))).2 hh)
                  (fun hh => (hmemAll c (Or.inr (Or.inr (Or.inr (Or.inl hcBs))))).2 hh)
                  (fun hh => (hmemAll q (Or.inr (Or.inr (Or.inl hqA)))).2 hh)
                  (by simp only [headAddr_cons]; exact fun hh => hAd hh.symm),
                  hendA]
                rw [lastPtr_through none none ((d, dv) :: as3)
                  (List.cons_ne_nil _ _) (ws ++ [(q, qv)] ++ (b, bv) :: bs1),
                  lastPtr_through none none ((d, dv) :: as3)
                  (List.cons_ne_nil _ _) (ws ++ [(q, qv)])]
          · -- chain of the source
            rw [chain_append, Bool.and_eq_true]
            constructor
            · -- the remaining prefix, retargeted onto `last`
              refine chain_retarget_last m M6 none (ws ++ [(q, qv)]) q b
                (headAddr as2 otherL.end_) hclq hchA1' hndA1 ?_ ?_
              · intro n hn
                rw [hreadq] at hn
                rcases Option.some.inj hn with rfl
                exact hM6q
              · intro x hx hxq
                refine hM6r x ?_ ?_ ?_ (fun hh => hxq hh.symm) ?_
                · rcases hPmem with h1 | h1
                  · intro hh
                    exact (hmemAll x (Or.inr (Or.inr (Or.inl hx)))).1
                      (by rw [← hh, h1])
                  · intro hh
                    exact (hdisj2 x (Or.inl hx)).2 (by rw [← hh]; exact h1)
                · intro hh
                  exact hdA1Bs hx (by rw [← hh]; exact hbBs)
                · intro hh
                  exact hdA1Bs hx (by rw [← hh]; exact hcBs)
                · rcases hLmem with h1 | h1
                  · intro hh
                    exact (hmemAll x (Or.inr (Or.inr (Or.inl hx)))).2
                      (by rw [← hh, h1])
                  · intro hh
                    exact hdA12 (List.mem_append.mpr (Or.inl hx))
                      (by rw [← hh]; exact h1)
            · -- the suffix, reheaded at the prefix's last node
              rw [hclq]
              cases as2 with
              | nil => simp
              | cons z as3 =>
                  rcases z with ⟨d, dv⟩
                  obtain ⟨rfl, rfl⟩ := hAcons d dv as3 rfl
                  refine chain_rehead m M6 (some c) (some q) d dv as3 otherL.end_
                    hchA2 ?_ ?_
                  · simpa using hM6L
                  · intro x hx
                    have hxA2 : x ∈ addrs ((d, dv) :: as3) := by
                      rw [addrs_cons]; exact List.mem_cons.mpr (Or.inr hx)
                    have hxd : ¬headAddr ((d, dv) :: as3) otherL.end_ = x := by
                      simp only [headAddr_cons]
                      rw [addrs_cons, List.nodup_cons] at hndA2
                      intro hh
                      exact hndA2.1 (by rw [hh]; exact hx)
                    refine hM6r x ?_ ?_ ?_ ?_ hxd
                    · rcases hPmem with h1 | h1
                      · intro hh
                        exact (hmemAll x (Or.inr (Or.inr (Or.inr (Or.inr hxA2))))).1
                          (by rw [← hh, h1])
                      · intro hh
                        exact (hdisj2 x (Or.inr (Or.inr hxA2))).2
                          (by rw [← hh]; exact h1)
                    · intro hh
                      exact hdBsA2 b hbBs (by rw [hh]; exact hxA2)
                    · intro hh
                      exact hdBsA2 c hcBs (by rw [hh]; exact hxA2)
                    · intro hh
                      exact hdA12 (List.mem_append.mpr (Or.inl hqA))
                        (by rw [hh]; exact hxA2)
          · -- the begin_ cache of the source
            show otherL.begin_ = _
            rw [hbegA,
              headAddr_through (ws ++ [(q, qv)] ++ (b, bv) :: bs1) (by simp)
                as2 otherL.end_ 0,
              headAddr_through (ws ++ [(q, qv)]) (by simp) ((b, bv) :: bs1) 0 0,
              headAddr_through (ws ++ [(q, qv)]) (by simp) as2 otherL.end_ 0]
        · -- the combined address pool
          show (thisL.end_ :: otherL.end_ :: _).Nodup
          refine List.Perm.nodup ?_ hnd0
          apply List.perm_iff_count.mpr
          intro a0
          simp only [List.count_cons, List.count_append, addrs_append,
            List.nil_append]
          omega
      · -- the frame
        intro a haB haA haC haAs
        refine hM6r a ?_ ?_ ?_ ?_ ?_
        · rcases hPmem with h1 | h1
          · intro hh; exact haB (by rw [← hh, h1])
          · intro hh; exact haC (by rw [← hh]; exact h1)
        · intro hh
          exact haAs (by rw [← hh]
                         rw [addrs_append, addrs_append]
                         exact List.mem_append.mpr
                           (Or.inl (List.mem_append.mpr (Or.inr hbBs))))
        · intro hh
          exact haAs (by rw [← hh]
                         rw [addrs_append, addrs_append]
                         exact List.mem_append.mpr
                           (Or.inl (List.mem_append.mpr (Or.inr hcBs))))
        · intro hh
          exact haAs (by rw [← hh]
                         rw [addrs_append, addrs_append]
                         exact List.mem_append.mpr
                           (Or.inl (List.mem_append.mpr (Or.inl hqA))))
        · rcases hLmem with h1 | h1
          · intro hh; exact haA (by rw [← hh, h1])
          · intro hh
            exact haAs (by rw [← hh]
                           rw [addrs_append]
                           exact List.mem_append.mpr (Or.inr h1))
    · -- cs1 = ws2 ++ [(q2, q2v)]
      have hclq2 : lastPtr none (ws2 ++ [(q2, q2v)]) = some q2 :=
        lastPtr_concat _ _ _ _
      rw [hclq2] at hreadP
      have hchC1' := hchC1
      rw [chain_append, Bool.and_eq_true] at hchC1
      obtain ⟨hchW2, hchq2⟩ := hchC1
      rw [chain_cons, Bool.and_eq_true, beq_iff_eq, headAddr_nil] at hchq2
      obtain ⟨hreadq2, _⟩ := hchq2
      have hq2C : q2 ∈ addrs (ws2 ++ [(q2, q2v)]) := by simp [addrs]
      have hq2b : ¬q2 = b :=
        fun hh => (hdisj2 b (Or.inr (Or.inl hbBs))).1 (by rw [← hh]; exact hq2C)
      have hq2c : ¬q2 = c :=
        fun hh => (hdisj2 c (Or.inr (Or.inl hcBs))).1 (by rw [← hh]; exact hq2C)
      have hq2q : ¬q2 = q :=
        fun hh => (hdisj2 q (Or.inl hqA)).1 (by rw [← hh]; exact hq2C)
      have hq2L : ¬headAddr as2 otherL.end_ = q2 := by
        rcases hLmem with h1 | h1
        · intro hh
          exact (hmemAll q2 (Or.inl hq2C)).2 (by rw [← hh]; exact h1)
        · intro hh
          exact (hdisj2 _ (Or.inr (Or.inr h1))).1 (by rw [hh]; exact hq2C)
      have hq2P : ¬headAddr cs2 thisL.end_ = q2 := by
        rcases hPmem with h1 | h1
        · intro hh
          exact (hmemAll q2 (Or.inl hq2C)).1 (by rw [← hh]; exact h1)
        · intro hh
          exact hdC12 hq2C (by rw [hh] at h1; exact h1)
      -- the write stack
      obtain ⟨M1, hM1⟩ : ∃ M1,
          m.write (headAddr as2 otherL.end_) ⟨some q, lv, lr⟩ = M1 := ⟨_, rfl⟩
      obtain ⟨M2, hM2⟩ : ∃ M2,
          M1.write q ⟨lastPtr none ws, some qv,
            some (some (headAddr as2 otherL.end_))⟩ = M2 := ⟨_, rfl⟩
      obtain ⟨M3, hM3⟩ : ∃ M3,
          M2.write c ⟨pc, some cv, some (some (headAddr cs2 thisL.end_))⟩ = M3 :=
        ⟨_, rfl⟩
      obtain ⟨M4, hM4⟩ : ∃ M4,
          M3.write b ⟨some q2, some bv,
            some (some (headAddr bs1 (headAddr cs2 thisL.end_)))⟩ = M4 := ⟨_, rfl⟩
      obtain ⟨M5, hM5⟩ : ∃ M5,
          M4.write q2 ⟨lastPtr none ws2, some q2v, some (some b)⟩ = M5 := ⟨_, rfl⟩
      obtain ⟨M6, hM6⟩ : ∃ M6,
          M5.write (headAddr cs2 thisL.end_) ⟨some c, lv2, lr2⟩ = M6 := ⟨_, rfl⟩
      -- reads through the stack
      have hM1q : M1.read q = some ⟨lastPtr none ws, some qv, some (some b)⟩ := by
        rw [← hM1, read_write_ne _ _ _ hqL]
        exact hreadq
      have hM2c : M2.read c = some ⟨pc, some cv,
          some (some (headAddr as2 otherL.end_))⟩ := by
        rw [← hM2, read_write_ne _ _ _ hqc, ← hM1, read_write_ne _ _ _ hcL]
        exact hreadc
      have hM3b : M3.read b = some ⟨some q, some bv,
          some (some (headAddr bs1 (headAddr cs2 thisL.end_)))⟩ := by
        rcases hbc_or with ⟨rfl, rfl⟩ | ⟨hne1, hne2⟩
        · rw [← hM3, read_write_self]
          have h2 : pc = some q ∧ cv = bv := by
            rw [hreadb] at hreadc
            rcases Option.some.inj hreadc with ⟨⟩
            exact ⟨rfl, rfl⟩
          rw [h2.1, h2.2]
          rfl
        · rw [← hM3, read_write_ne _ _ _ (fun hh => hne2 hh.symm), ← hM2,
            read_write_ne _ _ _ hqb, ← hM1, read_write_ne _ _ _ hLb, hreadb,
            headAddr_ne_nil hne1 (headAddr cs2 thisL.end_) (headAddr as2 otherL.end_)]
      have hM3P : M3.read (headAddr cs2 thisL.end_) = some ⟨some q2, lv2, lr2⟩ := by
        rw [← hM3, read_write_ne _ _ _ (fun hh => hcP hh.symm), ← hM2,
          read_write_ne _ _ _ (fun hh => hqP hh.symm), ← hM1,
          read_write_ne _ _ _ (fun hh => hLP hh), hreadP]
      have hM4q2 : M4.read q2 = some ⟨lastPtr none ws2, some q2v,
          some (some (headAddr cs2 thisL.end_))⟩ := by
        rw [← hM4, read_write_ne _ _ _ (fun hh => hq2b hh.symm), ← hM3,
          read_write_ne _ _ _ (fun hh => hq2c hh.symm), ← hM2,
          read_write_ne _ _ _ (fun hh => hq2q hh.symm), ← hM1,
          read_write_ne _ _ _ (fun hh => hq2L (by rw [hh]))]
        exact hreadq2
      have hM5P : M5.read (headAddr cs2 thisL.end_) = some ⟨some q2, lv2, lr2⟩ := by
        rw [← hM5, read_write_ne _ _ _ (fun hh => hq2P hh.symm), ← hM4,
          read_write_ne _ _ _ (fun hh => hbP hh.symm)]
        exact hM3P
      -- final reads
      have hM6P : M6.read (headAddr cs2 thisL.end_) = some ⟨some c, lv2, lr2⟩ := by
        rw [← hM6, read_write_self]
      have hM6q2 : M6.read q2 = some ⟨lastPtr none ws2, some q2v,
          some (some b)⟩ := by
        rw [← hM6, read_write_ne _ _ _ hq2P, ← hM5, read_write_self]
      have hM6b : M6.read b = some ⟨some q2, some bv,
          some (some (headAddr bs1 (headAddr cs2 thisL.end_)))⟩ := by
        rw [← hM6, read_write_ne _ _ _ hbP, ← hM5, read_write_ne _ _ _ hq2b,
          ← hM4, read_write_self]
      have hM6c : ¬b = c → M6.read c = some ⟨pc, some cv,
          some (some (headAddr cs2 thisL.end_))⟩ := by
        intro hne
        rw [← hM6, read_write_ne _ _ _ hcP, ← hM5, read_write_ne _ _ _ hq2c,
          ← hM4, read_write_ne _ _ _ hne, ← hM3, read_write_self]
      have hM6q : M6.read q = some ⟨lastPtr none ws, some qv,
          some (some (headAddr as2 otherL.end_))⟩ := by
        rw [← hM6, read_write_ne _ _ _ hqP, ← hM5, read_write_ne _ _ _ hq2q,
          ← hM4, read_write_ne _ _ _ (fun hh => hqb hh.symm), ← hM3,
          read_write_ne _ _ _ (fun hh => hqc hh.symm), ← hM2, read_write_self]
      have hM6L : M6.read (headAddr as2 otherL.end_) = some ⟨some q, lv, lr⟩ := by
        rw [← hM6, read_write_ne _ _ _ (fun hh => hLP hh.symm), ← hM5,
          read_write_ne _ _ _ (fun hh => hq2L hh.symm), ← hM4,
          read_write_ne _ _ _ (fun hh => hLb hh.symm), ← hM3,
          read_write_ne _ _ _ (fun hh => hcL hh.symm), ← hM2,
          read_write_ne _ _ _ (fun hh => hqL hh.symm), ← hM1, read_write_self]
      have hM6r : ∀ x, ¬headAddr cs2 thisL.end_ = x → ¬q2 = x → ¬b = x →
          ¬c = x → ¬q = x → ¬headAddr as2 otherL.end_ = x →
          M6.read x = m.read x := by
        intro x h1 h2 h3 h4 h5 h6
        rw [← hM6, read_write_ne _ _ _ h1, ← hM5, read_write_ne _ _ _ h2,
          ← hM4, read_write_ne _ _ _ h3, ← hM3, read_write_ne _ _ _ h4,
          ← hM2, read_write_ne _ _ _ h5, ← hM1, read_write_ne _ _ _ h6]
      have hM6n : M6.next = m.next := by
        rw [← hM6, ← hM5, ← hM4, ← hM3, ← hM2, ← hM1]; rfl
      have hM6wf : M6.wf = true := by
        have h1 : M1.wf = true := by
          rw [← hM1]; exact Mem.wf_write hwf (Mem.wf_read_lt hwf hreadL)
        have h2 : M2.wf = true := by
          rw [← hM2]
          refine Mem.wf_write h1 ?_
          rw [← hM1, Mem.write_next]
          exact Mem.wf_read_lt hwf hreadq
        have h3 : M3.wf = true := by
          rw [← hM3]
          refine Mem.wf_write h2 ?_
          rw [← hM2, ← hM1, Mem.write_next, Mem.write_next]
          exact Mem.wf_read_lt hwf hreadc
        have h4 : M4.wf = true := by
          rw [← hM4]
          refine Mem.wf_write h3 ?_
          rw [← hM3, ← hM2, ← hM1, Mem.write_next, Mem.write_next, Mem.write_next]
          exact Mem.wf_read_lt hwf hreadb
        have h5 : M5.wf = true := by
          rw [← hM5]
          refine Mem.wf_write h4 ?_
          rw [← hM4, ← hM3, ← hM2, ← hM1, Mem.write_next, Mem.write_next,
            Mem.write_next, Mem.write_next]
          exact Mem.wf_read_lt hwf hreadq2
        rw [← hM6]
        refine Mem.wf_write h5 ?_
        rw [← hM5, ← hM4, ← hM3, ← hM2, ← hM1, Mem.write_next, Mem.write_next,
          Mem.write_next, Mem.write_next, Mem.write_next]
        exact Mem.wf_read_lt hwf hreadP
      refine ⟨M6, thisL, otherL, ?_, ?_, rfl, rfl, hM6n, ?_⟩
      · -- the execution
        simp only [List.cons_append, headAddr_cons]
        unfold splice
        rw [if_neg hbL]
        have hs1 : m.readLeft (headAddr as2 otherL.end_) = some (some c) :=
          Mem.readLeft_eq hreadL
        have hs2 : m.readRight c = some (some (headAddr as2 otherL.end_)) :=
          Mem.readRight_eq hreadc
        have hs3 : m.readLeft b = some (some q) := Mem.readLeft_eq hreadb
        have hs4 : m.writeLeft (headAddr as2 otherL.end_) (some q) = some M1 := by
          rw [Mem.writeLeft_eq hreadL (some q), hM1]
        rw [bind_step hs1, bind_some_step, bind_step hs2, bind_some_step,
          bind_step hs3, bind_step hs4]
        have hs5 : (M1.writeRight q (some (headAddr as2 otherL.end_))).map
            (fun mm => (mm, otherL)) = some (M2, otherL) := by
          rw [Mem.writeRight_eq hM1q, hM2]
          rfl
        rw [bind_step hs5]
        dsimp only
        have hs6 : M2.writeRight c (some (headAddr cs2 thisL.end_)) = some M3 := by
          rw [Mem.writeRight_eq hM2c, hM3]
        have hs7 : M3.readLeft (headAddr cs2 thisL.end_) = some (some q2) :=
          Mem.readLeft_eq hM3P
        have hs8 : M3.writeLeft b (some q2) = some M4 := by
          rw [Mem.writeLeft_eq hM3b (some q2), hM4]
        rw [bind_step hs6, bind_step hs7, bind_step hs8]
        have hs9 : (M4.writeRight q2 (some b)).map
            (fun mm => (mm, thisL)) = some (M5, thisL) := by
          rw [Mem.writeRight_eq hM4q2, hM5]
          rfl
        rw [bind_step hs9]
        dsimp only
        have hs10 : M5.writeLeft (headAddr cs2 thisL.end_) (some c) = some M6 := by
          rw [Mem.writeLeft_eq hM5P (some c), hM6]
        rw [bind_step hs10]
        rfl
      · -- the two-list invariant afterwards
        rw [Inv2_iff]
        refine ⟨hM6wf, ?_, ?_, ?_⟩
        · -- repOk of the receiver
          rw [repOk_iff]
          refine ⟨?_, ?_, ?_⟩
          · -- sentinel of the receiver
            show M6.read thisL.end_ = _
            cases cs2 with
            | nil =>
                obtain ⟨hPB, rfl, rfl⟩ := hBnil rfl
                rw [← hPB, hM6P]
                simp only [List.append_nil]
                rw [lastPtr_append, lastPtr_cons, hc]
            | cons z cs3 =>
                rcases z with ⟨e, ev⟩
                have hBe2 : ¬thisL.end_ = e := by
                  intro hh
                  exact (hmemAll e (Or.inr (Or.inl (by simp)))).1 hh.symm
                rw [hM6r thisL.end_
                  (by simp only [headAddr_cons]; exact fun hh => hBe2 hh.symm)
                  (fun hh => (hmemAll q2 (Or.inl hq2C)).1 hh)
                  (fun hh => (hmemAll b (Or.inr (Or.inr (Or.inr (Or.inl hbBs))))).1 hh)
                  (fun hh => (hmemAll c (Or.inr (Or.inr (Or.inr (Or.inl hcBs))))).1 hh)
                  (fun hh => (hmemAll q (Or.inr (Or.inr (Or.inl hqA)))).1 hh)
                  (by rcases hLmem with h1 | h1
                      · intro hh; exact hBA (by rw [← hh, h1])
                      · intro hh
                        exact (hmemAll _ (Or.inr (Or.inr (Or.inr (Or.inr h1))))).1 hh),
                  hendB]
                rw [lastPtr_through none none ((e, ev) :: cs3)
                  (List.cons_ne_nil _ _) (ws2 ++ [(q2, q2v)]),
                  lastPtr_through none none ((e, ev) :: cs3)
                  (List.cons_ne_nil _ _) (ws2 ++ [(q2, q2v)] ++ (b, bv) :: bs1)]
          · -- chain of the receiver
            rw [chain_append, Bool.and_eq_true]
            constructor
            · rw [chain_append, Bool.and_eq_true]
              constructor
              · -- the old prefix, retargeted onto the moved block
                simp only [headAddr_cons]
                refine chain_retarget_last m M6 none (ws2 ++ [(q2, q2v)]) q2
                  (headAddr cs2 thisL.end_) b hclq2 hchC1' hndC1 ?_ ?_
                · intro n hn
                  rw [hreadq2] at hn
                  rcases Option.some.inj hn with rfl
                  exact hM6q2
                · intro x hx hxq2
                  have hxC : x ∈ addrs (ws2 ++ [(q2, q2v)]) := hx
                  refine hM6r x ?_ (fun hh => hxq2 hh.symm) ?_ ?_ ?_ ?_
                  · rcases hPmem with h1 | h1
                    · intro hh
                      exact (hmemAll x (Or.inl hxC)).1 (by rw [← hh, h1])
                    · intro hh
                      exact hdC12 hxC (by rw [← hh]; exact h1)
                  · intro hh
                    exact (hdisj2 b (Or.inr (Or.inl hbBs))).1 (by rw [hh]; exact hxC)
                  · intro hh
                    exact (hdisj2 c (Or.inr (Or.inl hcBs))).1 (by rw [hh]; exact hxC)
                  · intro hh
                    exact (hdisj2 q (Or.inl hqA)).1 (by rw [hh]; exact hxC)
                  · rcases hLmem with h1 | h1
                    · intro hh
                      exact (hmemAll x (Or.inl hxC)).2 (by rw [← hh, h1])
                    · intro hh
                      exact (hdisj2 _ (Or.inr (Or.inr h1))).1 (by rw [hh]; exact hxC)
              · -- the moved block
                rw [hclq2, chain_cons, Bool.and_eq_true, beq_iff_eq]
                refine ⟨by rw [hM6b], ?_⟩
                rcases hbc_or with ⟨rfl, rfl⟩ | ⟨hne1, hne2⟩
                · simp
                · refine chain_retarget_last m M6 (some b) bs1 c
                    (headAddr as2 otherL.end_) (headAddr cs2 thisL.end_) hc hchBs1
                    ?_ ?_ ?_
                  · rw [addrs_cons, List.nodup_cons] at hndBs
                    exact hndBs.2
                  · intro n hn
                    rw [hreadc] at hn
                    rcases Option.some.inj hn with rfl
                    exact hM6c hne2
                  · intro x hx hxc
                    have hxBs : x ∈ addrs ((b, bv) :: bs1) := by
                      rw [addrs_cons]; exact List.mem_cons.mpr (Or.inr hx)
                    have hxb : ¬b = x := by
                      rw [addrs_cons, List.nodup_cons] at hndBs
                      intro hh
                      exact hndBs.1 (by rw [hh]; exact hx)
                    refine hM6r x (hPnotBs x hxBs) ?_ hxb (fun hh => hxc hh.symm)
                      ?_ (hLnotBs x hxBs)
                    · intro hh
                      exact (hdisj2 x (Or.inr (Or.inl hxBs))).1
                        (by rw [← hh]; exact hq2C)
                    · intro hh
                      exact hdA1Bs hqA (by rw [hh]; exact hxBs)
            · -- the old contents of the receiver, reheaded at `some c`
              rw [lastPtr_append, lastPtr_cons, hc]
              cases cs2 with
              | nil => simp
              | cons z cs3 =>
                  rcases z with ⟨e, ev⟩
                  obtain ⟨rfl, rfl⟩ := hBcons e ev cs3 rfl
                  refine chain_rehead m M6 (lastPtr none (ws2 ++ [(q2, q2v)]))
                    (some c) e ev cs3 thisL.end_ hchC2 ?_ ?_
                  · simpa using hM6P
                  · intro x hx
                    have hxC2 : x ∈ addrs ((e, ev) :: cs3) := by
                      rw [addrs_cons]; exact List.mem_cons.mpr (Or.inr hx)
                    have hxe : ¬headAddr ((e, ev) :: cs3) thisL.end_ = x := by
                      simp only [headAddr_cons]
                      rw [addrs_cons, List.nodup_cons] at hndC2
                      intro hh
                      exact hndC2.1 (by rw [hh]; exact hx)
                    refine hM6r x hxe ?_ ?_ ?_ ?_ ?_
                    · intro hh
                      exact hdC12 hq2C (by rw [hh]; exact hxC2)
                    · intro hh
                      exact (hdisj2 b (Or.inr (Or.inl hbBs))).2 (by rw [hh]; exact hxC2)
                    · intro hh
                      exact (hdisj2 c (Or.inr (Or.inl hcBs))).2 (by rw [hh]; exact hxC2)
                    · intro hh
                      exact (hdisj2 q (Or.inl hqA)).2 (by rw [hh]; exact hxC2)
                    · rcases hLmem with h1 | h1
                      · intro hh
                        exact (hmemAll x (Or.inr (Or.inl hxC2))).2 (by rw [← hh, h1])
                      · intro hh
                        exact (hdisj2 x (Or.inr (Or.inr (by rw [← hh]; exact h1)))).2
                          hxC2
          · -- the begin_ cache of the receiver
            show thisL.begin_ = _
            rw [hbegB,
              headAddr_through (ws2 ++ [(q2, q2v)]) (by simp) cs2 thisL.end_ 0,
              headAddr_through (ws2 ++ [(q2, q2v)] ++ (b, bv) :: bs1) (by simp)
                cs2 thisL.end_ 0,
              headAddr_through (ws2 ++ [(q2, q2v)]) (by simp) ((b, bv) :: bs1) 0 0]
        · -- repOk of the source
          rw [repOk_iff]
          refine ⟨?_, ?_, ?_⟩
          · -- sentinel of the source
            show M6.read otherL.end_ = _
            cases as2 with
            | nil =>
                obtain ⟨hLA, rfl, rfl⟩ := hAnil rfl
                rw [← hLA, hM6L]
                simp only [List.append_nil]
                rw [lastPtr_concat]
            | cons z as3 =>
                rcases z with ⟨d, dv⟩
                have hAd : ¬otherL.end_ = d :=
                  fun hh => (hmemAll d (Or.inr (Or.inr (Or.inr (Or.inr (by simp)))))).2
                    hh.symm
                rw [hM6r otherL.end_
                  (by rcases hPmem with h1 | h1
                      · intro hh; exact hBA (by rw [← h1, hh])
                      · intro hh
                        exact (hmemAll _ (Or.inr (Or.inl h1))).2 hh)
                  (fun hh => (hmemAll q2 (Or.inl hq2C)).2 hh)
                  (fun hh => (hmemAll b (Or.inr (Or.inr (Or.inr (Or.inl hbBs))))).2 hh)
                  (fun hh => (hmemAll c (Or.inr (Or.inr (Or.inr (Or.inl hcBs))))).2 hh)
                  (fun hh => (hmemAll q (Or.inr (Or.inr (Or.inl hqA)))).2 hh)
                  (by simp only [headAddr_cons]; exact fun hh => hAd hh.symm),
                  hendA]
                rw [lastPtr_through none none ((d, dv) :: as3)
                  (List.cons_ne_nil _ _) (ws ++ [(q, qv)] ++ (b, bv) :: bs1),
                  lastPtr_through none none ((d, dv) :: as3)
                  (List.cons_ne_nil _ _) (ws ++ [(q, qv)])]
          · -- chain of the source
            rw [chain_append, Bool.and_eq_true]
            constructor
            · -- the remaining prefix, retargeted onto `last`
              refine chain_retarget_last m M6 none (ws ++ [(q, qv)]) q b
                (headAddr as2 otherL.end_) hclq hchA1' hndA1 ?_ ?_
              · intro n hn
                rw [hreadq] at hn
                rcases Option.some.inj hn with rfl
                exact hM6q
              · intro x hx hxq
                refine hM6r x ?_ ?_ ?_ ?_ (fun hh => hxq hh.symm) ?_
                · rcases hPmem with h1 | h1
                  · intro hh
                    exact (hmemAll x (Or.inr (Or.inr (Or.inl hx)))).1
                      (by rw [← hh, h1])
                  · intro hh
                    exact (hdisj2 x (Or.inl hx)).2 (by rw [← hh]; exact h1)
                · intro hh
                  exact (hdisj2 x (Or.inl hx)).1 (by rw [← hh]; exact hq2C)
                · intro hh
                  exact hdA1Bs hx (by rw [← hh]; exact hbBs)
                · intro hh
                  exact hdA1Bs hx (by rw [← hh]; exact hcBs)
                · rcases hLmem with h1 | h1
                  · intro hh
                    exact (hmemAll x (Or.inr (Or.inr (Or.inl hx)))).2
                      (by rw [← hh, h1])
                  · intro hh
                    exact hdA12 (List.mem_append.mpr (Or.inl hx))
                      (by rw [← hh]; exact h1)
            · -- the suffix, reheaded at the prefix's last node
              rw [hclq]
              cases as2 with
              | nil => simp
              | cons z as3 =>
                  rcases z with ⟨d, dv⟩
                  obtain ⟨rfl, rfl⟩ := hAcons d dv as3 rfl
                  refine chain_rehead m M6 (some c) (some q) d dv as3 otherL.end_
                    hchA2 ?_ ?_
                  · simpa using hM6L
                  · intro x hx
                    have hxA2 : x ∈ addrs ((d, dv) :: as3) := by
                      rw [addrs_cons]; exact List.mem_cons.mpr (Or.inr hx)
                    have hxd : ¬headAddr ((d, dv) :: as3) otherL.end_ = x := by
                      simp only [headAddr_cons]
                      rw [addrs_cons, List.nodup_cons] at hndA2
                      intro hh
                      exact hndA2.1 (by rw [hh]; exact hx)
                    refine hM6r x ?_ ?_ ?_ ?_ ?_ hxd
                    · rcases hPmem with h1 | h1
                      · intro hh
                        exact (hmemAll x (Or.inr (Or.inr (Or.inr (Or.inr hxA2))))).1
                          (by rw [← hh, h1])
                      · intro hh
                        exact (hdisj2 x (Or.inr (Or.inr hxA2))).2
                          (by rw [← hh]; exact h1)
                    · intro hh
                      exact (hdisj2 x (Or.inr (Or.inr hxA2))).1
                        (by rw [← hh]; exact hq2C)
                    · intro hh
                      exact hdBsA2 b hbBs (by rw [hh]; exact hxA2)
                    · intro hh
                      exact hdBsA2 c hcBs (by rw [hh]; exact hxA2)
                    · intro hh
                      exact hdA12 (List.mem_append.mpr (Or.inl hqA))
                        (by rw [hh]; exact hxA2)
          · -- the begin_ cache of the source
            show otherL.begin_ = _
            rw [hbegA,
              headAddr_through (ws ++ [(q, qv)] ++ (b, bv) :: bs1) (by simp)
                as2 otherL.end_ 0,
              headAddr_through (ws ++ [(q, qv)]) (by simp) ((b, bv) :: bs1) 0 0,
              headAddr_through (ws ++ [(q, qv)]) (by simp) as2 otherL.end_ 0]
        · -- the combined address pool
          show (thisL.end_ :: otherL.end_ :: _).Nodup
          refine List.Perm.nodup ?_ hnd0
          apply List.perm_iff_count.mpr
          intro a0
          simp only [List.count_cons, List.count_append, addrs_append,
            List.nil_append]
          omega
      · -- the frame
        intro a haB haA haC haAs
        refine hM6r a ?_ ?_ ?_ ?_ ?_ ?_
        · rcases hPmem with h1 | h1
          · intro hh; exact haB (by rw [← hh, h1])
          · intro hh
            exact haC (by rw [← hh]
                          rw [addrs_append]
                          exact List.mem_append.mpr (Or.inr h1))
        · intro hh
          exact haC (by rw [← hh]
                        rw [addrs_append]
                        exact List.mem_append.mpr (Or.inl hq2C))
        · intro hh
          exact haAs (by rw [← hh]
                         rw [addrs_append, addrs_append]
                         exact List.mem_append.mpr
                           (Or.inl (List.mem_append.mpr (Or.inr hbBs))))
        · intro hh
          exact haAs (by rw [← hh]
                         rw [addrs_append, addrs_append]
                         exact List.mem_append.mpr
                           (Or.inl (List.mem_append.mpr (Or.inr hcBs))))
        · intro hh
          exact haAs (by rw [← hh]
                         rw [addrs_append, addrs_append]
                         exact List.mem_append.mpr
                           (Or.inl (List.mem_append.mpr (Or.inl hqA))))
        · rcases hLmem with h1 | h1
          · intro hh; exact haA (by rw [← hh, h1])
          · intro hh
            exact haAs (by rw [← hh]
                           rw [addrs_append]
                           exact List.mem_append.mpr (Or.inr h1))

/-- `splice` with `first == last` is a no-op (src/list.h:369-371). -/
theorem splice_noop (m : Mem) (thisL otherL : CppList) (pos k : Nat) :
    splice m thisL otherL pos k k = some (m, thisL, otherL) := by
  unfold splice
  rw [if_pos rfl]

/-- `erase(first, last)` with `first == last` removes nothing
(src/list.h:349-363). -/
theorem erase_noop (m : Mem) (l : CppList) (k : Nat) :
    erase m l k k = some (m, l, k) := by
  unfold erase
  rw [if_pos rfl]

/-! ## `get_begin`, read-congruence, `swap` -/

/-- `get_begin` walks `left_` links from the sentinel back to the first
node of the chain. -/
theorem getBegin_walk (m : Mem) :
    ∀ (ns : List (Nat × Int)) (s : Nat) (fuel : Nat),
      ns.length < fuel →
      m.readLeft s = some (lastPtr none ns) →
      chain m none ns s = true →
      getBegin fuel m s = some (headAddr ns s) := by
  intro ns
  induction ns using List.reverseRecOn with
  | nil =>
      intro s fuel hf hl _
      cases fuel with
      | zero => omega
      | succ f =>
          unfold getBegin
          rw [bind_step hl]
          rfl
  | append_singleton ks x ih =>
      rcases x with ⟨a, v⟩
      intro s fuel hf hl hch
      rw [lastPtr_concat] at hl
      cases fuel with
      | zero => omega
      | succ f =>
          rw [chain_append, Bool.and_eq_true] at hch
          obtain ⟨hch1, hch2⟩ := hch
          rw [chain_cons, Bool.and_eq_true, beq_iff_eq] at hch2
          obtain ⟨hra, _⟩ := hch2
          have hla : m.readLeft a = some (lastPtr none ks) := Mem.readLeft_eq hra
          unfold getBegin
          rw [bind_step hl]
          have hrec := ih a f (by simp at hf ⊢; omega) hla
            (by simpa using hch1)
          dsimp only
          rw [hrec, headAddr_append]
          rfl

/-- Two memories with identical reads validate `Inv` alike. -/
theorem Inv_congr (m m2 : Mem) (l : CppList) (ns : List (Nat × Int))
    (hr : ∀ x, m2.read x = m.read x) (hwf2 : m2.wf = true)
    (h : Inv m l ns = true) : Inv m2 l ns = true := by
  rw [Inv_iff] at h ⊢
  obtain ⟨_, hend, hch, hbeg, hnd⟩ := h
  refine ⟨hwf2, by rw [hr]; exact hend, ?_, hbeg, hnd⟩
  rw [chain_congr m m2 _ _ _ (fun a _ => hr a)]
  exact hch

/-- In a duplicate-free node sequence the value at an address is unique. -/
theorem mem_pair_unique : ∀ (ns : List (Nat × Int)),
    (addrs ns).Nodup → ∀ {x : Nat} {v w : Int},
    (x, v) ∈ ns → (x, w) ∈ ns → v = w := by
  intro ns
  induction ns with
  | nil => intro _ x v w h1 _; simp at h1
  | cons y r ih =>
      rcases y with ⟨a, u⟩
      intro hnd x v w h1 h2
      rw [addrs_cons, List.nodup_cons] at hnd
      rcases List.mem_cons.mp h1 with hh1 | hh1 <;>
        rcases List.mem_cons.mp h2 with hh2 | hh2
      · rw [Prod.mk.injEq] at hh1 hh2
        rw [hh1.2, hh2.2]
      · rw [Prod.mk.injEq] at hh1
        exact absurd (List.mem_map.mpr ⟨(x, w), hh2, rfl⟩)
          (by rw [hh1.1]; exact hnd.1)
      · rw [Prod.mk.injEq] at hh2
        exact absurd (List.mem_map.mpr ⟨(x, v), hh1, rfl⟩)
          (by rw [hh2.1]; exact hnd.1)
      · exact ih hnd.2 hh1 hh2

/-- `swap` (src/list.h:418-428) runs to completion on two valid lists and
destroys no node: every data node keeps its address and value. -/
theorem swapLists_vals (m : Mem) (a b : CppList) (nsa nsb : List (Nat × Int))
    (h : Inv2 m a nsa b nsb = true) :
    ∃ m2 a2 b2, swapLists m a b = some (m2, a2, b2) ∧
      a2.end_ = a.end_ ∧ b2.end_ = b.end_ ∧
      (∀ x v, (x, v) ∈ nsa ∨ (x, v) ∈ nsb → m2.readVal x = some v) := by
  rw [Inv2_iff] at h
  obtain ⟨hwf, hrepA, hrepB, hnd⟩ := h
  rw [repOk_iff] at hrepA hrepB
  obtain ⟨hendA, hchA, _⟩ := hrepA
  obtain ⟨hendB, hchB, _⟩ := hrepB
  have hchA0 := hchA
  have hchB0 := hchB
  rw [List.nodup_cons, List.mem_cons] at hnd
  obtain ⟨hA1, hnd⟩ := hnd
  rw [List.nodup_cons] at hnd
  obtain ⟨hB1, hnd2⟩ := hnd
  push_neg at hA1
  obtain ⟨hAB, hAmem⟩ := hA1
  rw [List.nodup_append] at hnd2
  obtain ⟨hndA, hndB, hdAB⟩ := hnd2
  have hBA : ¬a.end_ = b.end_ := hAB
  have hsent : ∀ x : Nat, x ∈ addrs nsa ∨ x ∈ addrs nsb →
      ¬x = a.end_ ∧ ¬x = b.end_ := by
    intro x hx
    have hx2 : x ∈ addrs nsa ++ addrs nsb := List.mem_append.mpr hx
    exact ⟨fun hh => hAmem (by rw [← hh]; exact hx2),
      fun hh => hB1 (by rw [← hh]; exact hx2)⟩
  rcases List.eq_nil_or_concat' nsb with rfl | ⟨ksb, ⟨kb, kvb⟩, rfl⟩ <;>
    rcases List.eq_nil_or_concat' nsa with rfl | ⟨ksa, ⟨ka, kva⟩, rfl⟩
  · -- both empty
    rw [lastPtr_nil] at hendA hendB
    have hs1 : m.readLeft a.end_ = some none := Mem.readLeft_eq hendA
    have hs2 : m.readLeft b.end_ = some none := Mem.readLeft_eq hendB
    obtain ⟨M1, hM1⟩ : ∃ M1, m.write a.end_ ⟨none, none, none⟩ = M1 := ⟨_, rfl⟩
    have hreadB1 : M1.read b.end_ = some ⟨none, none, none⟩ := by
      rw [← hM1, read_write_ne _ _ _ hBA]; exact hendB
    obtain ⟨M2, hM2⟩ : ∃ M2, M1.write b.end_ ⟨none, none, none⟩ = M2 := ⟨_, rfl⟩
    refine ⟨M2, { a with begin_ := b.begin_ }, { b with begin_ := a.begin_ },
      ?_, rfl, rfl, by simp⟩
    unfold swapLists
    rw [bind_step hs1, bind_step hs2,
      bind_step (show m.writeLeft a.end_ none = some M1 by
        rw [Mem.writeLeft_eq hendA, hM1]),
      bind_step (show M1.writeLeft b.end_ none = some M2 by
        rw [Mem.writeLeft_eq hreadB1, hM2])]
    rfl
  · -- a non-empty, b empty
    rw [lastPtr_nil] at hendB
    rw [lastPtr_concat] at hendA
    rw [chain_append, Bool.and_eq_true] at hchA
    obtain ⟨_, hchka⟩ := hchA
    rw [chain_cons, Bool.and_eq_true, beq_iff_eq, headAddr_nil] at hchka
    obtain ⟨hreadka, _⟩ := hchka
    have hkaA : ka ∈ addrs (ksa ++ [(ka, kva)]) := by simp [addrs]
    have hka_s := hsent ka (Or.inl hkaA)
    have hs1 : m.readLeft a.end_ = some (some ka) := Mem.readLeft_eq hendA
    have hs2 : m.readLeft b.end_ = some none := Mem.readLeft_eq hendB
    obtain ⟨M1, hM1⟩ : ∃ M1, m.write a.end_ ⟨none, none, none⟩ = M1 := ⟨_, rfl⟩
    have hreadB1 : M1.read b.end_ = some ⟨none, none, none⟩ := by
      rw [← hM1, read_write_ne _ _ _ hBA]; exact hendB
    obtain ⟨M2, hM2⟩ : ∃ M2, M1.write b.end_ ⟨some ka, none, none⟩ = M2 := ⟨_, rfl⟩
    have hreadka2 : M2.read ka = some ⟨lastPtr none ksa, some kva,
        some (some a.end_)⟩ := by
      rw [← hM2, read_write_ne _ _ _ (fun hh => hka_s.2 hh.symm), ← hM1,
        read_write_ne _ _ _ (fun hh => hka_s.1 hh.symm)]
      exact hreadka
    obtain ⟨M3, hM3⟩ : ∃ M3, M2.write ka ⟨lastPtr none ksa, some kva,
        some (some b.end_)⟩ = M3 := ⟨_, rfl⟩
    refine ⟨M3, { a with begin_ := b.begin_ }, { b with begin_ := a.begin_ },
      ?_, rfl, rfl, ?_⟩
    · unfold swapLists
      rw [bind_step hs1, bind_step hs2,
        bind_step (show m.writeLeft a.end_ none = some M1 by
          rw [Mem.writeLeft_eq hendA, hM1]),
        bind_step (show M1.writeLeft b.end_ (some ka) = some M2 by
          rw [Mem.writeLeft_eq hreadB1, hM2])]
      rw [bind_some_step]
      dsimp only
      rw [bind_step (show M2.writeRight ka (some b.end_) = some M3 by
        rw [Mem.writeRight_eq hreadka2, hM3])]
      rfl
    · intro x v hx
      rcases hx with hx | hx
      · have hxm : x ∈ addrs (ksa ++ [(ka, kva)]) :=
          List.mem_map.mpr ⟨(x, v), hx, rfl⟩
        have hx_s := hsent x (Or.inl hxm)
        by_cases hxka : ka = x
        · have hv : v = kva :=
            mem_pair_unique _ hndA hx (by rw [hxka]; simp)
          unfold Mem.readVal
          rw [← hxka, ← hM3, read_write_self, hv]
          rfl
        · obtain ⟨p0, r0, hx0⟩ := chain_read hchA0 hx
          unfold Mem.readVal
          rw [← hM3, read_write_ne _ _ _ hxka, ← hM2,
            read_write_ne _ _ _ (fun hh => hx_s.2 hh.symm), ← hM1,
            read_write_ne _ _ _ (fun hh => hx_s.1 hh.symm), hx0]
          rfl
      · simp at hx
  · -- a empty, b non-empty
    rw [lastPtr_nil] at hendA
    rw [lastPtr_concat] at hendB
    rw [chain_append, Bool.and_eq_true] at hchB
    obtain ⟨_, hchkb⟩ := hchB
    rw [chain_cons, Bool.and_eq_true, beq_iff_eq, headAddr_nil] at hchkb
    obtain ⟨hreadkb, _⟩ := hchkb
    have hkbB : kb ∈ addrs (ksb ++ [(kb, kvb)]) := by simp [addrs]
    have hkb_s := hsent kb (Or.inr hkbB)
    have hs1 : m.readLeft a.end_ = some none := Mem.readLeft_eq hendA
    have hs2 : m.readLeft b.end_ = some (some kb) := Mem.readLeft_eq hendB
    obtain ⟨M1, hM1⟩ : ∃ M1, m.write a.end_ ⟨some kb, none, none⟩ = M1 := ⟨_, rfl⟩
    have hreadB1 : M1.read b.end_ = some ⟨some kb, none, none⟩ := by
      rw [← hM1, read_write_ne _ _ _ hBA]; exact hendB
    obtain ⟨M2, hM2⟩ : ∃ M2, M1.write b.end_ ⟨none, none, none⟩ = M2 := ⟨_, rfl⟩
    have hreadkb2 : M2.read kb = some ⟨lastPtr none ksb, some kvb,
        some (some b.end_)⟩ := by
      rw [← hM2, read_write_ne _ _ _ (fun hh => hkb_s.2 hh.symm), ← hM1,
        read_write_ne _ _ _ (fun hh => hkb_s.1 hh.symm)]
      exact hreadkb
    obtain ⟨M3, hM3⟩ : ∃ M3, M2.write kb ⟨lastPtr none ksb, some kvb,
        some (some a.end_)⟩ = M3 := ⟨_, rfl⟩
    refine ⟨M3, { a with begin_ := b.begin_ }, { b with begin_ := a.begin_ },
      ?_, rfl, rfl, ?_⟩
    · unfold swapLists
      rw [bind_step hs1, bind_step hs2,
        bind_step (show m.writeLeft a.end_ (some kb) = some M1 by
          rw [Mem.writeLeft_eq hendA, hM1]),
        bind_step (show M1.writeLeft b.end_ none = some M2 by
          rw [Mem.writeLeft_eq hreadB1, hM2])]
      rw [bind_step (show M2.writeRight kb (some a.end_) = some M3 by
        rw [Mem.writeRight_eq hreadkb2, hM3])]
      rw [bind_some_step]
      rfl
    · intro x v hx
      rcases hx with hx | hx
      · simp at hx
      · have hxm : x ∈ addrs (ksb ++ [(kb, kvb)]) :=
          List.mem_map.mpr ⟨(x, v), hx, rfl⟩
        have hx_s := hsent x (Or.inr hxm)
        by_cases hxkb : kb = x
        · have hv : v = kvb :=
            mem_pair_unique _ hndB hx (by rw [hxkb]; simp)
          unfold Mem.readVal
          rw [← hxkb, ← hM3, read_write_self, hv]
          rfl
        · obtain ⟨p0, r0, hx0⟩ := chain_read hchB0 hx
          unfold Mem.readVal
          rw [← hM3, read_write_ne _ _ _ hxkb, ← hM2,
            read_write_ne _ _ _ (fun hh => hx_s.2 hh.symm), ← hM1,
            read_write_ne _ _ _ (fun hh => hx_s.1 hh.symm), hx0]
          rfl
  · -- both non-empty
    rw [lastPtr_concat] at hendA hendB
    rw [chain_append, Bool.and_eq_true] at hchA hchB
    obtain ⟨_, hchka⟩ := hchA
    obtain ⟨_, hchkb⟩ := hchB
    rw [chain_cons, Bool.and_eq_true, beq_iff_eq, headAddr_nil] at hchka hchkb
    obtain ⟨hreadka, _⟩ := hchka
    obtain ⟨hreadkb, _⟩ := hchkb
    have hkaA : ka ∈ addrs (ksa ++ [(ka, kva)]) := by simp [addrs]
    have hkbB : kb ∈ addrs (ksb ++ [(kb, kvb)]) := by simp [addrs]
    have hka_s := hsent ka (Or.inl hkaA)
    have hkb_s := hsent kb (Or.inr hkbB)
    have hkakb : ¬kb = ka := fun hh => hdAB hkaA (by rw [← hh]; exact hkbB)
    have hs1 : m.readLeft a.end_ = some (some ka) := Mem.readLeft_eq hendA
    have hs2 : m.readLeft b.end_ = some (some kb) := Mem.readLeft_eq hendB
    obtain ⟨M1, hM1⟩ : ∃ M1, m.write a.end_ ⟨some kb, none, none⟩ = M1 := ⟨_, rfl⟩
    have hreadB1 : M1.read b.end_ = some ⟨some kb, none, none⟩ := by
      rw [← hM1, read_write_ne _ _ _ hBA]; exact hendB
    obtain ⟨M2, hM2⟩ : ∃ M2, M1.write b.end_ ⟨some ka, none, none⟩ = M2 := ⟨_, rfl⟩
    have hreadkb2 : M2.read kb = some ⟨lastPtr none ksb, some kvb,
        some (some b.end_)⟩ := by
      rw [← hM2, read_write_ne _ _ _ (fun hh => hkb_s.2 hh.symm), ← hM1,
        read_write_ne _ _ _ (fun hh => hkb_s.1 hh.symm)]
      exact hreadkb
    obtain ⟨M3, hM3⟩ : ∃ M3, M2.write kb ⟨lastPtr none ksb, some kvb,
        some (some a.end_)⟩ = M3 := ⟨_, rfl⟩
    have hreadka3 : M3.read ka = some ⟨lastPtr none ksa, some kva,
        some (some a.end_)⟩ := by
      rw [← hM3, read_write_ne _ _ _ hkakb, ← hM2,
        read_write_ne _ _ _ (fun hh => hka_s.2 hh.symm), ← hM1,
        read_write_ne _ _ _ (fun hh => hka_s.1 hh.symm)]
      exact hreadka
    obtain ⟨M4, hM4⟩ : ∃ M4, M3.write ka ⟨lastPtr none ksa, some kva,
        some (some b.end_)⟩ = M4 := ⟨_, rfl⟩
    refine ⟨M4, { a with begin_ := b.begin_ }, { b with begin_ := a.begin_ },
      ?_, rfl, rfl, ?_⟩
    · unfold swapLists
      rw [bind_step hs1, bind_step hs2,
        bind_step (show m.writeLeft a.end_ (some kb) = some M1 by
          rw [Mem.writeLeft_eq hendA, hM1]),
        bind_step (show M1.writeLeft b.end_ (some ka) = some M2 by
          rw [Mem.writeLeft_eq hreadB1, hM2])]
      rw [bind_step (show M2.writeRight kb (some a.end_) = some M3 by
        rw [Mem.writeRight_eq hreadkb2, hM3])]
      rw [bind_step (show M3.writeRight ka (some b.end_) = some M4 by
        rw [Mem.writeRight_eq hreadka3, hM4])]
      rfl
    · intro x v hx
      have hxm : x ∈ addrs (ksa ++ [(ka, kva)]) ∨
          x ∈ addrs (ksb ++ [(kb, kvb)]) := by
        rcases hx with hx | hx
        · exact Or.inl (List.mem_map.mpr ⟨(x, v), hx, rfl⟩)
        · exact Or.inr (List.mem_map.mpr ⟨(x, v), hx, rfl⟩)
      have hx_s := hsent x hxm
      by_cases hxka : ka = x
      · have hv : v = kva := by
          rcases hx with hx | hx
          · exact mem_pair_unique _ hndA hx (by rw [hxka]; simp)
          · exact absurd (List.mem_map.mpr ⟨(x, v), hx, rfl⟩)
              (by rw [← hxka]; exact hdAB hkaA)
        unfold Mem.readVal
        rw [← hxka, ← hM4, read_write_self, hv]
        rfl
      · by_cases hxkb : kb = x
        · have hv : v = kvb := by
            rcases hx with hx | hx
            · exact absurd (hdAB (List.mem_map.mpr ⟨(x, v), hx, rfl⟩))
                (by rw [← hxkb] at hx ⊢; intro hc; exact hc hkbB)
            · exact mem_pair_unique _ hndB hx (by rw [hxkb]; simp)
          unfold Mem.readVal
          rw [← hM4, read_write_ne _ _ _ hxka, ← hxkb, ← hM3,
            read_write_self, hv]
          rfl
        · have hx0 : ∃ p0 r0, m.read x = some ⟨p0, some v, some r0⟩ := by
            rcases hx with hx | hx
            · exact chain_read hchA0 hx
            · exact chain_read hchB0 hx
          obtain ⟨p0, r0, hx0⟩ := hx0
          unfold Mem.readVal
          rw [← hM4, read_write_ne _ _ _ hxka, ← hM3,
            read_write_ne _ _ _ hxkb, ← hM2,
            read_write_ne _ _ _ (fun hh => hx_s.2 hh.symm), ← hM1,
            read_write_ne _ _ _ (fun hh => hx_s.1 hh.symm), hx0]
          rfl

/-! ## The fallible copy: failure leaves no trace, success builds a fresh
deep copy -/

/-- `copy_node` propagating an exception (src/list.h:398-404): every node
allocated under the failed call has been deleted again, so the memory reads
exactly as before the call. -/
theorem copyNodeF_thrown (cp : Int → Option Int) :
    ∀ (fuel : Nat) (m : Mem) (right : Nat) (p : Ptr) (m2 : Mem),
      m.wf = true →
      copyNodeF cp fuel m right p = some (CRes.thrown m2) →
      (∀ x, m2.read x = m.read x) ∧ m2.wf = true := by
  intro fuel
  induction fuel with
  | zero =>
      intro m right p m2 hwf hrun
      cases p with
      | none => simp [copyNodeF] at hrun
      | some orig => simp [copyNodeF] at hrun
  | succ f ih =>
      intro m right p m2 hwf hrun
      cases p with
      | none => simp [copyNodeF] at hrun
      | some orig =>
          rw [copyNodeF] at hrun
          cases hv : m.readVal orig with
          | none => rw [bind_none_step hv] at hrun; simp at hrun
          | some v =>
              rw [bind_step hv] at hrun
              cases hcp : cp v with
              | none =>
                  rw [hcp] at hrun
                  simp only [Option.some.injEq] at hrun
                  rcases hrun with ⟨⟩
                  exact ⟨fun x => rfl, hwf⟩
              | some v2 =>
                  rw [hcp] at hrun
                  dsimp only [Mem.alloc] at hrun
                  cases hol : (Mem.mk ((m.next,
                      (⟨none, some v2, some (some right)⟩ : HNode)) :: m.heap)
                      (m.next + 1)).readLeft orig with
                  | none => rw [bind_none_step hol] at hrun; simp at hrun
                  | some ol =>
                      rw [bind_step hol] at hrun
                      cases hrec : copyNodeF cp f (Mem.mk ((m.next,
                          (⟨none, some v2, some (some right)⟩ : HNode)) :: m.heap)
                          (m.next + 1)) m.next ol with
                      | none => rw [bind_none_step hrec] at hrun; simp at hrun
                      | some r =>
                          rw [bind_step hrec] at hrun
                          cases r with
                          | thrown m3 =>
                              have hrun2 : CRes.thrown (m3.free m.next) =
                                  CRes.thrown m2 := Option.some.inj hrun
                              rcases hrun2 with ⟨⟩
                              have hwf1 : (Mem.mk ((m.next,
                                  (⟨none, some v2, some (some right)⟩ : HNode)) ::
                                  m.heap) (m.next + 1)).wf = true :=
                                Mem.wf_alloc hwf
                              obtain ⟨hr3, hwf3⟩ := ih _ _ _ _ hwf1 hrec
                              refine ⟨?_, Mem.wf_free hwf3⟩
                              intro x
                              rw [Mem.read_free, hr3 x]
                              by_cases hx : m.next = x
                              · rw [if_pos (by rw [hx]), ← hx]
                                exact (Mem.read_next_none hwf).symm
                              · rw [if_neg hx, Mem.read_mk_cons, if_neg hx]
                                rfl
                          | ok pr =>
                              rcases pr with ⟨m3, p3⟩
                              dsimp only at hrun
                              cases hw : m3.writeLeft m.next p3 with
                              | none => rw [bind_none_step hw] at hrun; simp at hrun
                              | some m4 =>
                                  rw [bind_step hw] at hrun
                                  simp at hrun

/-- `copy_node` with a never-failing element copy duplicates a chain: the
copy is built entirely at fresh addresses, the old memory is untouched, and
the copied chain carries the same value sequence. -/
theorem copyNodeF_ok_cpId :
    ∀ (ns : List (Nat × Int)) (fuel : Nat) (m : Mem) (right stop : Nat),
      m.wf = true →
      chain m none ns stop = true →
      ns.length < fuel →
      ∃ m2 ns2, copyNodeF cpId fuel m right (lastPtr none ns) =
          some (CRes.ok (m2, lastPtr none ns2)) ∧
        chain m2 none ns2 right = true ∧
        ns2.map Prod.snd = ns.map Prod.snd ∧
        (∀ x, x < m.next → m2.read x = m.read x) ∧
        m2.wf = true ∧ m.next ≤ m2.next ∧
        (∀ x, x ∈ addrs ns2 → m.next ≤ x ∧ x < m2.next) ∧
        (addrs ns2).Nodup := by
  intro ns
  induction ns using List.reverseRecOn with
  | nil =>
      intro fuel m right stop hwf _ _
      refine ⟨m, [], ?_, rfl, rfl, fun x _ => rfl, hwf, Nat.le_refl _,
        by simp [addrs], by simp [addrs]⟩
      rw [lastPtr_nil]
      cases fuel <;> rfl
  | append_singleton ks x ih =>
      rcases x with ⟨a, v⟩
      intro fuel m right stop hwf hch hlen
      cases fuel with
      | zero => simp at hlen
      | succ f =>
          rw [chain_append, Bool.and_eq_true] at hch
          obtain ⟨hch1, hch2⟩ := hch
          rw [chain_cons, Bool.and_eq_true, beq_iff_eq] at hch2
          obtain ⟨hra, _⟩ := hch2
          have halt : a < m.next := Mem.wf_read_lt hwf hra
          have hv : m.readVal a = some v := Mem.readVal_eq hra
          -- the allocated copy of the last node
          obtain ⟨m1, hm1⟩ : ∃ m1, Mem.mk ((m.next,
              (⟨none, some v, some (some right)⟩ : HNode)) :: m.heap)
              (m.next + 1) = m1 := ⟨_, rfl⟩
          have hwf1 : m1.wf = true := by
            rw [← hm1]; exact Mem.wf_alloc hwf
          have hm1read : ∀ x, x < m.next → m1.read x = m.read x := by
            intro x hx
            rw [← hm1, Mem.read_mk_cons, if_neg (by omega)]
            rfl
          have hch1m1 : chain m1 none ks a = true := by
            rw [← hm1]
            exact chain_alloc_frame m none ks a _ hwf (by simpa using hch1)
          obtain ⟨m2, ns2, hrun2, hch2m2, hmap2, hfr2, hwf2, hnext2, hfresh2,
            hnd2⟩ := ih f m1 m.next a hwf1 hch1m1 (by simp at hlen; omega)
          have hm1next : m1.next = m.next + 1 := by rw [← hm1]
          have hreadres : m2.read m.next =
              some ⟨none, some v, some (some right)⟩ := by
            rw [hfr2 m.next (by omega), ← hm1, Mem.read_mk_cons, if_pos rfl]
          obtain ⟨m3, hm3⟩ : ∃ m3, m2.write m.next
              ⟨lastPtr none ns2, some v, some (some right)⟩ = m3 := ⟨_, rfl⟩
          refine ⟨m3, ns2 ++ [(m.next, v)], ?_, ?_, ?_, ?_, ?_, ?_, ?_, ?_⟩
          · -- the execution
            rw [lastPtr_concat, copyNodeF, bind_step hv]
            dsimp only [cpId, Mem.alloc]
            rw [hm1]
            have hol : m1.readLeft a = some (lastPtr none ks) := by
              rw [Mem.readLeft_eq (by rw [hm1read a halt]; exact hra)]
            rw [bind_step hol, bind_step hrun2]
            dsimp only
            rw [bind_step (show m2.writeLeft m.next (lastPtr none ns2) =
                some m3 by rw [Mem.writeLeft_eq hreadres, hm3])]
            rw [lastPtr_concat]
            rfl
          · -- the copied chain
            rw [chain_append, Bool.and_eq_true]
            constructor
            · have hfr : ∀ x, x ∈ addrs ns2 → m3.read x = m2.read x := by
                intro x hx
                rw [← hm3]
                exact read_write_ne _ _ _ (by
                  have := (hfresh2 x hx).1
                  omega)
              rw [chain_congr m2 m3 none ns2 _ hfr]
              simpa using hch2m2
            · rw [chain_cons]
              simp only [headAddr_nil, chain_nil, Bool.and_true, beq_iff_eq]
              rw [← hm3, read_write_self]
          · -- same values
            simp [hmap2]
          · -- old memory untouched
            intro x hx
            rw [← hm3, read_write_ne _ _ _ (by omega), hfr2 x (by omega),
              hm1read x hx]
          · -- allocator discipline
            rw [← hm3]
            refine Mem.wf_write hwf2 ?_
            omega
          · -- the bump pointer only grows
            rw [← hm3, Mem.write_next]
            omega
          · -- all copied nodes are fresh
            intro x hx
            rw [addrs_append] at hx
            rw [← hm3, Mem.write_next]
            rcases List.mem_append.mp hx with hx | hx
            · have := hfresh2 x hx
              omega
            · simp [addrs] at hx
              omega
          · -- distinct copies
            rw [addrs_append]
            rw [List.nodup_append]
            refine ⟨hnd2, by simp [addrs], ?_⟩
            intro x hx
            have := hfresh2 x hx
            simp [addrs]
            omega

/-- Two memories agreeing on a list object's whole footprint validate `Inv`
alike. -/
theorem Inv_frame (m m2 : Mem) (l : CppList) (ns : List (Nat × Int))
    (h : Inv m l ns = true) (hwf2 : m2.wf = true)
    (hr : ∀ x, x ∈ l.end_ :: addrs ns → m2.read x = m.read x) :
    Inv m2 l ns = true := by
  rw [Inv_iff] at h ⊢
  obtain ⟨_, hend, hch, hbeg, hnd⟩ := h
  refine ⟨hwf2, by rw [hr l.end_ (by simp)]; exact hend, ?_, hbeg, hnd⟩
  rw [chain_congr m m2 _ _ _
    (fun a ha => hr a (List.mem_cons.mpr (Or.inr ha)))]
  exact hch

/-- The footprint of a valid list lies strictly below the bump pointer. -/
theorem Inv_footprint_lt (m : Mem) (l : CppList) (ns : List (Nat × Int))
    (h : Inv m l ns = true) :
    ∀ x, x ∈ l.end_ :: addrs ns → x < m.next := by
  rw [Inv_iff] at h
  obtain ⟨hwf, hend, hch, _, _⟩ := h
  intro x hx
  rcases List.mem_cons.mp hx with rfl | hx
  · exact Mem.wf_read_lt hwf hend
  · exact chain_addr_lt hwf hch hx

/-- Copy construction aborted by an element-copy failure
(src/list.h:218-222 with 392-405): the memory reads exactly as before. -/
theorem listCopyF_thrown (cp : Int → Option Int) (m : Mem) (other : CppList)
    (m2 : Mem) (hwf : m.wf = true)
    (h : listCopyF cp m other = some (CRes.thrown m2)) :
    (∀ x, m2.read x = m.read x) ∧ m2.wf = true := by
  rw [listCopyF] at h
  dsimp only [Mem.alloc] at h
  cases hol : (Mem.mk ((m.next, (⟨none, none, none⟩ : HNode)) :: m.heap)
      (m.next + 1)).readLeft other.end_ with
  | none => rw [bind_none_step hol] at h; simp at h
  | some ol =>
      rw [bind_step hol] at h
      cases hrec : copyNodeF cp ((Mem.mk ((m.next,
          (⟨none, none, none⟩ : HNode)) :: m.heap) (m.next + 1)).heap.length + 1)
          (Mem.mk ((m.next, (⟨none, none, none⟩ : HNode)) :: m.heap)
          (m.next + 1)) m.next ol with
      | none => rw [bind_none_step hrec] at h; simp at h
      | some r =>
          rw [bind_step hrec] at h
          cases r with
          | thrown m3 =>
              have h2 : CRes.thrown (m3.free m.next) = CRes.thrown m2 :=
                Option.some.inj h
              rcases h2 with ⟨⟩
              have hwf1 : (Mem.mk ((m.next, (⟨none, none, none⟩ : HNode)) ::
                  m.heap) (m.next + 1)).wf = true := Mem.wf_alloc hwf
              obtain ⟨hr3, hwf3⟩ := copyNodeF_thrown cp _ _ _ _ _ hwf1 hrec
              refine ⟨?_, Mem.wf_free hwf3⟩
              intro x
              rw [Mem.read_free, hr3 x]
              by_cases hx : m.next = x
              · rw [if_pos (by rw [hx]), ← hx]
                exact (Mem.read_next_none hwf).symm
              · rw [if_neg hx, Mem.read_mk_cons, if_neg hx]
                rfl
          | ok pr =>
              rcases pr with ⟨m3, p3⟩
              dsimp only at h
              cases hw : m3.writeLeft m.next p3 with
              | none => rw [bind_none_step hw] at h; simp at h
              | some m4 =>
                  rw [bind_step hw] at h
                  cases hg : getBegin (m4.heap.length + 1) m4 m.next with
                  | none => rw [bind_none_step hg] at h; simp at h
                  | some bg =>
                      rw [bind_step hg] at h
                      simp at h

/-- Copy construction with a never-failing element copy
(src/list.h:218-222): builds a fully fresh valid list holding the same
value sequence, leaving the original memory untouched. -/
theorem listCopyF_ok_cpId (m : Mem) (other : CppList) (ns : List (Nat × Int))
    (h : Inv m other ns = true) :
    ∃ m2 l2 ns2, listCopyF cpId m other = some (CRes.ok (m2, l2)) ∧
      Inv m2 l2 ns2 = true ∧
      ns2.map Prod.snd = ns.map Prod.snd ∧
      (∀ x, x < m.next → m2.read x = m.read x) ∧
      m.next ≤ m2.next ∧
      (∀ x, x ∈ l2.end_ :: addrs ns2 → m.next ≤ x ∧ x < m2.next) := by
  have hinv := h
  rw [Inv_iff] at h
  obtain ⟨hwf, hend, hch, hbeg, hnd⟩ := h
  rw [List.nodup_cons] at hnd
  obtain ⟨M1, hM1⟩ : ∃ M1, Mem.mk ((m.next, (⟨none, none, none⟩ : HNode)) ::
      m.heap) (m.next + 1) = M1 := ⟨_, rfl⟩
  have hwf1 : M1.wf = true := by rw [← hM1]; exact Mem.wf_alloc hwf
  have hM1next : M1.next = m.next + 1 := by rw [← hM1]
  have hM1read : ∀ x, x < m.next → M1.read x = m.read x := by
    intro x hx
    rw [← hM1, Mem.read_mk_cons, if_neg (by omega)]
    rfl
  have hM1s : M1.read m.next = some ⟨none, none, none⟩ := by
    rw [← hM1, Mem.read_mk_cons, if_pos rfl]
  have hendlt : other.end_ < m.next := Mem.wf_read_lt hwf hend
  have haddrlt : ∀ a, a ∈ addrs ns → a < m.next :=
    fun a ha => chain_addr_lt hwf hch ha
  have hchM1 : chain M1 none ns other.end_ = true := by
    rw [← hM1]
    exact chain_alloc_frame m none ns other.end_ _ hwf hch
  have hlenle : ns.length ≤ M1.heap.length := by
    refine length_le_heap M1 ns hnd.2 ?_
    intro a ha
    simp only [addrs, List.mem_map] at ha
    obtain ⟨⟨b, w⟩, hb, rfl⟩ := ha
    obtain ⟨q2, r2, hr2⟩ := chain_read hchM1 hb
    show M1.read b ≠ none
    rw [hr2]
    simp
  obtain ⟨m2, ns2, hrun2, hch2, hmap2, hfr2, hwf2, hnext2, hfresh2, hnd2⟩ :=
    copyNodeF_ok_cpId ns (M1.heap.length + 1) M1 m.next other.end_ hwf1 hchM1
      (by omega)
  obtain ⟨m3, hm3⟩ : ∃ m3, m2.write m.next
      ⟨lastPtr none ns2, none, none⟩ = m3 := ⟨_, rfl⟩
  have hreads : m2.read m.next = some ⟨none, none, none⟩ := by
    rw [hfr2 m.next (by omega)]
    exact hM1s
  have hfreshlo : ∀ x, x ∈ addrs ns2 → m.next + 1 ≤ x ∧ x < m2.next := by
    intro x hx
    have := hfresh2 x hx
    omega
  have hchm3 : chain m3 none ns2 m.next = true := by
    rw [← hm3, chain_write_frame _ _ _ _ _ _
      (fun hh => by have := hfreshlo _ hh; omega)]
    exact hch2
  have hreadm3s : m3.read m.next = some ⟨lastPtr none ns2, none, none⟩ := by
    rw [← hm3, read_write_self]
  have hlen2 : ns2.length ≤ m3.heap.length := by
    refine length_le_heap m3 ns2 hnd2 ?_
    intro a ha
    simp only [addrs, List.mem_map] at ha
    obtain ⟨⟨b, w⟩, hb, rfl⟩ := ha
    obtain ⟨q2, r2, hr2⟩ := chain_read hchm3 hb
    show m3.read b ≠ none
    rw [hr2]
    simp
  have hg : getBegin (m3.heap.length + 1) m3 m.next =
      some (headAddr ns2 m.next) :=
    getBegin_walk m3 ns2 m.next (m3.heap.length + 1) (by omega)
      (Mem.readLeft_eq hreadm3s) hchm3
  refine ⟨m3, ⟨headAddr ns2 m.next, m.next⟩, ns2, ?_, ?_, hmap2, ?_, ?_, ?_⟩
  · -- the execution
    rw [listCopyF]
    dsimp only [Mem.alloc]
    rw [hM1]
    rw [bind_step (show M1.readLeft other.end_ = some (lastPtr none ns) by
      rw [Mem.readLeft_eq (by rw [hM1read other.end_ hendlt]; exact hend)])]
    rw [show ((m.next, (⟨none, none, none⟩ : HNode)) :: m.heap).length + 1 =
      M1.heap.length + 1 by rw [← hM1]]
    rw [bind_step hrun2]
    dsimp only
    rw [bind_step (show m2.writeLeft m.next (lastPtr none ns2) = some m3 by
      rw [Mem.writeLeft_eq hreads, hm3])]
    rw [bind_step hg]
    rfl
  · -- the copy satisfies the invariant
    rw [Inv_iff]
    refine ⟨by rw [← hm3]; exact Mem.wf_write hwf2 (by omega), hreadm3s,
      hchm3, rfl, ?_⟩
    rw [List.nodup_cons]
    constructor
    · show m.next ∉ addrs ns2
      intro hh
      have h9 := hfreshlo _ hh
      omega
    · exact hnd2
  · -- the old memory is untouched
    intro x hx
    rw [← hm3, read_write_ne _ _ _ (by omega), hfr2 x (by omega),
      hM1read x hx]
  · -- the bump pointer only grows
    rw [← hm3, Mem.write_next]
    omega
  · -- the whole copy is fresh
    intro x hx
    rw [← hm3, Mem.write_next]
    rcases List.mem_cons.mp hx with rfl | hx
    · dsimp only
      omega
    · have := hfreshlo x hx
      omega

/-- `insert` whose element copy fails (src/list.h:330): the exception
propagates before any link is touched, so the memory is returned exactly
as it was. -/
theorem insertF_fails (cp : Int → Option Int) (m : Mem) (l : CppList)
    (pos : Nat) (v : Int) (hcp : cp v = none) :
    insertF cp m l pos v = some (CRes.thrown m) := by
  unfold insertF
  rw [hcp]

/-- Whenever `insert` propagates an exception, the carried memory is the
unmodified input memory. -/
theorem insertF_thrown_eq (cp : Int → Option Int) (m : Mem) (l : CppList)
    (pos : Nat) (v : Int) (m2 : Mem)
    (h : insertF cp m l pos v = some (CRes.thrown m2)) : m2 = m := by
  unfold insertF at h
  cases hcp : cp v with
  | none =>
      rw [hcp] at h
      have h2 := Option.some.inj h
      rcases h2 with ⟨⟩
      rfl
  | some v2 =>
      rw [hcp] at h
      dsimp only at h
      cases hi : insert m l pos v2 with
      | none => rw [hi] at h; simp at h
      | some r => rw [hi] at h; simp at h

/-- Copy assignment aborted by an element-copy failure (src/list.h:224-228):
`swap` never runs and the memory — in particular the whole chain of the
assignment target — reads exactly as before. -/
theorem assignF_thrown (cp : Int → Option Int) (m : Mem)
    (thisL other : CppList) (m2 : Mem) (hwf : m.wf = true)
    (h : assignF cp m thisL other = some (CRes.thrown m2)) :
    (∀ x, m2.read x = m.read x) ∧ m2.wf = true := by
  rw [assignF] at h
  cases hc : listCopyF cp m other with
  | none => rw [bind_none_step hc] at h; simp at h
  | some r =>
      rw [bind_step hc] at h
      cases r with
      | thrown m1 =>
          have h2 : CRes.thrown m1 = CRes.thrown m2 := Option.some.inj h
          rcases h2 with ⟨⟩
          exact listCopyF_thrown cp m other _ hwf hc
      | ok pr =>
          rcases pr with ⟨m1, tmp⟩
          dsimp only at h
          cases hsw : swapLists m1 tmp thisL with
          | none => rw [bind_none_step hsw] at h; simp at h
          | some tr =>
              rw [bind_step hsw] at h
              rcases tr with ⟨m4, tmp2, this2⟩
              dsimp only at h
              cases htl : m4.readLeft tmp2.end_ with
              | none => rw [bind_none_step htl] at h; simp at h
              | some tl =>
                  rw [bind_step htl] at h
                  cases hd : destructList (m4.heap.length + 1) m4 tl with
                  | none => rw [bind_none_step hd] at h; simp at h
                  | some m5 =>
                      rw [bind_step hd] at h
                      simp at h

/-- C7: deep-copy isolation (src/list.h:218-222 with 392-405).  Copy
construction of `L2` from `L` duplicates every node at a fresh address —
the copy shares no node with the source — and reproduces the value
sequence; a subsequent `L2.push_back(x)` leaves `L` entirely unchanged:
`L` still satisfies its representation invariant for the original node
sequence and iterating `L` from `begin()` to `end()` still yields exactly
the original elements. -/
theorem C7_deep_copy_isolation (m : Mem) (L : CppList)
    (ns : List (Nat × Int)) (x : Int) (h : Inv m L ns = true) :
    ∃ (m2 : Mem) (l2 : CppList) (ns2 : List (Nat × Int)),
      listCopyF cpId m L = some (CRes.ok (m2, l2)) ∧
      ns2.map Prod.snd = ns.map Prod.snd ∧
      l2.end_ ≠ L.end_ ∧
      (∀ a, a ∈ addrs ns2 → a ∉ addrs ns ∧ a ≠ L.end_) ∧
      ∃ m3 l3, pushBack m2 l2 x = some (m3, l3) ∧
        Inv m3 L ns = true ∧
        elems m3 L (ns.length + 1) = some (ns.map Prod.snd) := by
  obtain ⟨m2, l2, ns2, hrun, hinv2, hmap, hfr, hnext, hfresh⟩ :=
    listCopyF_ok_cpId m L ns h
  have hfoot := Inv_footprint_lt m L ns h
  have hwf2 : m2.wf = true := ((Inv_iff m2 l2 ns2).mp hinv2).1
  have hinvL2 : Inv m2 L ns = true :=
    Inv_frame m m2 L ns h hwf2 (fun y hy => hfr y (hfoot y hy))
  obtain ⟨m3, l3, hpush, hinv3, hend3, hnext3, hframe3⟩ :=
    pushBack_spec m2 l2 ns2 x hinv2
  have hwf3 : m3.wf = true := ((Inv_iff m3 l3 (ns2 ++ [(m2.next, x)])).mp hinv3).1
  have hinvL3 : Inv m3 L ns = true := by
    refine Inv_frame m2 m3 L ns hinvL2 hwf3 ?_
    intro y hy
    have hylt : y < m.next := hfoot y hy
    refine hframe3 y ?_ ?_ ?_
    · intro hh
      have := (hfresh l2.end_ (by simp)).1
      omega
    · intro hh
      have h9 : y ∈ l2.end_ :: addrs ns2 := List.mem_cons.mpr (Or.inr hh)
      have := (hfresh y h9).1
      omega
    · omega
  have hdis : ∀ a, a ∈ addrs ns2 → a ∉ addrs ns ∧ a ≠ L.end_ := by
    intro a ha
    have h1 := (hfresh a (List.mem_cons.mpr (Or.inr ha))).1
    constructor
    · intro hmem
      have h2 := hfoot a (List.mem_cons.mpr (Or.inr hmem))
      omega
    · intro hh
      have h2 := hfoot L.end_ (List.mem_cons.mpr (Or.inl rfl))
      omega
  have hends : l2.end_ ≠ L.end_ := by
    have h1 := (hfresh l2.end_ (List.mem_cons.mpr (Or.inl rfl))).1
    have h2 := hfoot L.end_ (List.mem_cons.mpr (Or.inl rfl))
    intro hh
    omega
  exact ⟨m2, l2, ns2, hrun, hmap, hends, hdis, m3, l3, hpush, hinvL3,
    elems_of_Inv m3 L ns hinvL3⟩

/-- Closed instance of C7: copying the one-element list `[5]` and pushing
9 onto the copy leaves the original reading `[5]`. -/
theorem C7_deep_copy_isolation_witness :
    ∃ (m2 : Mem) (l2 : CppList) (ns2 : List (Nat × Int)),
      listCopyF cpId ex1.1 ex1.2 = some (CRes.ok (m2, l2)) ∧
      ns2.map Prod.snd = ([(1, 5)] : List (Nat × Int)).map Prod.snd ∧
      l2.end_ ≠ ex1.2.end_ ∧
      (∀ a, a ∈ addrs ns2 → a ∉ addrs [(1, 5)] ∧ a ≠ ex1.2.end_) ∧
      ∃ m3 l3, pushBack m2 l2 9 = some (m3, l3) ∧
        Inv m3 ex1.2 [(1, 5)] = true ∧
        elems m3 ex1.2 (([(1, 5)] : List (Nat × Int)).length + 1) =
          some (([(1, 5)] : List (Nat × Int)).map Prod.snd) :=
  C7_deep_copy_isolation ex1.1 ex1.2 [(1, 5)] 9 (by decide)

/-! ## Reading values through the invariants -/

/-- A valid single-list state reads every listed node at its stored
value. -/
theorem Inv_readVal (m : Mem) (l : CppList) (ns : List (Nat × Int))
    (h : Inv m l ns = true) : ∀ a v, (a, v) ∈ ns → m.readVal a = some v := by
  rw [Inv_iff] at h
  exact chain_readVal m none ns l.end_ h.2.2.1

/-- The left list of a valid two-list state is itself a valid list
state. -/
theorem Inv2_Inv_left (m : Mem) (la : CppList) (nsa : List (Nat × Int))
    (lb : CppList) (nsb : List (Nat × Int))
    (h : Inv2 m la nsa lb nsb = true) : Inv m la nsa = true := by
  rw [Inv2_iff] at h
  obtain ⟨hwf, hra, hrb, hnd⟩ := h
  rw [repOk_iff] at hra
  rw [Inv_iff]
  refine ⟨hwf, hra.1, hra.2.1, hra.2.2, ?_⟩
  refine List.Nodup.sublist ?_ hnd
  exact List.Sublist.cons₂ _ (List.Sublist.cons _ (List.sublist_append_left _ _))

/-- The right list of a valid two-list state is itself a valid list
state. -/
theorem Inv2_Inv_right (m : Mem) (la : CppList) (nsa : List (Nat × Int))
    (lb : CppList) (nsb : List (Nat × Int))
    (h : Inv2 m la nsa lb nsb = true) : Inv m lb nsb = true := by
  rw [Inv2_iff] at h
  obtain ⟨hwf, hra, hrb, hnd⟩ := h
  rw [repOk_iff] at hrb
  rw [Inv_iff]
  refine ⟨hwf, hrb.1, hrb.2.1, hrb.2.2, ?_⟩
  refine List.Nodup.sublist ?_ hnd
  exact List.Sublist.cons _ (List.Sublist.cons₂ _ (List.sublist_append_right _ _))

/-- `splice` of a range of a list into the same list with `first == last`
is a no-op (src/list.h:370-372). -/
theorem spliceSelf_noop (m : Mem) (l : CppList) (pos k : Nat) :
    spliceSelf m l pos k k = some (m, l) := by
  unfold spliceSelf
  rw [if_pos rfl]

/-! ## The claims -/

/-- C1: for every finite sequence of `push_back`/`push_front`/`pop_back`/
`pop_front` operations starting from a default-constructed list, each pop
applied only to a non-empty list, the run succeeds and forward iteration
from `begin()` to `end()` afterwards yields exactly the element sequence
of the reference double-ended-sequence model. -/
theorem C1_push_pop_model (m : Mem) (ops : List Op) (hwf : m.wf = true)
    (hl : legal [] ops = true) :
    ∃ m2 l2, runOps (listNew m).1 (listNew m).2 ops = some (m2, l2) ∧
      elems m2 l2 ((modelRun [] ops).length + 1) = some (modelRun [] ops) := by
  obtain ⟨m2, l2, ns2, hrun, hinv, hmap, _⟩ :=
    runOps_spec ops (listNew m).1 (listNew m).2 [] (listNew_Inv m hwf) hl
  have hmap2 : ns2.map Prod.snd = modelRun [] ops := by simpa using hmap
  refine ⟨m2, l2, hrun, ?_⟩
  rw [← hmap2, List.length_map]
  exact elems_of_Inv m2 l2 ns2 hinv

/-- Closed instance of C1: the program `push_back 1; push_front 2;
pop_back` on a fresh list in the empty memory. -/
theorem C1_push_pop_model_witness :
    ∃ m2 l2, runOps (listNew ⟨[], 0⟩).1 (listNew ⟨[], 0⟩).2
        [Op.pushBack 1, Op.pushFront 2, Op.popBack] = some (m2, l2) ∧
      elems m2 l2
          ((modelRun [] [Op.pushBack 1, Op.pushFront 2, Op.popBack]).length + 1) =
        some (modelRun [] [Op.pushBack 1, Op.pushFront 2, Op.popBack]) :=
  C1_push_pop_model ⟨[], 0⟩ [Op.pushBack 1, Op.pushFront 2, Op.popBack]
    (by decide) (by decide)

/-- C2 (amended): the code's chain is not circular through the sentinel.
In every valid state the list is empty iff the sentinel's `left_` (prev)
link is null — not a self-pointer; the sentinel's `left_` holds the last
data node when one exists; the first node's prev link is null (not the
sentinel); and the last node's `right_` (next) link is the sentinel's
address (the only circular half of the spec's claim that holds). -/
theorem C2_sentinel_links_amended (m : Mem) (l : CppList)
    (ns : List (Nat × Int)) (h : Inv m l ns = true) :
    emptyQ m l = some ns.isEmpty ∧
    m.readLeft l.end_ = some (lastPtr none ns) ∧
    (∀ a v rest, ns = (a, v) :: rest → m.readLeft a = some none) ∧
    (∀ pre a v, ns = pre ++ [(a, v)] → m.readRight a = some (some l.end_)) := by
  rw [Inv_iff] at h
  obtain ⟨hwf, hend, hch, hbeg, hnd⟩ := h
  have hleft : m.readLeft l.end_ = some (lastPtr none ns) :=
    Mem.readLeft_eq hend
  refine ⟨?_, hleft, ?_, ?_⟩
  · rw [emptyQ, hleft]
    cases ns with
    | nil => rfl
    | cons x r =>
        rcases x with ⟨a, v⟩
        rw [lastPtr_cons]
        obtain ⟨c, hc⟩ := lastPtr_isSome a r
        rw [hc]
        rfl
  · intro a v rest hns
    subst hns
    rw [chain_cons, Bool.and_eq_true, beq_iff_eq] at hch
    exact Mem.readLeft_eq hch.1
  · intro pre a v hns
    subst hns
    rw [chain_append, Bool.and_eq_true] at hch
    have h2 := hch.2
    rw [chain_cons, Bool.and_eq_true, beq_iff_eq] at h2
    exact Mem.readRight_eq h2.1

/-- Closed instance of C2's amended statement at the one-element list
`[5]`. -/
theorem C2_sentinel_links_amended_witness :
    emptyQ ex1.1 ex1.2 = some ([(1, 5)] : List (Nat × Int)).isEmpty ∧
    ex1.1.readLeft ex1.2.end_ = some (lastPtr none [(1, 5)]) ∧
    (∀ a v rest, ([(1, 5)] : List (Nat × Int)) = (a, v) :: rest →
      ex1.1.readLeft a = some none) ∧
    (∀ pre a v, ([(1, 5)] : List (Nat × Int)) = pre ++ [(a, v)] →
      ex1.1.readRight a = some (some ex1.2.end_)) :=
  C2_sentinel_links_amended ex1.1 ex1.2 [(1, 5)] (by decide)

/-- C2 counterexample: in the reachable empty state the sentinel's prev
link is null, not a pointer back at the sentinel, so "empty iff
`sentinel.prev == &sentinel`" fails; and after one `push_back` the first
node's prev link is null, not the sentinel, so the chain is not circular
on the left. -/
theorem C2_sentinel_not_circular :
    emptyQ ex0.1 ex0.2 = some true ∧
    ex0.1.readLeft ex0.2.end_ = some none ∧
    ex0.1.readLeft ex0.2.end_ ≠ some (some ex0.2.end_) ∧
    ex1.1.readLeft ex1.2.begin_ = some none ∧
    ex1.1.readLeft ex1.2.begin_ ≠ some (some ex1.2.end_) := by decide

/-- C3: a successful `insert(pos, v)` (src/list.h:327-339) allocates
exactly one new node (at the previously unused address `m.next`) holding a
copy of `v`, whose `right_` is `pos`'s node and whose `left_` is `pos`'s
former predecessor; `pos`'s node's prev link now holds the new node; the
whole state again satisfies the invariant for the sequence with `v`
inserted before `pos`, iteration yields the old elements with `v` spliced
in, the returned iterator is the new node's address, and every node
outside the sentinel, the existing chain and the new cell is untouched. -/
theorem C3_insert_links_before_pos (m : Mem) (l : CppList)
    (xs ys : List (Nat × Int)) (v : Int) (h : Inv m l (xs ++ ys) = true) :
    ∃ m2 l2,
      insert m l (headAddr ys l.end_) v = some (m2, l2, m.next) ∧
      m.read m.next = none ∧
      Inv m2 l2 (xs ++ (m.next, v) :: ys) = true ∧
      m2.readVal m.next = some v ∧
      m2.readRight m.next = some (some (headAddr ys l.end_)) ∧
      m2.readLeft m.next = some (lastPtr none xs) ∧
      (∀ p w ys2, ys = (p, w) :: ys2 → m2.readLeft p = some (some m.next)) ∧
      elems m2 l2 ((xs ++ (m.next, v) :: ys).length + 1) =
        some ((xs ++ (m.next, v) :: ys).map Prod.snd) ∧
      (xs ++ (m.next, v) :: ys).map Prod.snd =
        xs.map Prod.snd ++ v :: ys.map Prod.snd ∧
      l2.end_ = l.end_ ∧ m2.next = m.next + 1 ∧
      (∀ a, a ≠ l.end_ → a ∉ addrs (xs ++ ys) → a ≠ m.next →
        m2.read a = m.read a) := by
  have hwf : m.wf = true := ((Inv_iff m l (xs ++ ys)).mp h).1
  obtain ⟨m2, l2, hrun, hinv, hend2, hnext2, hframe⟩ := insert_spec m l xs ys v h
  have hch2 : chain m2 none (xs ++ (m.next, v) :: ys) l2.end_ = true :=
    ((Inv_iff m2 l2 _).mp hinv).2.2.1
  rw [hend2] at hch2
  rw [chain_append, Bool.and_eq_true] at hch2
  have hcy := hch2.2
  rw [chain_cons, Bool.and_eq_true, beq_iff_eq] at hcy
  obtain ⟨hnew, hrest⟩ := hcy
  refine ⟨m2, l2, hrun, Mem.read_next_none hwf, hinv, Mem.readVal_eq hnew,
    Mem.readRight_eq hnew, Mem.readLeft_eq hnew, ?_,
    elems_of_Inv m2 l2 _ hinv, by simp, hend2, hnext2, hframe⟩
  intro p w ys2 hys
  subst hys
  rw [chain_cons, Bool.and_eq_true, beq_iff_eq] at hrest
  exact Mem.readLeft_eq hrest.1

/-- Closed instance of C3: inserting 7 before the first element of the
one-element list `[5]`. -/
theorem C3_insert_links_before_pos_witness :
    ∃ m2 l2,
      insert ex1.1 ex1.2 (headAddr [(1, 5)] ex1.2.end_) 7 =
        some (m2, l2, ex1.1.next) ∧
      ex1.1.read ex1.1.next = none ∧
      Inv m2 l2 ([] ++ (ex1.1.next, 7) :: [(1, 5)]) = true ∧
      m2.readVal ex1.1.next = some 7 ∧
      m2.readRight ex1.1.next = some (some (headAddr [(1, 5)] ex1.2.end_)) ∧
      m2.readLeft ex1.1.next = some (lastPtr none []) ∧
      (∀ p w ys2, ([(1, 5)] : List (Nat × Int)) = (p, w) :: ys2 →
        m2.readLeft p = some (some ex1.1.next)) ∧
      elems m2 l2 ((([] ++ (ex1.1.next, 7) :: [(1, 5)] : List (Nat × Int))).length + 1) =
        some ((([] ++ (ex1.1.next, 7) :: [(1, 5)] : List (Nat × Int))).map Prod.snd) ∧
      (([] ++ (ex1.1.next, 7) :: [(1, 5)] : List (Nat × Int))).map Prod.snd =
        List.map Prod.snd ([] : List (Nat × Int)) ++ 7 :: ([(1, 5)] : List (Nat × Int)).map Prod.snd ∧
      l2.end_ = ex1.2.end_ ∧ m2.next = ex1.1.next + 1 ∧
      (∀ a, a ≠ ex1.2.end_ → a ∉ addrs ([] ++ [(1, 5)]) → a ≠ ex1.1.next →
        m2.read a = ex1.1.read a) :=
  C3_insert_links_before_pos ex1.1 ex1.2 [] [(1, 5)] 7 (by decide)

/-- C4: `erase(first, last)` (src/list.h:341-364) removes and destroys
exactly the nodes of the half-open range, relinking once at the
boundaries, and returns `last`; with `first == last` it removes nothing
and returns `last`; and `erase(pos)` for `pos != end()` unlinks and
destroys exactly the node at `pos` and returns the address of the node
that followed it. -/
theorem C4_erase_range_and_single (m : Mem) (l : CppList)
    (xs ys zs : List (Nat × Int)) (h : Inv m l (xs ++ ys ++ zs) = true) :
    (erase m l (headAddr zs l.end_) (headAddr zs l.end_) =
      some (m, l, headAddr zs l.end_)) ∧
    (ys ≠ [] →
      ∃ m2 l2,
        erase m l (headAddr (ys ++ zs) l.end_) (headAddr zs l.end_) =
          some (m2, l2, headAddr zs l.end_) ∧
        Inv m2 l2 (xs ++ zs) = true ∧
        elems m2 l2 ((xs ++ zs).length + 1) = some ((xs ++ zs).map Prod.snd) ∧
        (∀ a, a ∈ addrs ys → m2.read a = none) ∧
        l2.end_ = l.end_ ∧ m2.next = m.next ∧
        (∀ a, a ≠ l.end_ → a ∉ addrs (xs ++ ys ++ zs) →
          m2.read a = m.read a)) ∧
    (∀ a v, ys = [(a, v)] →
      ∃ m2 l2,
        erase1 m l a = some (m2, l2, headAddr zs l.end_) ∧
        Inv m2 l2 (xs ++ zs) = true ∧
        m2.read a = none ∧ l2.end_ = l.end_) := by
  refine ⟨erase_noop m l (headAddr zs l.end_), ?_, ?_⟩
  · intro hys
    obtain ⟨m2, l2, hrun, hinv, hend2, hnext2, hfreed, hframe⟩ :=
      erase_spec m l xs ys zs h hys
    exact ⟨m2, l2, hrun, hinv, elems_of_Inv m2 l2 _ hinv, hfreed,
      hend2, hnext2, hframe⟩
  · intro a v hys
    subst hys
    obtain ⟨m2, l2, hrun, hinv, hend2, hnext2, hfree, hframe⟩ :=
      erase1_spec m l xs a v zs h
    exact ⟨m2, l2, hrun, hinv, hfree, hend2⟩

/-- Closed instance of C4: erasing the single-element range `[2, 3)`
(holding the value 2) from the list `[1, 2, 3, 4]`. -/
theorem C4_erase_range_and_single_witness :
    (erase exA.1 exA.2 (headAddr [(3, 3), (4, 4)] exA.2.end_)
        (headAddr [(3, 3), (4, 4)] exA.2.end_) =
      some (exA.1, exA.2, headAddr [(3, 3), (4, 4)] exA.2.end_)) ∧
    (([(2, 2)] : List (Nat × Int)) ≠ [] →
      ∃ m2 l2,
        erase exA.1 exA.2 (headAddr ([(2, 2)] ++ [(3, 3), (4, 4)]) exA.2.end_)
            (headAddr [(3, 3), (4, 4)] exA.2.end_) =
          some (m2, l2, headAddr [(3, 3), (4, 4)] exA.2.end_) ∧
        Inv m2 l2 ([(1, 1)] ++ [(3, 3), (4, 4)]) = true ∧
        elems m2 l2 ((([(1, 1)] ++ [(3, 3), (4, 4)] : List (Nat × Int))).length + 1) =
          some ((([(1, 1)] ++ [(3, 3), (4, 4)] : List (Nat × Int))).map Prod.snd) ∧
        (∀ a, a ∈ addrs [(2, 2)] → m2.read a = none) ∧
        l2.end_ = exA.2.end_ ∧ m2.next = exA.1.next ∧
        (∀ a, a ≠ exA.2.end_ →
          a ∉ addrs ([(1, 1)] ++ [(2, 2)] ++ [(3, 3), (4, 4)]) →
          m2.read a = exA.1.read a)) ∧
    (∀ a v, ([(2, 2)] : List (Nat × Int)) = [(a, v)] →
      ∃ m2 l2,
        erase1 exA.1 exA.2 a = some (m2, l2, headAddr [(3, 3), (4, 4)] exA.2.end_) ∧
        Inv m2 l2 ([(1, 1)] ++ [(3, 3), (4, 4)]) = true ∧
        m2.read a = none ∧ l2.end_ = exA.2.end_) :=
  C4_erase_range_and_single exA.1 exA.2 [(1, 1)] [(2, 2)] [(3, 3), (4, 4)]
    (by decide)

/-- C5: `B.splice(pos, A, first, last)` (src/list.h:366-390) on distinct
valid lists moves the nodes of `[first, last)` out of `A` and relinks
them, in order and without copying or destroying any value, immediately
before `pos` in `B`; `A` keeps its remaining elements in order;
`first == last` changes nothing (also in the same-list instantiation of
the body); and on the concrete scenario `A = [1,2,3,4]`, `B = {}`,
`B.splice(B.begin(), A, ++A.begin(), --A.end())` leaves `A = [1,4]` and
`B = [2,3]` (a same-list splice of that range before `A.begin()` likewise
reorders `A` to `[2,3,1,4]`). -/
theorem C5_splice_moves_range (m : Mem) (thisL otherL : CppList)
    (cs1 cs2 as1 bs as2 : List (Nat × Int))
    (h : Inv2 m thisL (cs1 ++ cs2) otherL (as1 ++ bs ++ as2) = true) :
    (bs ≠ [] →
      ∃ m2 this2 other2,
        splice m thisL otherL (headAddr cs2 thisL.end_)
            (headAddr (bs ++ as2) otherL.end_) (headAddr as2 otherL.end_) =
          some (m2, this2, other2) ∧
        Inv2 m2 this2 (cs1 ++ bs ++ cs2) other2 (as1 ++ as2) = true ∧
        elems m2 this2 ((cs1 ++ bs ++ cs2).length + 1) =
          some ((cs1 ++ bs ++ cs2).map Prod.snd) ∧
        elems m2 other2 ((as1 ++ as2).length + 1) =
          some ((as1 ++ as2).map Prod.snd) ∧
        this2.end_ = thisL.end_ ∧ other2.end_ = otherL.end_ ∧
        m2.next = m.next ∧
        (∀ a, a ≠ thisL.end_ → a ≠ otherL.end_ →
          a ∉ addrs (cs1 ++ cs2) → a ∉ addrs (as1 ++ bs ++ as2) →
          m2.read a = m.read a)) ∧
    (∀ pos k, splice m thisL otherL pos k k = some (m, thisL, otherL)) ∧
    (∀ p k, spliceSelf m thisL p k k = some (m, thisL)) ∧
    ((splice exB.1 exB.2 exA.2 exB.2.end_ 2 4).map
        (fun r => (elems r.1 r.2.2 9, elems r.1 r.2.1 9)) =
      some (some [1, 4], some [2, 3])) ∧
    ((spliceSelf exA.1 exA.2 exA.2.begin_ 2 4).map
        (fun r => elems r.1 r.2 9) = some (some [2, 3, 1, 4])) := by
  refine ⟨?_, fun pos k => splice_noop m thisL otherL pos k,
    fun p k => spliceSelf_noop m thisL p k, by decide, by decide⟩
  intro hbs
  obtain ⟨m2, this2, other2, hrun, hinv2, hend1, hend2, hnext, hframe⟩ :=
    splice_spec m thisL otherL cs1 cs2 as1 bs as2 h hbs
  refine ⟨m2, this2, other2, hrun, hinv2,
    elems_of_Inv m2 this2 _ (Inv2_Inv_left m2 this2 _ other2 _ hinv2),
    elems_of_Inv m2 other2 _ (Inv2_Inv_right m2 this2 _ other2 _ hinv2),
    hend1, hend2, hnext, hframe⟩

/-- Closed instance of C5: the claim's concrete scenario, moving the
middle range `[2, 3]` of `A = [1, 2, 3, 4]` into the empty list `B`. -/
theorem C5_splice_moves_range_witness :
    (([(2, 2), (3, 3)] : List (Nat × Int)) ≠ [] →
      ∃ m2 this2 other2,
        splice exB.1 exB.2 exA.2 (headAddr [] exB.2.end_)
            (headAddr ([(2, 2), (3, 3)] ++ [(4, 4)]) exA.2.end_)
            (headAddr [(4, 4)] exA.2.end_) =
          some (m2, this2, other2) ∧
        Inv2 m2 this2 ([] ++ [(2, 2), (3, 3)] ++ []) other2
          ([(1, 1)] ++ [(4, 4)]) = true ∧
        elems m2 this2 ((([] ++ [(2, 2), (3, 3)] ++ [] :
            List (Nat × Int))).length + 1) =
          some ((([] ++ [(2, 2), (3, 3)] ++ [] :
            List (Nat × Int))).map Prod.snd) ∧
        elems m2 other2 ((([(1, 1)] ++ [(4, 4)] :
            List (Nat × Int))).length + 1) =
          some ((([(1, 1)] ++ [(4, 4)] : List (Nat × Int))).map Prod.snd) ∧
        this2.end_ = exB.2.end_ ∧ other2.end_ = exA.2.end_ ∧
        m2.next = exB.1.next ∧
        (∀ a, a ≠ exB.2.end_ → a ≠ exA.2.end_ →
          a ∉ addrs (([] ++ [] : List (Nat × Int))) →
          a ∉ addrs ([(1, 1)] ++ [(2, 2), (3, 3)] ++ [(4, 4)]) →
          m2.read a = exB.1.read a)) ∧
    (∀ pos k, splice exB.1 exB.2 exA.2 pos k k = some (exB.1, exB.2, exA.2)) ∧
    (∀ p k, spliceSelf exB.1 exB.2 p k k = some (exB.1, exB.2)) ∧
    ((splice exB.1 exB.2 exA.2 exB.2.end_ 2 4).map
        (fun r => (elems r.1 r.2.2 9, elems r.1 r.2.1 9)) =
      some (some [1, 4], some [2, 3])) ∧
    ((spliceSelf exA.1 exA.2 exA.2.begin_ 2 4).map
        (fun r => elems r.1 r.2 9) = some (some [2, 3, 1, 4])) :=
  C5_splice_moves_range exB.1 exB.2 exA.2 [] [] [(1, 1)] [(2, 2), (3, 3)]
    [(4, 4)] (by decide)

/-- C6: strong exception guarantee (src/list.h:224-228, 327-339, 392-405).
When the element copy fails: `insert` throws before mutating anything and
the memory it reports is exactly the input memory; a copy construction
that throws leaves every address reading exactly as before the call (all
nodes allocated before the failure point, and the temporary's sentinel,
are released — no partial state, no leak); a copy assignment that throws
likewise leaves the whole memory, in particular the assignment target,
reading exactly as before.  On the concrete one-element list with the
always-failing copy, both failing paths are actually taken and restore
the heap literally. -/
theorem C6_strong_exception_guarantee (cp : Int → Option Int) (m : Mem)
    (hwf : m.wf = true) :
    (∀ l pos v, cp v = none →
      insertF cp m l pos v = some (CRes.thrown m)) ∧
    (∀ l pos v m2, insertF cp m l pos v = some (CRes.thrown m2) → m2 = m) ∧
    (∀ other m2, listCopyF cp m other = some (CRes.thrown m2) →
      (∀ x, m2.read x = m.read x) ∧ m2.wf = true) ∧
    (∀ thisL other m2, assignF cp m thisL other = some (CRes.thrown m2) →
      (∀ x, m2.read x = m.read x) ∧ m2.wf = true) ∧
    ((listCopyF cpNone ex1.1 ex1.2).map
        (fun r => match r with
          | CRes.thrown m2 => m2.heap == ex1.1.heap
          | CRes.ok _ => false) = some true) ∧
    ((assignF cpNone ex1.1 ex1.2 ex1.2).map
        (fun r => match r with
          | CRes.thrown m2 => m2.heap == ex1.1.heap
          | CRes.ok _ => false) = some true) := by
  refine ⟨?_, ?_, ?_, ?_, by decide, by decide⟩
  · intro l pos v hcp
    exact insertF_fails cp m l pos v hcp
  · intro l pos v m2 hth
    exact insertF_thrown_eq cp m l pos v m2 hth
  · intro other m2 hth
    exact listCopyF_thrown cp m other m2 hwf hth
  · intro thisL other m2 hth
    exact assignF_thrown cp m thisL other m2 hwf hth

/-- Closed instance of C6 with the always-failing element copy over the
one-element list's memory. -/
theorem C6_strong_exception_guarantee_witness :
    (∀ l pos v, cpNone v = none →
      insertF cpNone ex1.1 l pos v = some (CRes.thrown ex1.1)) ∧
    (∀ l pos v m2, insertF cpNone ex1.1 l pos v = some (CRes.thrown m2) →
      m2 = ex1.1) ∧
    (∀ other m2, listCopyF cpNone ex1.1 other = some (CRes.thrown m2) →
      (∀ x, m2.read x = ex1.1.read x) ∧ m2.wf = true) ∧
    (∀ thisL other m2, assignF cpNone ex1.1 thisL other = some (CRes.thrown m2) →
      (∀ x, m2.read x = ex1.1.read x) ∧ m2.wf = true) ∧
    ((listCopyF cpNone ex1.1 ex1.2).map
        (fun r => match r with
          | CRes.thrown m2 => m2.heap == ex1.1.heap
          | CRes.ok _ => false) = some true) ∧
    ((assignF cpNone ex1.1 ex1.2 ex1.2).map
        (fun r => match r with
          | CRes.thrown m2 => m2.heap == ex1.1.heap
          | CRes.ok _ => false) = some true) :=
  C6_strong_exception_guarantee cpNone ex1.1 (by decide)

/-- C8: refuted — self-assignment of the empty list corrupts it
(src/list.h:224-228 with 418-428).  Before the call the empty list `L`
satisfies its representation invariant; `L = L` completes normally, but
afterwards `L`'s `begin_` cache holds the address of the temporary's
sentinel, which the end of `operator=` has just freed: reading `begin_`
yields nothing and the representation invariant for the empty sequence no
longer holds.  Self-swap `swap(L, L)`, by contrast, leaves the empty list
unchanged. -/
theorem C8_self_assignment_empty_bug :
    Inv ex0.1 ex0.2 [] = true ∧
    (assignF cpId ex0.1 ex0.2 ex0.2).map
        (fun r => match r with
          | CRes.ok (m2, l2) => ((m2.read l2.begin_).isNone, repOk m2 l2 [])
          | CRes.thrown _ => (false, true)) = some (true, false) ∧
    swapSelf ex0.1 ex0.2 = some (ex0.1, ex0.2) := by decide

/-- C9: node and iterator stability.  Every node an operation does not
destroy keeps its address and value: after `insert` all previous nodes
read their old values; after `erase` all nodes outside the erased range
do; after `splice` every node of both lists does, and the nodes of the
moved range — relinked, not copied — now belong to the destination list's
chain; and `swap` preserves every node of both lists. -/
theorem C9_iterator_and_node_stability :
    (∀ (m : Mem) (l : CppList) (xs ys : List (Nat × Int)) (v : Int),
      Inv m l (xs ++ ys) = true →
      ∃ m2 l2, insert m l (headAddr ys l.end_) v = some (m2, l2, m.next) ∧
        ∀ a w, (a, w) ∈ xs ++ ys → m2.readVal a = some w) ∧
    (∀ (m : Mem) (l : CppList) (xs ys zs : List (Nat × Int)),
      Inv m l (xs ++ ys ++ zs) = true → ys ≠ [] →
      ∃ m2 l2, erase m l (headAddr (ys ++ zs) l.end_) (headAddr zs l.end_) =
          some (m2, l2, headAddr zs l.end_) ∧
        ∀ a w, (a, w) ∈ xs ++ zs → m2.readVal a = some w) ∧
    (∀ (m : Mem) (thisL otherL : CppList)
        (cs1 cs2 as1 bs as2 : List (Nat × Int)),
      Inv2 m thisL (cs1 ++ cs2) otherL (as1 ++ bs ++ as2) = true → bs ≠ [] →
      ∃ m2 this2 other2,
        splice m thisL otherL (headAddr cs2 thisL.end_)
            (headAddr (bs ++ as2) otherL.end_) (headAddr as2 otherL.end_) =
          some (m2, this2, other2) ∧
        (∀ a w, (a, w) ∈ cs1 ++ cs2 → m2.readVal a = some w) ∧
        (∀ a w, (a, w) ∈ as1 ++ as2 → m2.readVal a = some w) ∧
        (∀ a w, (a, w) ∈ bs →
          (a, w) ∈ cs1 ++ bs ++ cs2 ∧ m2.readVal a = some w)) ∧
    (∀ (m : Mem) (a b : CppList) (nsa nsb : List (Nat × Int)),
      Inv2 m a nsa b nsb = true →
      ∃ m2 a2 b2, swapLists m a b = some (m2, a2, b2) ∧
        ∀ x v, (x, v) ∈ nsa ∨ (x, v) ∈ nsb → m2.readVal x = some v) := by
  refine ⟨?_, ?_, ?_, ?_⟩
  · intro m l xs ys v h
    obtain ⟨m2, l2, hrun, hinv, _, _, _⟩ := insert_spec m l xs ys v h
    have hrd := Inv_readVal m2 l2 _ hinv
    refine ⟨m2, l2, hrun, ?_⟩
    intro a w hm
    refine hrd a w ?_
    simp only [List.mem_append, List.mem_cons] at hm ⊢
    tauto
  · intro m l xs ys zs h hys
    obtain ⟨m2, l2, hrun, hinv, _, _, _, _⟩ := erase_spec m l xs ys zs h hys
    exact ⟨m2, l2, hrun, Inv_readVal m2 l2 _ hinv⟩
  · intro m thisL otherL cs1 cs2 as1 bs as2 h hbs
    obtain ⟨m2, this2, other2, hrun, hinv2, _, _, _, _⟩ :=
      splice_spec m thisL otherL cs1 cs2 as1 bs as2 h hbs
    have hrdT := Inv_readVal m2 this2 _ (Inv2_Inv_left m2 this2 _ other2 _ hinv2)
    have hrdO := Inv_readVal m2 other2 _ (Inv2_Inv_right m2 this2 _ other2 _ hinv2)
    refine ⟨m2, this2, other2, hrun, ?_, hrdO, ?_⟩
    · intro a w hm
      refine hrdT a w ?_
      simp only [List.mem_append] at hm ⊢
      tauto
    · intro a w hm
      have hmem : (a, w) ∈ cs1 ++ bs ++ cs2 := by
        simp only [List.mem_append]
        tauto
      exact ⟨hmem, hrdT a w hmem⟩
  · intro m a b nsa nsb h
    obtain ⟨m2, a2, b2, hrun, _, _, hvals⟩ := swapLists_vals m a b nsa nsb h
    exact ⟨m2, a2, b2, hrun, hvals⟩

/-- C10: refuted — `swap` (src/list.h:418-428) does not maintain the
`begin_`-cache invariant for a list that becomes empty.  For `A = [1]`
and empty `B` the two-list invariant holds before `swap(A, B)`; the call
succeeds, but afterwards the now-empty `A`'s `begin_` holds the address
of `B`'s sentinel instead of `A`'s own, so `A.begin() != A.end()` for an
empty `A`: the layout invariant fails, `repOk` for the empty sequence is
false and forward iteration over `A` no longer terminates at `end()`
(while the element moved to `B` survives intact). -/
theorem C10_swap_breaks_begin_cache :
    Inv2 swB.1 swA.2 [(1, 1)] swB.2 [] = true ∧
    (swapLists swB.1 swA.2 swB.2).map
        (fun r => (r.2.1.begin_ == swB.2.end_, r.2.1.begin_ == r.2.1.end_,
          repOk r.1 r.2.1 [], (elems r.1 r.2.1 5).isSome,
          elems r.1 r.2.2 5)) =
      some (true, false, false, false, some [1]) := by
  refine ⟨by decide, ?_⟩
  rfl

end LinkedList
